import Mathlib

/-!
grpc-file-streaming: chunked upload and JSON mutation.

A shallow embedding of `internal/upload/file_handling.go` and `internal/api/grpc.go`.

* Go `error` values are the inductive `Error`; `io.EOF` is a distinguished constructor and
  `fmt.Errorf("...: %w", err)` is `Error.Wrap`.
* An `io.Reader` / `io.Writer` is a method table over an explicit state.
* Loops whose termination depends on the reader take a fuel argument and return `none` when
  the fuel runs out.
* A `float64` is its sign and its magnitude in units of `2^-1074`; sums are rounded to the
  nearest value, ties to even. Only finite values occur: `encoding/json` decodes no other, and
  adding 1000 does not overflow.
* The library functions the code calls (`bytes.Buffer`, `io.ReadAll`, `json.Unmarshal`,
  `json.Marshal`, `math.Modf`, `strings.ToLower`) are modelled after their documentation.
* What Go leaves to the implementation (the conversion to `int64` of a `float64` out of range,
  the order in which `range` visits a map) is a parameter, `Runtime`.
* A panic is the error of `Except Panic`. The mutator injected into the handler may panic;
  the handler has no `recover`, so such a panic ends the run after the deferred Close.
* The decoder of `encoding/json` scans the bytes of the input one by one and reads UTF-8 only
  inside string literals.
* The working directory is a map from file names to contents; each call of package `os` that
  the code makes (`os.OpenFile`, `(*os.File).Write`, `os.Remove`) may be refused by the
  operating system, `OS`.
* What a destination is asked to do is observed through a log of its Write calls
  (`recording`, `fileWriter`), which does not change the run.
-/

namespace upload

/-- One byte. -/
abbrev Byte := Fin 256

/-- Go `error` values. -/
inductive Error where
  /-- The sentinel `io.EOF`. -/
  | EOF
  /-- A leaf error with the given message (`errors.New`). -/
  | New (msg : String)
  /-- The error `fmt.Errorf(pfx + ": %w", cause)`. -/
  | Wrap (pfx : String) (cause : Error)
deriving DecidableEq, Repr

/-- Go `errors.Is(err, target)`: `target` occurs on the unwrap chain of `err`. -/
def Error.Is (err target : Error) : Bool :=
  if err = target then true
  else match err with
    | .Wrap _ cause => cause.Is target
    | _ => false

/-- Go `err.Error()`. -/
def Error.Message : Error → String
  | .EOF => "EOF"
  | .New msg => msg
  | .Wrap pfx cause => pfx ++ ": " ++ cause.Message

/-- An `io.Reader` over the state `ρ`: `Read r n` is a call `Read(p)` with `len(p) = n`; it yields
the bytes `p[:k]` that were filled in, the error, and the next state. -/
structure Reader (ρ : Type) where
  Read : ρ → Nat → (List Byte × Option Error) × ρ
  /-- A Read never fills in more than `len(p)` bytes. -/
  Read_le : ∀ r n, (Read r n).1.1.length ≤ n

/-- An `io.Writer` over the state `ω`: `Write w p` yields the count, the error and the next state. -/
structure Writer (ω : Type) where
  Write : ω → List Byte → (Nat × Option Error) × ω

/-- Go `(*bytes.Buffer).Read` on a buffer holding the unread bytes `s`. -/
def bufferRead (s : List Byte) (n : Nat) : (List Byte × Option Error) × List Byte :=
  if s = [] then
    if n = 0 then (([], none), []) else (([], some Error.EOF), [])
  else ((s.take n, none), s.drop n)

/-- The reader `bytes.NewBuffer(s)`. -/
def bytesBuffer : Reader (List Byte) where
  Read := bufferRead
  Read_le := by
    intro r n
    unfold bufferRead
    split
    · split <;> simp
    · simp [List.length_take]

/-- Go `(*bytes.Buffer).Write`: appends, never fails. -/
def bufferWriter : Writer (List Byte) where
  Write := fun w p => ((p.length, none), w ++ p)

/-- The page size, `len(buf)` for `buf := make([]byte, 4096)`. -/
def pageSize : Nat := 4096

/-- The function `FileByChunks(file, dest)`, with `fuel` bounding the number of loop iterations.
The result is the returned error with the final states of `file` and `dest`. -/
def FileByChunks {ρ ω : Type} (R : Reader ρ) (W : Writer ω) :
    Nat → ρ → ω → Option (Option Error × ρ × ω)
  | 0, _, _ => none
  | fuel + 1, file, dest =>
    match R.Read file pageSize with
    | ((page, rerr), file1) =>
      -- if err != nil { if errors.Is(err, io.EOF) { break } }
      if (match rerr with
          | some e => e.Is Error.EOF
          | none => false) then
        some (none, file1, dest)
      else
        -- n, err = dest.Write(buf[:n])
        match W.Write dest page with
        | ((n, werr), dest1) =>
          match werr with
          | some e => some (some (Error.Wrap "writing to file" e), file1, dest1)
          | none =>
            if n < pageSize then some (none, file1, dest1)
            else FileByChunks R W fuel file1 dest1

/-- The number of loop iterations that always suffices for a byte buffer of `len` bytes. -/
def bufferFuel (len : Nat) : Nat := len / pageSize + 2

end upload

namespace upload

/-- A finite `float64`: the sign bit and the magnitude, counted in units of `2^-1074` (the
smallest positive `float64`). -/
structure Float64 where
  neg : Bool
  mag : Nat
deriving DecidableEq, Repr

/-- The magnitude of `1.0`. -/
def Float64.unit : Nat := 2 ^ 1074

/-- The magnitude of the largest finite `float64`, `(2^53 - 1) * 2^971`. -/
def Float64.maxMag : Nat := (2 ^ 53 - 1) * 2 ^ 2045

/-- The number of low bits a magnitude has to drop to fit a 53-bit significand; `fuel` bounds
the search. -/
def Float64.excessBits : Nat → Nat → Nat
  | 0, _ => 0
  | fuel + 1, a => if a < 2 ^ 53 then 0 else Float64.excessBits fuel (a / 2) + 1

/-- Rounding of the magnitude `num / den` to the nearest magnitude with a 53-bit significand,
ties to the even significand. -/
def Float64.round (num den : Nat) : Nat :=
  let s := Float64.excessBits (num / den) (num / den)
  let d := den * 2 ^ s
  let q := num / d
  let r := num % d
  if 2 * r < d then q * 2 ^ s
  else if 2 * r = d ∧ q % 2 = 0 then q * 2 ^ s
  else (q + 1) * 2 ^ s

/-- The magnitudes that are `float64` values: at most 53 significant bits, and finite. -/
def Float64.Valid (f : Float64) : Prop :=
  f.mag % 2 ^ Float64.excessBits f.mag f.mag = 0 ∧ f.mag ≤ Float64.maxMag

instance (f : Float64) : Decidable f.Valid := by
  unfold Float64.Valid
  exact inferInstance

/-- The signed magnitude of a `float64`, in units of `2^-1074`. -/
def Float64.toInt (f : Float64) : Int :=
  if f.neg then -(f.mag : Int) else f.mag

/-- Go `a + b` on finite `float64` values whose sum does not overflow (as `f + 1000` never does,
`Float64.add_thousand_finite`): the exact sum, rounded. An exact sum of zero is `-0` only when
both operands are negative. -/
def Float64.add (a b : Float64) : Float64 :=
  let sum := a.toInt + b.toInt
  if sum = 0 then ⟨a.neg && b.neg, 0⟩
  else ⟨decide (sum < 0), Float64.round sum.natAbs 1⟩

/-- Go `f > 0`. -/
def Float64.isPositive (f : Float64) : Bool :=
  !f.neg && decide (0 < f.mag)

/-- Go `math.Modf(f)`: the integral part and the fractional part, both with the sign of `f`. -/
def Modf (f : Float64) : Float64 × Float64 :=
  (⟨f.neg, f.mag / Float64.unit * Float64.unit⟩, ⟨f.neg, f.mag % Float64.unit⟩)

end upload

namespace upload

/-- A Go value of type `any` as `encoding/json` produces it: `nil`, `bool`, `float64`, `string`,
`[]any` or `map[string]any` (in the order of first insertion of the keys). -/
inductive Value where
  | null
  | bool (b : Bool)
  | number (f : Float64)
  | string (s : String)
  | array (elems : List Value)
  | object (members : List (String × Value))
deriving Repr

/-- A Go `map[string]any`: its entries, no key twice. -/
abbrev GoMap := List (String × Value)

/-- The map read `m[key]`. -/
def GoMap.get : GoMap → String → Option Value
  | [], _ => none
  | (k, v) :: rest, key => if k = key then some v else GoMap.get rest key

/-- The map assignment `m[key] = val`. -/
def GoMap.set : GoMap → String → Value → GoMap
  | [], key, val => [(key, val)]
  | (k, v) :: rest, key, val =>
    if k = key then (k, val) :: rest else (k, v) :: GoMap.set rest key val

/-- The keys of a map. -/
def GoMap.keys (m : GoMap) : List String := m.map Prod.fst

/-! ### `encoding/json`: decoding -/

/-- Go `utf8.DecodeRune` at the head of `bs`: the rune and the bytes left; an invalid or short
sequence yields U+FFFD and consumes one byte. -/
def decodeRune : List Byte → Option (Char × List Byte)
  | [] => none
  | b0 :: rest =>
    let cont (b : Byte) (lo hi : Nat) : Bool := lo ≤ b.val && b.val ≤ hi
    let bad : Option (Char × List Byte) := some (Char.ofNat 0xFFFD, rest)
    if b0.val < 0x80 then some (Char.ofNat b0.val, rest)
    else if 0xC2 ≤ b0.val ∧ b0.val ≤ 0xDF then
      match rest with
      | b1 :: r1 =>
        if cont b1 0x80 0xBF then some (Char.ofNat ((b0.val - 0xC0) * 64 + (b1.val - 0x80)), r1)
        else bad
      | _ => bad
    else if 0xE0 ≤ b0.val ∧ b0.val ≤ 0xEF then
      match rest with
      | b1 :: b2 :: r2 =>
        let lo := if b0.val = 0xE0 then 0xA0 else 0x80
        let hi := if b0.val = 0xED then 0x9F else 0xBF
        if cont b1 lo hi && cont b2 0x80 0xBF then
          some (Char.ofNat ((b0.val - 0xE0) * 4096 + (b1.val - 0x80) * 64 + (b2.val - 0x80)), r2)
        else bad
      | _ => bad
    else if 0xF0 ≤ b0.val ∧ b0.val ≤ 0xF4 then
      match rest with
      | b1 :: b2 :: b3 :: r3 =>
        let lo := if b0.val = 0xF0 then 0x90 else 0x80
        let hi := if b0.val = 0xF4 then 0x8F else 0xBF
        if cont b1 lo hi && cont b2 0x80 0xBF && cont b3 0x80 0xBF then
          some (Char.ofNat ((b0.val - 0xF0) * 262144 + (b1.val - 0x80) * 4096 +
            (b2.val - 0x80) * 64 + (b3.val - 0x80)), r3)
        else bad
      | _ => bad
    else bad

/-- A byte of the input as the scanner of `encoding/json` looks at it: the character with
that code. -/
def byteChar (b : Byte) : Char := Char.ofNat b.val

/-- The byte behind a character of the input. -/
def charByte (c : Char) : Byte := Fin.ofNat c.toNat

/-- The UTF-8 encoding of a rune (Go `utf8.EncodeRune`). -/
def encodeRune (c : Char) : List Byte :=
  let n := c.toNat
  if n < 0x80 then [Fin.ofNat n]
  else if n < 0x800 then [Fin.ofNat (0xC0 + n / 64), Fin.ofNat (0x80 + n % 64)]
  else if n < 0x10000 then
    [Fin.ofNat (0xE0 + n / 4096), Fin.ofNat (0x80 + n / 64 % 64), Fin.ofNat (0x80 + n % 64)]
  else
    [Fin.ofNat (0xF0 + n / 262144), Fin.ofNat (0x80 + n / 4096 % 64),
      Fin.ofNat (0x80 + n / 64 % 64), Fin.ofNat (0x80 + n % 64)]

/-- The bytes of a Go string. -/
def stringBytes (s : String) : List Byte := s.data.flatMap encodeRune

end upload

namespace upload

/-- A lower-case hexadecimal digit. -/
def hexDigit (n : Nat) : Char := if n < 10 then Char.ofNat (48 + n) else Char.ofNat (87 + n)

/-- Go `strconv.Quote(string(c))` for a byte `c`, without the quotes around it: the character
with that code when `strconv.IsPrint` holds of it (0x20 to 0x7E, and 0xA1 to 0xFF but 0xAD),
the backslash and the double quote behind a backslash, the escapes `\a`, `\b`, `\f`, `\n`,
`\r`, `\t`, `\v`, `\xXX` for the other control characters and `\u00XX` for the rest. -/
def quoteByte (b : Nat) : String :=
  if b = 92 ∨ b = 34 then String.mk ['\\', Char.ofNat b]
  else if (0x20 ≤ b ∧ b ≤ 0x7E) ∨ (0xA1 ≤ b ∧ b ≤ 0xFF ∧ b ≠ 0xAD) then String.mk [Char.ofNat b]
  else if b = 7 then "\\a"
  else if b = 8 then "\\b"
  else if b = 12 then "\\f"
  else if b = 10 then "\\n"
  else if b = 13 then "\\r"
  else if b = 9 then "\\t"
  else if b = 11 then "\\v"
  else if b < 0x20 ∨ b = 0x7F then String.mk ['\\', 'x', hexDigit (b / 16), hexDigit (b % 16)]
  else String.mk ['\\', 'u', '0', '0', hexDigit (b / 16 % 16), hexDigit (b % 16)]

/-- The function `quoteChar(c)` of `encoding/json`: the rendering of a byte in a syntax error
message. -/
def quoteChar (c : Char) : String :=
  if c = '\'' then "'\\''" else if c = '"' then "'\"'" else "'" ++ quoteByte c.toNat ++ "'"

/-- A `*json.SyntaxError` for the character `c` met in the given context. -/
def invalidChar (c : Char) (context : String) : Error :=
  .New ("invalid character " ++ quoteChar c ++ " " ++ context)

/-- The `*json.SyntaxError` at the end of the input. -/
def unexpectedEnd : Error := .New "unexpected end of JSON input"

/-- A `*json.UnmarshalTypeError`. -/
def unmarshalTypeError (value type : String) : Error :=
  .New ("json: cannot unmarshal " ++ value ++ " into Go value of type " ++ type)

/-- JSON white space. -/
def isSpace (c : Char) : Bool := c = ' ' || c = '\t' || c = '\r' || c = '\n'

/-- Skips white space. -/
def skipSpace : List Char → List Char
  | [] => []
  | c :: cs => if isSpace c then skipSpace cs else c :: cs

/-- The value of a decimal digit. -/
def digitVal (c : Char) : Option Nat :=
  if '0' ≤ c ∧ c ≤ '9' then some (c.toNat - 48) else none

/-- The value of a hexadecimal digit. -/
def hexVal (c : Char) : Option Nat :=
  if '0' ≤ c ∧ c ≤ '9' then some (c.toNat - 48)
  else if 'a' ≤ c ∧ c ≤ 'f' then some (c.toNat - 87)
  else if 'A' ≤ c ∧ c ≤ 'F' then some (c.toNat - 55)
  else none

/-- A run of decimal digits: the number they spell after the digits `acc`, how many there are,
and the rest of the input. -/
def scanDigits : List Char → Nat → Nat → Nat × Nat × List Char
  | [], acc, n => (acc, n, [])
  | c :: cs, acc, n =>
    match digitVal c with
    | some d => scanDigits cs (acc * 10 + d) (n + 1)
    | none => (acc, n, c :: cs)

/-- A JSON number literal, `(-1)^neg * mant * 10^exp`. -/
structure NumLit where
  neg : Bool
  mant : Nat
  exp : Int
deriving DecidableEq, Repr

/-- The optional exponent part of a number literal, after mantissa `mant` with `fracDigits`
digits behind the decimal point. -/
def scanExponent (neg : Bool) (mant fracDigits : Nat) (cs : List Char) :
    Except Error (NumLit × List Char) :=
  let noExp : Except Error (NumLit × List Char) := .ok (⟨neg, mant, -(fracDigits : Int)⟩, cs)
  let digits (eneg : Bool) (r : List Char) : Except Error (NumLit × List Char) :=
    match r with
    | [] => .error unexpectedEnd
    | c :: _ =>
      match scanDigits r 0 0 with
      | (_, 0, _) => .error (invalidChar c "in exponent of numeric literal")
      | (e, _, rest) =>
        .ok (⟨neg, mant, (if eneg then -(e : Int) else e) - fracDigits⟩, rest)
  match cs with
  | 'e' :: '+' :: r => digits false r
  | 'e' :: '-' :: r => digits true r
  | 'e' :: r => digits false r
  | 'E' :: '+' :: r => digits false r
  | 'E' :: '-' :: r => digits true r
  | 'E' :: r => digits false r
  | _ => noExp

/-- The optional fraction and exponent of a number literal, after the integer part `int`. -/
def scanFraction (neg : Bool) (int : Nat) (cs : List Char) : Except Error (NumLit × List Char) :=
  match cs with
  | '.' :: r =>
    match r with
    | [] => .error unexpectedEnd
    | c :: _ =>
      match scanDigits r int 0 with
      | (_, 0, _) => .error (invalidChar c "after decimal point in numeric literal")
      | (mant, n, rest) => scanExponent neg mant n rest
  | _ => scanExponent neg int 0 cs

/-- A number literal whose first character (after the sign, if `neg`) heads `cs`. -/
def scanNumber (neg : Bool) (cs : List Char) : Except Error (NumLit × List Char) :=
  match cs with
  | [] => .error unexpectedEnd
  | '0' :: r => scanFraction neg 0 r
  | c :: _ =>
    match scanDigits cs 0 0 with
    | (_, 0, _) => .error (invalidChar c "in numeric literal")
    | (int, _, rest) => scanFraction neg int rest

/-- Go `strconv.ParseFloat(s, 64)` on a number literal: the nearest `float64`, or `none` when
that is out of range. -/
def ParseFloat (lit : NumLit) : Option Float64 :=
  let mag :=
    if 0 ≤ lit.exp then Float64.round (lit.mant * 10 ^ lit.exp.toNat * Float64.unit) 1
    else Float64.round (lit.mant * Float64.unit) (10 ^ (-lit.exp).toNat)
  if mag ≤ Float64.maxMag then some ⟨lit.neg, mag⟩ else none

/-- The four hexadecimal digits of a `\u` escape at the head of the input: their value. -/
def hex4 : Nat → Nat → List Char → Except Error (Nat × List Char)
  | 0, acc, cs => .ok (acc, cs)
  | _ + 1, _, [] => .error unexpectedEnd
  | n + 1, acc, c :: cs =>
    match hexVal c with
    | some d => hex4 n (acc * 16 + d) cs
    | none => .error (invalidChar c "in \\u hexadecimal character escape")

/-- The body of a string literal, after the opening quote, unquoted as `encoding/json` does:
escapes are replaced, a surrogate pair of `\u` escapes is one rune, a lone surrogate is U+FFFD,
and the bytes from 0x80 on are read as UTF-8, every byte that is not part of a valid sequence
as U+FFFD. `acc` holds the runes read so far, in reverse. -/
def scanString : Nat → List Char → List Char → Except Error (String × List Char)
  | 0, _, _ => .error unexpectedEnd
  | _, [], _ => .error unexpectedEnd
  | fuel + 1, c :: cs, acc =>
    if c = '"' then .ok (String.mk acc.reverse, cs)
    else if c = '\\' then
      match cs with
      | [] => .error unexpectedEnd
      | e :: r =>
        if e = '"' then scanString fuel r ('"' :: acc)
        else if e = '\\' then scanString fuel r ('\\' :: acc)
        else if e = '/' then scanString fuel r ('/' :: acc)
        else if e = 'b' then scanString fuel r (Char.ofNat 8 :: acc)
        else if e = 'f' then scanString fuel r (Char.ofNat 12 :: acc)
        else if e = 'n' then scanString fuel r ('\n' :: acc)
        else if e = 'r' then scanString fuel r ('\r' :: acc)
        else if e = 't' then scanString fuel r ('\t' :: acc)
        else if e = 'u' then
          match hex4 4 0 r with
          | .error err => .error err
          | .ok (rr, r1) =>
            if 0xD800 ≤ rr ∧ rr < 0xE000 then
              -- a surrogate: with a low surrogate escaped right behind it, one rune
              match r1 with
              | '\\' :: 'u' :: r2 =>
                match hex4 4 0 r2 with
                | .ok (rr1, r3) =>
                  if rr < 0xDC00 ∧ 0xDC00 ≤ rr1 ∧ rr1 < 0xE000 then
                    scanString fuel r3
                      (Char.ofNat ((rr - 0xD800) * 1024 + (rr1 - 0xDC00) + 0x10000) :: acc)
                  else scanString fuel r1 (Char.ofNat 0xFFFD :: acc)
                | .error _ => scanString fuel r1 (Char.ofNat 0xFFFD :: acc)
              | _ => scanString fuel r1 (Char.ofNat 0xFFFD :: acc)
            else scanString fuel r1 (Char.ofNat rr :: acc)
        else .error (invalidChar e "in string escape code")
    else if c.toNat < 0x20 then .error (invalidChar c "in string literal")
    else if c.toNat < 0x80 then scanString fuel cs (c :: acc)
    else
      -- rr, size := utf8.DecodeRune(s[r:])
      match decodeRune (((c :: cs).take 4).map charByte) with
      | none => .error unexpectedEnd
      | some (rr, rest) =>
        scanString fuel (cs.drop (((c :: cs).take 4).length - rest.length - 1)) (rr :: acc)

/-- The rest of a literal name, e.g. `rue` after the `t` of `true`. -/
def scanLiteral (name : String) : List Char → List Char → Except Error (List Char)
  | [], cs => .ok cs
  | _ :: _, [] => .error unexpectedEnd
  | x :: xs, c :: cs =>
    if c = x then scanLiteral name xs cs
    else .error (invalidChar c ("in literal " ++ name ++ " (expecting " ++ quoteChar x ++ ")"))

/-- The nesting depth the scanner accepts. -/
def maxNestingDepth : Nat := 10000

/-- What decoding has got so far: the first `UnmarshalTypeError` saved, and the input left. -/
abbrev Scan (α : Type) := Except Error (α × Option Error × List Char)

mutual
/-- One JSON value at the head of the input (after white space), decoded into an `any`.
`depth` counts the arrays and objects that are open; `saved` is the first error saved so far by
the decoder (a number out of the `float64` range). -/
def scanValue : Nat → Nat → Option Error → List Char → Scan Value
  | 0, _, _, _ => .error unexpectedEnd
  | fuel + 1, depth, saved, cs =>
    match skipSpace cs with
    | [] => .error unexpectedEnd
    | c :: r =>
      if c = '\x7b' then
        if maxNestingDepth ≤ depth then .error (invalidChar c "exceeded max depth")
        else
          match skipSpace r with
          | [] => .error unexpectedEnd
          | '\x7d' :: r1 => .ok (.object [], saved, r1)
          | _ :: _ =>
            match scanMembers fuel (depth + 1) saved (skipSpace r) [] with
            | .error e => .error e
            | .ok (ms, saved1, r1) => .ok (.object ms, saved1, r1)
      else if c = '[' then
        if maxNestingDepth ≤ depth then .error (invalidChar c "exceeded max depth")
        else
          match skipSpace r with
          | [] => .error unexpectedEnd
          | ']' :: r1 => .ok (.array [], saved, r1)
          | _ :: _ =>
            match scanElems fuel (depth + 1) saved r [] with
            | .error e => .error e
            | .ok (es, saved1, r1) => .ok (.array es, saved1, r1)
      else if c = '"' then
        match scanString r.length r [] with
        | .error e => .error e
        | .ok (s, r1) => .ok (.string s, saved, r1)
      else if c = 't' then
        match scanLiteral "true" ['r', 'u', 'e'] r with
        | .error e => .error e
        | .ok r1 => .ok (.bool true, saved, r1)
      else if c = 'f' then
        match scanLiteral "false" ['a', 'l', 's', 'e'] r with
        | .error e => .error e
        | .ok r1 => .ok (.bool false, saved, r1)
      else if c = 'n' then
        match scanLiteral "null" ['u', 'l', 'l'] r with
        | .error e => .error e
        | .ok r1 => .ok (.null, saved, r1)
      else if c = '-' ∨ (digitVal c).isSome then
        match scanNumber (c = '-') (if c = '-' then r else c :: r) with
        | .error e => .error e
        | .ok (lit, r1) =>
          match ParseFloat lit with
          | some f => .ok (.number f, saved, r1)
          | none =>
            let text := String.mk ((c :: r).take ((c :: r).length - r1.length))
            .ok (.null, saved.orElse (fun _ =>
              some (unmarshalTypeError ("number " ++ text) "float64")), r1)
      else .error (invalidChar c "looking for beginning of value")
/-- The elements of an array, the first one at the head of the input, up to the closing
bracket. `acc` holds the elements read so far. -/
def scanElems : Nat → Nat → Option Error → List Char → List Value → Scan (List Value)
  | 0, _, _, _, _ => .error unexpectedEnd
  | fuel + 1, depth, saved, cs, acc =>
    match scanValue fuel depth saved cs with
    | .error e => .error e
    | .ok (v, saved1, r) =>
      match skipSpace r with
      | [] => .error unexpectedEnd
      | c :: r1 =>
        if c = ',' then scanElems fuel depth saved1 r1 (acc ++ [v])
        else if c = ']' then .ok (acc ++ [v], saved1, r1)
        else .error (invalidChar c "after array element")
/-- The members of an object, the first key at the head of the input, up to the closing
brace. `acc` is the map built so far. -/
def scanMembers : Nat → Nat → Option Error → List Char → GoMap → Scan GoMap
  | 0, _, _, _, _ => .error unexpectedEnd
  | fuel + 1, depth, saved, cs, acc =>
    match cs with
    | [] => .error unexpectedEnd
    | q :: r =>
      if q = '"' then
        match scanString r.length r [] with
        | .error e => .error e
        | .ok (key, r1) =>
          match skipSpace r1 with
          | [] => .error unexpectedEnd
          | c :: r2 =>
            if c = ':' then
              match scanValue fuel depth saved r2 with
              | .error e => .error e
              | .ok (v, saved1, r3) =>
                match skipSpace r3 with
                | [] => .error unexpectedEnd
                | d :: r4 =>
                  if d = ',' then scanMembers fuel depth saved1 (skipSpace r4) (acc.set key v)
                  else if d = '\x7d' then .ok (acc.set key v, saved1, r4)
                  else .error (invalidChar d "after object key:value pair")
            else .error (invalidChar c "after object key")
      else .error (invalidChar q "looking for beginning of object key string")
end

/-- A whole JSON text decoded into an `any`, with the first error the decoder saved. Every
call of the scanner uses up one unit of fuel and, every second call at the latest, one
character: twice the length of the text is fuel enough. -/
def scanDocument (cs : List Char) : Except Error (Value × Option Error) :=
  match scanValue (2 * cs.length + 1) 0 none cs with
  | .error e => .error e
  | .ok (v, saved, r) =>
    match skipSpace r with
    | [] => .ok (v, saved)
    | c :: _ => .error (invalidChar c "after top-level value")

/-- The assignments `m[key] = val` for the members of a decoded object, in order. -/
def GoMap.setAll (m : GoMap) : List (String × Value) → GoMap
  | [] => m
  | (key, val) :: rest => GoMap.setAll (m.set key val) rest

/-- Go `json.Unmarshal(data, &inData)` for a non-nil `inData` of type `map[string]any`: the map
afterwards, or the error. A syntax error comes first; a top-level object sets its members in
the map; a top-level `null` sets the map to nil; any other top-level value is an
`UnmarshalTypeError`, also a number that `float64` cannot hold (which the scanner hands over
as a nil `any` with a saved error). -/
def Unmarshal (data : List Byte) (inData : GoMap) : Except Error GoMap :=
  match scanDocument (data.map byteChar) with
  | .error e => .error e
  | .ok (v, saved) =>
    match v with
    | .object members =>
      match saved with
      | some e => .error e
      | none => .ok (inData.setAll members)
    | .null =>
      match saved with
      | some _ => .error (unmarshalTypeError "number" "map[string]interface \x7b\x7d")
      | none => .ok []
    | .array _ => .error (unmarshalTypeError "array" "map[string]interface \x7b\x7d")
    | .string _ => .error (unmarshalTypeError "string" "map[string]interface \x7b\x7d")
    | .number _ => .error (unmarshalTypeError "number" "map[string]interface \x7b\x7d")
    | .bool _ => .error (unmarshalTypeError "bool" "map[string]interface \x7b\x7d")

end upload

namespace upload

/-! ### `encoding/json`: encoding -/

/-- One rune of a string as `json.Marshal` writes it (with HTML escaping, as Go 1.22 and later
do): the quote and the backslash are escaped, control characters and `<`, `>`, `&` become a
`\u00XX` escape (with the short forms `\b`, `\f`, `\n`, `\r`, `\t`), and so do U+2028 and U+2029. -/
def escapeRune (c : Char) : List Char :=
  if c = '"' then ['\\', '"']
  else if c = '\\' then ['\\', '\\']
  else if c = Char.ofNat 8 then ['\\', 'b']
  else if c = Char.ofNat 12 then ['\\', 'f']
  else if c = '\n' then ['\\', 'n']
  else if c = '\r' then ['\\', 'r']
  else if c = '\t' then ['\\', 't']
  else if c.toNat < 0x20 ∨ c = '<' ∨ c = '>' ∨ c = '&' then
    ['\\', 'u', '0', '0', hexDigit (c.toNat / 16), hexDigit (c.toNat % 16)]
  else if c.toNat = 0x2028 then ['\\', 'u', '2', '0', '2', '8']
  else if c.toNat = 0x2029 then ['\\', 'u', '2', '0', '2', '9']
  else [c]

/-- A string as a JSON string literal. -/
def encodeString (s : String) : List Char :=
  '"' :: s.data.flatMap escapeRune ++ ['"']

/-- The number of zeros between the decimal point and the first digit of a magnitude below
`1.0`; `fuel` bounds the search. -/
def leadingZeros : Nat → Nat → Nat
  | 0, _ => 0
  | fuel + 1, m => if Float64.unit ≤ m * 10 then 0 else leadingZeros fuel (m * 10) + 1

/-- The position `p` of the decimal point of a positive magnitude: `10^(p-1) ≤ x < 10^p`. -/
def decimalPoint (mag : Nat) : Int :=
  if Float64.unit ≤ mag then ((Nat.toDigits 10 (mag / Float64.unit)).length : Int)
  else -(leadingZeros 400 mag : Int)

/-- The search of `shortestDecimal`, from `n` digits on, for the magnitude `mag` with its
decimal point at `p`. -/
def shortestFrom (mag : Nat) (p : Int) : Nat → Nat → Nat × Int
  | 0, _ => (mag, -1074)
  | fuel + 1, n =>
    let e : Int := p - n
    -- the exact value, in units of `10^e`, is `num / den`
    let num := if e ≤ 0 then mag * 10 ^ (-e).toNat else mag
    let den := if e ≤ 0 then Float64.unit else Float64.unit * 10 ^ e.toNat
    let down := num / den
    let rem := num % den
    let okdown := decide (ParseFloat ⟨false, down, e⟩ = some ⟨false, mag⟩)
    let okup := decide (ParseFloat ⟨false, down + 1, e⟩ = some ⟨false, mag⟩)
    let roundUp := decide (den < 2 * rem) || (decide (den = 2 * rem) && decide (down % 2 = 1))
    if okdown && okup then (if roundUp then (down + 1, e) else (down, e))
    else if okdown then (down, e)
    else if okup then (down + 1, e)
    else shortestFrom mag p fuel (n + 1)

/-- The shortest decimal that reads back as the magnitude `mag`, as `strconv` picks it: with
`n` digits, the candidates are the decimal just below (or at) the exact value and the one just
above; the first `n` for which one of them reads back is taken, and when both do, the nearer
one (the even one at a tie). The result is the integer spelled by the digits and the exponent
of ten it is scaled by. Seventeen digits always read back. -/
def shortestDecimal (mag : Nat) : Nat × Int :=
  shortestFrom mag (decimalPoint mag) 17 1

/-- Drops the trailing zeros of a digit string (given in reverse). -/
def dropZeros : List Char → List Char
  | [] => []
  | c :: cs => if c = '0' then dropZeros cs else c :: cs

/-- A `float64` as `json.Marshal` writes it: the shortest decimal that reads back, in the
format `%f`, or `%e` (exponent without leading zero) below `1e-6` and from `1e21` on. -/
def encodeFloat (f : Float64) : List Char :=
  let sign := if f.neg then ['-'] else []
  if f.mag = 0 then sign ++ ['0']
  else
    match shortestDecimal f.mag with
    | (d, e) =>
      let all := Nat.toDigits 10 d
      let digits := (dropZeros all.reverse).reverse
      -- the decimal point stands `dp` digits behind the start of `digits`
      let dp : Int := all.length + e
      let small := (ParseFloat ⟨false, 1, -6⟩).getD ⟨false, 0⟩
      if f.mag < small.mag ∨ 10 ^ 21 * Float64.unit ≤ f.mag then
        let x := dp - 1
        let mant := match digits with
          | [] => ['0']
          | [c] => [c]
          | c :: cs => c :: '.' :: cs
        let xs := Nat.toDigits 10 x.natAbs
        sign ++ mant ++ ['e', if x < 0 then '-' else '+'] ++ xs
      else if dp ≤ 0 then
        sign ++ ['0', '.'] ++ List.replicate (-dp).toNat '0' ++ digits
      else if (digits.length : Int) ≤ dp then
        sign ++ digits ++ List.replicate (dp.toNat - digits.length) '0'
      else sign ++ digits.take dp.toNat ++ ['.'] ++ digits.drop dp.toNat

/-- The order of the keys in the output of `json.Marshal`: byte-wise, which for strings of
runes is rune by rune. -/
def keyLess : List Char → List Char → Bool
  | [], [] => false
  | [], _ :: _ => true
  | _ :: _, [] => false
  | a :: as, b :: bs => if a.toNat < b.toNat then true else if b.toNat < a.toNat then false
    else keyLess as bs

/-- Insertion of an entry into a list of entries sorted by key. -/
def insertSorted (key : String) (text : List Char) :
    List (String × List Char) → List (String × List Char)
  | [] => [(key, text)]
  | (k, t) :: rest =>
    if keyLess key.data k.data then (key, text) :: (k, t) :: rest
    else (k, t) :: insertSorted key text rest

/-- The members of an object, already encoded, in key order, as the text of the object. -/
def joinMembers : List (String × List Char) → List Char
  | [] => []
  | [(k, t)] => encodeString k ++ [':'] ++ t
  | (k, t) :: rest => encodeString k ++ [':'] ++ t ++ [','] ++ joinMembers rest

/-- The elements of an array, already encoded, as the text between the brackets. -/
def joinElems : List (List Char) → List Char
  | [] => []
  | [t] => t
  | t :: rest => t ++ [','] ++ joinElems rest

mutual
/-- The JSON text of an `any`. -/
def encodeValue : Value → List Char
  | .number f => encodeFloat f
  | .string s => encodeString s
  | .bool b => if b then "true".data else "false".data
  | .null => "null".data
  | .array elems => ['['] ++ joinElems (encodeElems elems) ++ [']']
  | .object members => ['\x7b'] ++ joinMembers (encodeMembers members) ++ ['\x7d']
/-- The texts of the elements of an array. -/
def encodeElems : List Value → List (List Char)
  | [] => []
  | v :: vs => encodeValue v :: encodeElems vs
/-- The encoded members of a map, sorted by key. -/
def encodeMembers : List (String × Value) → List (String × List Char)
  | [] => []
  | (k, v) :: ms => insertSorted k (encodeValue v) (encodeMembers ms)
end

/-- Go `json.Marshal(m)` for a non-nil `map[string]any` of decoded values: the bytes of the
object, keys sorted, no white space. It cannot fail on finite numbers. -/
def Marshal (m : GoMap) : List Byte :=
  (encodeValue (.object m)).flatMap encodeRune

end upload

namespace upload

/-! ### `PerformJsonMutation` -/

/-- What the Go specification and runtime leave open: the result of converting a `float64`
outside the `int64` range to `int64`, and the order in which `range` visits a map. -/
structure Runtime where
  int64OutOfRange : Float64 → Int
  rangeOrder : GoMap → GoMap
  rangeOrder_perm : ∀ m, (rangeOrder m).Perm m

/-- A runtime that visits a map in the order of its entries and converts an out-of-range
`float64` to the smallest `int64`, as amd64 does. -/
def Runtime.amd64 : Runtime where
  int64OutOfRange := fun _ => -2 ^ 63
  rangeOrder := fun m => m
  rangeOrder_perm := fun m => List.Perm.refl m

/-- The `float64` of a natural number below `2^53`. -/
def Float64.ofNat (n : Nat) : Float64 := ⟨false, n * Float64.unit⟩

/-- The integer a `float64` without fractional part stands for; in general its truncation
towards zero. -/
def Float64.trunc (f : Float64) : Int :=
  if f.neg then -((f.mag / Float64.unit : Nat) : Int) else ((f.mag / Float64.unit : Nat) : Int)

/-- The Go conversion `int64(f)`: the truncation when it is an `int64`, left to the
implementation otherwise. -/
def toInt64 (rt : Runtime) (f : Float64) : Int :=
  if -2 ^ 63 ≤ f.trunc ∧ f.trunc < 2 ^ 63 then f.trunc else rt.int64OutOfRange f

/-- A Go run-time panic. -/
inductive Panic where
  /-- The text `index out of range [index] with length length`. -/
  | indexOutOfRange (index length : Nat)
deriving DecidableEq, Repr

/-- Go `unicode.ToLower` on the runes whose lower case is an ASCII letter: the letters `A` to
`Z`, U+0130 (lower case `i`) and U+212A (lower case `k`). The lower case of any other rune is
not ASCII; such a rune is left as it is, which the comparison of the first byte with the vowels
cannot tell apart. -/
def unicodeToLower (c : Char) : Char :=
  if 'A' ≤ c ∧ c ≤ 'Z' then Char.ofNat (c.toNat + 32)
  else if c.toNat = 0x130 then 'i'
  else if c.toNat = 0x212A then 'k'
  else c

/-- Go `strings.ToLower`, rune by rune. -/
def ToLower (s : String) : String := String.mk (s.data.map unicodeToLower)

/-- The bytes `'a', 'o', 'e', 'i', 'u'`. -/
def vowels : List Byte := [97, 111, 101, 105, 117]

/-- The lower-case vowels, as runes. -/
def lowerVowels : List Char := ['a', 'e', 'i', 'o', 'u']

/-- The function `startsWithVowel(str)`: indexing the lowered string at 0 panics when it is empty. -/
def startsWithVowel (str : String) : Except Panic Bool :=
  match stringBytes (ToLower str) with
  | [] => .error (Panic.indexOutOfRange 0 0)
  | firstLetter :: _ => .ok (vowels.any (fun v => decide (firstLetter = v)))

/-- The body of the loop of `PerformJsonMutation` for one entry of `inData`. -/
def mutateEntry (rt : Runtime) (outData : GoMap) (key : String) (val : Value) :
    Except Panic GoMap :=
  match startsWithVowel key with
  | .error p => .error p
  | .ok true => .ok outData
  | .ok false =>
    -- outData[key] = val
    let outData1 := outData.set key val
    -- if intVal, ok := val.(float64); ok
    match val with
    | .number intVal =>
      match Modf intVal with
      | (whole, frac) =>
        if (toInt64 rt whole).tmod 2 = 0 ∧ ¬ frac.isPositive = true then
          .ok (outData1.set key (.number (intVal.add (Float64.ofNat 1000))))
        else .ok outData1
    | _ => .ok outData1

/-- The loop `for key, val := range inData` over the entries in the order they are visited. -/
def mutateAll (rt : Runtime) : List (String × Value) → GoMap → Except Panic GoMap
  | [], outData => .ok outData
  | (key, val) :: rest, outData =>
    match mutateEntry rt outData key val with
    | .error p => .error p
    | .ok outData1 => mutateAll rt rest outData1

/-- The specification's test on a key: its first character, lowercased, is one of a, e, i, o,
u. The empty key has no first character. -/
def VowelInitial (key : String) : Bool :=
  match key.data with
  | [] => false
  | c :: _ => decide (unicodeToLower c ∈ lowerVowels)

/-- The specification's numeric-bump test on a number, as the code evaluates it: the integral
part, converted to `int64`, is even and the fractional part is not positive. -/
def bumpTest (rt : Runtime) (f : Float64) : Bool :=
  decide ((toInt64 rt (Modf f).1).tmod 2 = 0) && !(Modf f).2.isPositive

/-- The value the loop stores for a surviving key. -/
def mutatedValue (rt : Runtime) : Value → Value
  | .number f => if bumpTest rt f then .number (f.add (Float64.ofNat 1000)) else .number f
  | v => v

/-- An `io.Reader` as `io.ReadAll` sees it: the bytes it delivers before its first error, and
that error (`io.EOF` at a regular end). -/
structure Source where
  data : List Byte
  err : Error
deriving DecidableEq, Repr

/-- Go `io.ReadAll(r)`: the data read, and the error unless it is `io.EOF`. -/
def ReadAll (src : Source) : List Byte × Option Error :=
  (src.data, if src.err = Error.EOF then none else some src.err)

/-- The last step of `PerformJsonMutation`: `out.Write(outBytes)` and the error returned. -/
def writeModified {ω : Type} (W : Writer ω) (out : ω) (outBytes : List Byte) :
    Option Error × ω :=
  match W.Write out outBytes with
  | ((_, some err), out1) => (some (Error.Wrap "writing modified file" err), out1)
  | ((_, none), out1) => (none, out1)

/-- The function `PerformJsonMutation(in, out)`: the error returned and the state of `out`, or a panic.
`json.Marshal` cannot fail on `outData`, whose numbers are finite. -/
def PerformJsonMutation {ω : Type} (rt : Runtime) (W : Writer ω) (src : Source) (out : ω) :
    Except Panic (Option Error × ω) :=
  match ReadAll src with
  | (_, some err) => .ok (some (Error.Wrap "reading contents of file" err), out)
  | (contents, none) =>
    -- inData := map[string]any{}; outData := map[string]any{}
    match Unmarshal contents [] with
    | .error err => .ok (some (Error.Wrap "unmarshalling file contents" err), out)
    | .ok inData =>
      match mutateAll rt (rt.rangeOrder inData) [] with
      | .error p => .error p
      | .ok outData => .ok (writeModified W out (Marshal outData))

end upload

namespace upload

/-- The input of the first scenario of the specification. -/
def scenarioInput : List Byte :=
  stringBytes
    "\x7b\"a_property\":\"aaaa\",\"b_property\":12309123,\"b_property_even\":2000,\"e_prop\":231231\x7d"

/-- The map the input of the first scenario decodes into. -/
def scenarioData : GoMap :=
  [("a_property", .string "aaaa"), ("b_property", .number (Float64.ofNat 12309123)),
    ("b_property_even", .number (Float64.ofNat 2000)), ("e_prop", .number (Float64.ofNat 231231))]

end upload

namespace api

open upload

/-- The enum `gen.FileChunkResponseStatus`. -/
inductive FileChunkResponseStatus where
  | ok
  | error
deriving DecidableEq, Repr

/-- The message `gen.FileChunkResponse`. -/
structure FileChunkResponse where
  Message : String
  Status : FileChunkResponseStatus
deriving DecidableEq, Repr

/-- The message `gen.FileChunk`. -/
structure FileChunk where
  Data : List Byte
deriving DecidableEq, Repr

/-- What one call `stream.Recv()` returns: a chunk with a nil error, or an error. -/
inductive Received where
  | chunk (c : FileChunk)
  | err (e : Error)
deriving DecidableEq, Repr

/-- The server side of the stream, `gen.FileUploader_UploadFileServer`: `incoming` lists what the
successive `Recv` calls return (`io.EOF` included); once the list is used up `Recv` returns
`io.EOF`. `sendErr` is what `SendAndClose` returns. -/
structure Stream where
  incoming : List Received
  sendErr : Option Error

/-- What the handler does to the outside, in order. -/
inductive Event where
  /-- A call `stream.Recv()` and what it returned. -/
  | recv (r : Received)
  /-- A call `f.Write(p)` and what it returned. -/
  | write (p : List Byte) (n : Nat) (err : Option Error)
  /-- The call `seeker.Seek(0, 0)` and the error it returned. -/
  | seek (err : Option Error)
  /-- The call `g.uploadedFileMutator(f)` and the error it returned. -/
  | mutate (err : Option Error)
  /-- The call `g.uploadedFileMutator(f)` when it panics instead of returning. -/
  | mutatePanic (p : Panic)
  /-- A call `stream.SendAndClose(resp)`. -/
  | send (resp : FileChunkResponse)
  /-- The deferred call `f.Close()`. -/
  | close
deriving DecidableEq, Repr

/-- The methods of the `io.ReadWriteCloser` that `fileBackend` returns, over its state `σ`.
`Seek` is `none` when the value does not implement `io.Seeker`; otherwise it is the call
`Seek(0, 0)`. -/
structure File (σ : Type) where
  Write : σ → List Byte → (Nat × Option Error) × σ
  Seek : Option (σ → Option Error × σ)
  Close : σ → σ

/-- The struct `GRPCServer` (the logger apart): the injected file backend and mutator. -/
structure GRPCServer (σ : Type) where
  /-- The result of the call `g.fileBackend()`. -/
  fileBackend : Except Error σ
  /-- The call `g.uploadedFileMutator(f)` on the file in a given state: the error it returns
  and the state of the file afterwards, or the panic it raises and the state it leaves the
  file in. -/
  uploadedFileMutator : σ → Except (Panic × σ) (Option Error × σ)

/-- The file as a plain `io.Writer`. -/
def File.toWriter {σ : Type} (F : File σ) : Writer σ where
  Write := F.Write

/-- The file as the `io.Writer` handed to `FileByChunks`, recording every Write. -/
def fileWriter {σ : Type} (F : File σ) : Writer (σ × List Event) where
  Write := fun w p =>
    match F.Write w.1 p with
    | ((n, err), f1) => ((n, err), (f1, w.2 ++ [Event.write p n err]))

/-- How a run of the handler ends: the error it returns or the panic that leaves it, the file
(when one was created), the stream, and everything it did. -/
structure Outcome (σ : Type) where
  ret : Except Panic (Option Error)
  file : Option σ
  stream : Stream
  trace : List Event

/-- The statement `return stream.SendAndClose(resp)` followed by the deferred `f.Close()`. -/
def sendAndClose {σ : Type} (F : File σ) (resp : FileChunkResponse) (f : σ) (stream : Stream)
    (trace : List Event) : Outcome σ :=
  { ret := .ok stream.sendErr, file := some (F.Close f), stream := stream,
    trace := trace ++ [Event.send resp, Event.close] }

/-- What a panic `p` of the mutator makes of the run: the handler has no `recover`, so the
panic leaves it at once, through the deferred `f.Close()`. -/
def panicAndClose {σ : Type} (F : File σ) (p : Panic) (f : σ) (stream : Stream)
    (trace : List Event) : Outcome σ :=
  { ret := .error p, file := some (F.Close f), stream := stream,
    trace := trace ++ [Event.mutatePanic p, Event.close] }

/-- The part of `UploadFile` after the receive loop: rewind, mutate, respond. -/
def afterLoop {σ : Type} (F : File σ) (g : GRPCServer σ) (f : σ) (stream : Stream)
    (trace : List Event) : Outcome σ :=
  -- seeker, ok := f.(io.Seeker)
  let rewound : Option Error × σ × List Event :=
    match F.Seek with
    | some seek =>
      match seek f with
      | (err, f1) => (err, f1, trace ++ [Event.seek err])
    | none => (none, f, trace)
  match rewound with
  | (some _, f1, trace1) =>
    sendAndClose F ⟨"internal server error", .error⟩ f1 stream trace1
  | (none, f1, trace1) =>
    match g.uploadedFileMutator f1 with
    | .error (p, f2) => panicAndClose F p f2 stream trace1
    | .ok (some e, f2) =>
      sendAndClose F ⟨"could not mutate json content", .error⟩ f2 stream
        (trace1 ++ [Event.mutate (some e)])
    | .ok (none, f2) =>
      sendAndClose F ⟨"upload completed", .ok⟩ f2 stream (trace1 ++ [Event.mutate none])

/-- The receive loop of `UploadFile` and what follows it; `incoming` is what is left of the
stream. `none` only if `FileByChunks` ran out of fuel. -/
def uploadLoop {σ : Type} (F : File σ) (g : GRPCServer σ) (sendErr : Option Error) :
    List Received → σ → List Event → Option (Outcome σ)
  | [], f, trace =>
    -- the stream is used up: Recv returns io.EOF
    some (afterLoop F g f ⟨[], sendErr⟩ (trace ++ [Event.recv (.err Error.EOF)]))
  | .err e :: rest, f, trace =>
    -- if err == io.EOF { break }
    if e = Error.EOF then
      some (afterLoop F g f ⟨rest, sendErr⟩ (trace ++ [Event.recv (.err e)]))
    else
      some (sendAndClose F ⟨"error while reading stream", .error⟩ f ⟨rest, sendErr⟩
        (trace ++ [Event.recv (.err e)]))
  | .chunk chunk :: rest, f, trace =>
    -- err = upload.FileByChunks(bytes.NewBuffer(chunk.Data), f)
    match FileByChunks bytesBuffer (fileWriter F) (bufferFuel chunk.Data.length) chunk.Data
        (f, trace ++ [Event.recv (.chunk chunk)]) with
    | none => none
    | some (some _, _, (f1, trace1)) =>
      some (sendAndClose F ⟨"could not write to file", .error⟩ f1 ⟨rest, sendErr⟩ trace1)
    | some (none, _, (f1, trace1)) => uploadLoop F g sendErr rest f1 trace1

/-- The handler `(*GRPCServer).UploadFile(stream)`. -/
def UploadFile {σ : Type} (F : File σ) (g : GRPCServer σ) (stream : Stream) : Option (Outcome σ) :=
  match g.fileBackend with
  | .error _ =>
    some { ret := .ok stream.sendErr, file := none, stream := stream,
           trace := [Event.send ⟨"could not create upload destinaton", .error⟩] }
  | .ok f => uploadLoop F g stream.sendErr stream.incoming f []

/-- The test double `fakeWriteCloser` of `grpc_test.go`. -/
structure fakeWriteCloser where
  bytesWritten : Nat
  buff : List Byte
  writeErr : Option Error
  readErr : Option Error
  seekErr : Option Error
deriving DecidableEq, Repr

/-- The method `(*fakeWriteCloser).Write`; `bytesWritten` is a `uint64`. -/
def fakeWriteCloser.Write (f : fakeWriteCloser) (p : List Byte) :
    (Nat × Option Error) × fakeWriteCloser :=
  match f.writeErr with
  | some e => ((0, some e), f)
  | none =>
    ((p.length, none),
      { f with bytesWritten := (f.bytesWritten + p.length) % 2 ^ 64, buff := f.buff ++ p })

/-- The method `(*fakeWriteCloser).Seek`. -/
def fakeWriteCloser.Seek (f : fakeWriteCloser) : Option Error × fakeWriteCloser :=
  (f.seekErr, f)

/-- The method table of `*fakeWriteCloser`, which implements `io.Seeker`. -/
def fakeFile : File fakeWriteCloser where
  Write := fakeWriteCloser.Write
  Seek := some fakeWriteCloser.Seek
  Close := fun f => f

/-- The steps of the handler that can fail once the file exists. -/
inductive Failure where
  | recv
  | write
  | seek
  | mutate
deriving DecidableEq, Repr

/-- The failure an event stands for, if any: a `Recv` error other than `io.EOF`, a Write, a
Seek or a mutator that returned an error. -/
def Event.failure : Event → Option Failure
  | .recv (.err e) => if e = Error.EOF then none else some Failure.recv
  | .write _ _ (some _) => some Failure.write
  | .seek (some _) => some Failure.seek
  | .mutate (some _) => some Failure.mutate
  | _ => none

/-- The first failure in a trace. -/
def firstFailure : List Event → Option Failure
  | [] => none
  | e :: es =>
    match e.failure with
    | some x => some x
    | none => firstFailure es

/-- The terminal response the specification assigns to the first failing step. -/
def responseFor : Option Failure → FileChunkResponse
  | some Failure.recv => ⟨"error while reading stream", .error⟩
  | some Failure.write => ⟨"could not write to file", .error⟩
  | some Failure.seek => ⟨"internal server error", .error⟩
  | some Failure.mutate => ⟨"could not mutate json content", .error⟩
  | none => ⟨"upload completed", .ok⟩

/-- Whether the event is a call of `SendAndClose`. -/
def Event.isSend : Event → Bool
  | .send _ => true
  | _ => false

/-- Whether the event is a Write to the file. -/
def Event.isWrite : Event → Bool
  | .write _ _ _ => true
  | _ => false

/-- The number of `SendAndClose` calls in a trace. -/
def countSends (trace : List Event) : Nat := trace.countP Event.isSend

/-- The bytes handed to the file by the Write calls of a trace, in order. -/
def written : List Event → List Byte
  | [] => []
  | .write p _ _ :: es => p ++ written es
  | _ :: es => written es

end api

namespace upload

/-- A destination whose writes never fail from the states satisfying `good`, with `content`
reading back what it holds: every Write from such a state accepts the whole page, appends it,
and leads to such a state again. -/
def NeverFails {ω : Type} (W : Writer ω) (content : ω → List Byte) (good : ω → Prop) : Prop :=
  ∀ w p, good w → (W.Write w p).1 = (p.length, none) ∧
    content (W.Write w p).2 = content w ++ p ∧ good (W.Write w p).2

end upload

namespace api

open upload

/-- The shape of the trace the handler returns with once the file exists: what happened, then
the one response, chosen by the first failure, then the deferred Close. -/
def Terminated {σ : Type} (sendErr : Option Error) (tr : List Event) (out : Outcome σ) : Prop :=
  ∃ mid, out.trace = (tr ++ mid) ++ [Event.send (responseFor (firstFailure (tr ++ mid))), Event.close] ∧
    countSends mid = 0 ∧ out.ret = .ok sendErr ∧ out.file.isSome = true

/-- The shape of the trace of a run that a panic of the mutator ends: what happened, without
a failure and without a response, then the call of the mutator, then the deferred Close. -/
def Panicked {σ : Type} (g : GRPCServer σ) (tr : List Event) (out : Outcome σ) : Prop :=
  ∃ mid p f f2, g.uploadedFileMutator f = .error (p, f2) ∧
    out.trace = (tr ++ mid) ++ [Event.mutatePanic p, Event.close] ∧
    countSends mid = 0 ∧ firstFailure (tr ++ mid) = none ∧ out.ret = .error p ∧
    out.file.isSome = true

end api

namespace upload

/-- An input with nested values: an object with a vowel-initial key and an even integer
inside, an array, a string, a boolean and a null. -/
def nestedInput : List Byte :=
  stringBytes
    "\x7b\"b\":\x7b\"a\":2,\"c\":[4,\"x\"]\x7d,\"d\":\"s\",\"f\":true,\"g\":null,\"h\":[2]\x7d"

/-- The map `nestedInput` decodes into. -/
def nestedData : GoMap :=
  [("b", .object [("a", .number (Float64.ofNat 2)),
      ("c", .array [.number (Float64.ofNat 4), .string "x"])]),
    ("d", .string "s"), ("f", .bool true), ("g", .null), ("h", .array [.number (Float64.ofNat 2)])]

end upload

namespace api

open upload

/-- Whether the event is the deferred `f.Close()`. -/
def Event.isClose : Event → Bool
  | .close => true
  | _ => false

/-- The number of `f.Close()` calls in a trace. -/
def countCloses (trace : List Event) : Nat := trace.countP Event.isClose

end api

namespace upload

/-- One call `dest.Write(p)` seen from outside: the page handed over, and the count and the
error that came back. -/
structure WriteCall where
  p : List Byte
  n : Nat
  err : Option Error
deriving DecidableEq, Repr

/-- The destination `W` with a log of the Write calls made on it. -/
def recording {ω : Type} (W : Writer ω) : Writer (ω × List WriteCall) where
  Write := fun w p =>
    match W.Write w.1 p with
    | ((n, err), w1) => ((n, err), (w1, w.2 ++ [⟨p, n, err⟩]))

/-- The calls `calls`, made one after the other on the destination in state `dest`, return what
the log says and leave the destination in state `dest1`. -/
def Replays {ω : Type} (W : Writer ω) : ω → List WriteCall → ω → Prop
  | dest, [], dest1 => dest1 = dest
  | dest, c :: cs, dest1 =>
    (W.Write dest c.p).1 = (c.n, c.err) ∧ Replays W (W.Write dest c.p).2 cs dest1

/-- Go `iotest.OneByteReader(bytes.NewBuffer(s))`: each Read into a non-empty slice reads one
byte from the buffer. -/
def oneByteReader : Reader (List Byte) where
  Read := fun r n => if n = 0 then (([], none), r) else bufferRead r 1
  Read_le := by
    intro r n
    by_cases hn : n = 0
    · simp [hn]
    · simp only [hn, if_false]
      have h := bytesBuffer.Read_le r 1
      simp only [bytesBuffer] at h
      omega

end upload

namespace api

open upload

/-- The method `(*fakeWriteCloser).Read`. -/
def fakeWriteCloser.Read (f : fakeWriteCloser) (_n : Nat) :
    (List Byte × Option Error) × fakeWriteCloser :=
  (([], f.readErr), f)

/-- The test double as an `io.Reader`. -/
def fakeReader : Reader fakeWriteCloser where
  Read := fakeWriteCloser.Read
  Read_le := by
    intro r n
    simp [fakeWriteCloser.Read]

end api

namespace upload

/-- The name `json.Unmarshal` gives the kind of a top-level value that is an array, a string,
a boolean or a number, told by the first character of the value. -/
def kindName (c : Char) : String :=
  if c = '[' then "array"
  else if c = '"' then "string"
  else if c = 't' ∨ c = 'f' then "bool"
  else "number"

/-- The order of the encoded members of an object: by key. -/
def memberLess (a b : String × List Char) : Prop := keyLess a.1.data b.1.data = true

/-- The runtime `amd64`, but visiting the entries of a map from the last to the first. -/
def Runtime.reversed : Runtime where
  int64OutOfRange := fun _ => -2 ^ 63
  rangeOrder := List.reverse
  rangeOrder_perm := fun m => List.reverse_perm m

end upload

namespace api

open upload

/-- The files of the working directory: the content stored under each name. -/
abbrev Disk := String → Option (List Byte)

/-- The directory without files. -/
def Disk.empty : Disk := fun _ => none

/-- The directory with the content of one file replaced. -/
def Disk.store (d : Disk) (name : String) (content : List Byte) : Disk :=
  fun x => if x = name then some content else d x

/-- The directory without the file `name`. -/
def Disk.delete (d : Disk) (name : String) : Disk :=
  fun x => if x = name then none else d x

/-- What the operating system may refuse: for each call of package `os` that the code makes,
the error it answers with, if any. A failing Write still stores the first `k` bytes; the reads
of a file may end with an error in the place of `io.EOF`. -/
structure OS where
  openFail : Disk → String → Option Error
  writeFail : Disk → String → List Byte → Option (Nat × Error)
  removeFail : Disk → String → Option Error
  seekFail : Disk → String → Option Error
  readFail : Disk → String → Option Error

/-- An operating system that refuses nothing. -/
def OS.sound : OS where
  openFail := fun _ _ => none
  writeFail := fun _ _ _ => none
  removeFail := fun _ _ => none
  seekFail := fun _ _ => none
  readFail := fun _ _ => none

/-- Go `os.OpenFile(name, os.O_TRUNC|os.O_RDWR|os.O_CREATE, 0660)`: the file exists and is
empty afterwards. -/
def OpenFile (os : OS) (d : Disk) (name : String) : Except Error Disk :=
  match os.openFail d name with
  | some err => .error err
  | none => .ok (d.store name [])

/-- Go `(*os.File).Write` on a file opened by `OpenFile` and written by nobody else: the bytes
go to its end; the error is non-nil when not all of them were written. -/
def osFile (os : OS) (name : String) : Writer Disk where
  Write := fun d p =>
    match os.writeFail d name p with
    | some (k, err) => ((min k p.length, some err), d.store name ((d name).getD [] ++ p.take k))
    | none => ((p.length, none), d.store name ((d name).getD [] ++ p))

/-- Go `os.Remove(name)`. -/
def Remove (os : OS) (d : Disk) (name : String) : Option Error × Disk :=
  match os.removeFail d name with
  | some err => (some err, d)
  | none =>
    if (d name).isSome then (none, d.delete name)
    else (some (Error.New ("remove " ++ name ++ ": no such file or directory")), d)

/-- The function `defaultUploadedFileMutator(in)`, with the text of the clock as `timeSuffix`
and `in` as `io.ReadAll` sees it. The result is the error returned and the directory; a panic
of `PerformJsonMutation`, which comes before it writes, goes through with the directory as the
panic leaves it. -/
def defaultUploadedFileMutator (rt : Runtime) (os : OS) (timeSuffix : String) (src : Source)
    (d : Disk) : Except (Panic × Disk) (Option Error × Disk) :=
  match OpenFile os d ("uploaded-file-mutated" ++ timeSuffix) with
  | .error err => .ok (some (Error.Wrap "could not create a new file" err), d)
  | .ok d1 =>
    match PerformJsonMutation rt (osFile os ("uploaded-file-mutated" ++ timeSuffix)) src d1 with
    | .error p => .error (p, d1)
    | .ok (some err, d2) =>
      -- os.Remove(f.Name()); return err
      .ok (some err, (Remove os d2 ("uploaded-file-mutated" ++ timeSuffix)).2)
    | .ok (none, d2) => .ok (none, d2)

/-- The content of the specification's scenario of malformed input. -/
def gibberish : List Byte := stringBytes "gibberish invalid json"

/-- The function `defaultFileBackend()`, with the text of the clock as `timeSuffix`: the
directory with the new upload file in it, or the error. -/
def defaultFileBackend (os : OS) (timeSuffix : String) (d : Disk) : Except Error Disk :=
  match OpenFile os d ("uploaded-file-" ++ timeSuffix) with
  | .error err => .error (Error.Wrap "could not create a new file" err)
  | .ok d1 => .ok d1

/-- The `*os.File` that `defaultFileBackend` returns, as the handler uses it, over the
directory: the Writes go to the end of the file `name`, `Seek(0, 0)` moves its offset only, and
Close leaves the directory as it is. -/
def uploadedFile (os : OS) (name : String) : File Disk where
  Write := (osFile os name).Write
  Seek := some (fun d => (os.seekFail d name, d))
  Close := fun d => d

/-- What `io.ReadAll` gets from the rewound file `name`: its content and `io.EOF`, or the
error of a read that the operating system refuses. -/
def fileSource (os : OS) (d : Disk) (name : String) : Source :=
  ⟨(d name).getD [], (os.readFail d name).getD Error.EOF⟩

/-- The server `NewFileUploaderService(l)` started in the directory `d`, with the texts of the
clock at the two calls of `time.Now()`. The mutator is handed the rewound upload file, which
`io.ReadAll` reads once the mutation-output file has been created. -/
def NewFileUploaderService (rt : Runtime) (os : OS) (timeSuffix1 timeSuffix2 : String)
    (d : Disk) : GRPCServer Disk where
  fileBackend := defaultFileBackend os timeSuffix1 d
  uploadedFileMutator := fun d1 =>
    defaultUploadedFileMutator rt os timeSuffix2
      (fileSource os (d1.store ("uploaded-file-mutated" ++ timeSuffix2) [])
        ("uploaded-file-" ++ timeSuffix1)) d1

end api

namespace upload

theorem bufferWriter_neverFails : NeverFails bufferWriter id (fun _ => True) := by
  intro w p _
  simp [bufferWriter]

end upload

namespace upload

theorem Error.Is_self (e : Error) : e.Is e = true := by
  unfold Error.Is
  simp

theorem bufferFuel_drop (s : List Byte) (fuel : Nat) (hlen : pageSize ≤ s.length)
    (hfuel : bufferFuel s.length ≤ fuel + 1) : bufferFuel (s.drop pageSize).length ≤ fuel := by
  unfold bufferFuel pageSize at *
  simp only [List.length_drop]
  omega

/-- One unfolding of the loop on a non-empty byte buffer. -/
theorem FileByChunks_buffer_step {ω : Type} (W : Writer ω) (fuel : Nat) (s : List Byte) (dest : ω)
    (hs : s ≠ []) :
    FileByChunks bytesBuffer W (fuel + 1) s dest =
      match (W.Write dest (s.take pageSize)).1.2 with
      | some e => some (some (Error.Wrap "writing to file" e), s.drop pageSize,
          (W.Write dest (s.take pageSize)).2)
      | none =>
        if (W.Write dest (s.take pageSize)).1.1 < pageSize then
          some (none, s.drop pageSize, (W.Write dest (s.take pageSize)).2)
        else FileByChunks bytesBuffer W fuel (s.drop pageSize) (W.Write dest (s.take pageSize)).2 := by
  rcases hw : W.Write dest (List.take pageSize s) with ⟨⟨n, werr⟩, dest1⟩
  rw [FileByChunks]
  have hr : bytesBuffer.Read s pageSize = ((s.take pageSize, none), s.drop pageSize) := by
    simp [bytesBuffer, bufferRead, hs]
  rw [hr]
  simp only [hw]
  cases werr <;> simp

/-- On an exhausted byte buffer the loop breaks at once. -/
theorem FileByChunks_buffer_nil {ω : Type} (W : Writer ω) (fuel : Nat) (dest : ω) :
    FileByChunks bytesBuffer W (fuel + 1) [] dest = some (none, [], dest) := by
  rw [FileByChunks]
  simp [bytesBuffer, bufferRead, pageSize, Error.Is_self]

/-- With a byte buffer as source the loop ends within `bufferFuel` iterations, whatever the
destination does. -/
theorem FileByChunks_buffer_total {ω : Type} (W : Writer ω) (fuel : Nat) :
    ∀ (s : List Byte) (dest : ω), bufferFuel s.length ≤ fuel →
      ∃ r, FileByChunks bytesBuffer W fuel s dest = some r := by
  induction fuel with
  | zero => intro s dest h; simp [bufferFuel] at h
  | succ fuel ih =>
    intro s dest h
    by_cases hs : s = []
    · subst hs
      exact ⟨_, FileByChunks_buffer_nil W fuel dest⟩
    · rw [FileByChunks_buffer_step W fuel s dest hs]
      split
      · exact ⟨_, rfl⟩
      · split
        · exact ⟨_, rfl⟩
        · by_cases hlen : pageSize ≤ s.length
          · exact ih _ _ (bufferFuel_drop s fuel hlen h)
          · have hd : s.drop pageSize = [] := by
              apply List.drop_eq_nil_of_le
              omega
            rw [hd]
            cases fuel with
            | zero => simp [bufferFuel] at h
            | succ k => exact ⟨_, FileByChunks_buffer_nil W k _⟩

theorem FileByChunks_buffer_neverFails {ω : Type} (W : Writer ω) (content : ω → List Byte)
    (good : ω → Prop) (hW : NeverFails W content good) (fuel : Nat) :
    ∀ (s : List Byte) (dest : ω), good dest → s.length / pageSize + 1 ≤ fuel →
      ∃ dest1, FileByChunks bytesBuffer W fuel s dest = some (none, [], dest1) ∧
        content dest1 = content dest ++ s ∧ good dest1 := by
  induction fuel with
  | zero => intro s dest _ h; simp at h
  | succ fuel ih =>
    intro s dest hg h
    by_cases hs : s = []
    · subst hs
      exact ⟨dest, FileByChunks_buffer_nil W fuel dest, by simp, hg⟩
    · rw [FileByChunks_buffer_step W fuel s dest hs]
      obtain ⟨h1, h2, hg1⟩ := hW dest (s.take pageSize) hg
      have hn : (W.Write dest (s.take pageSize)).1.1 = (s.take pageSize).length := by rw [h1]
      have he : (W.Write dest (s.take pageSize)).1.2 = none := by rw [h1]
      rw [he]
      simp only [hn, List.length_take]
      by_cases hlen : pageSize ≤ s.length
      · have hnot : ¬ (min pageSize s.length < pageSize) := by omega
        rw [if_neg hnot]
        have hf : (s.drop pageSize).length / pageSize + 1 ≤ fuel := by
          simp only [List.length_drop]
          unfold pageSize at *
          omega
        obtain ⟨dest1, hr, hc, hg2⟩ := ih (s.drop pageSize) _ hg1 hf
        refine ⟨dest1, hr, ?_, hg2⟩
        rw [hc, h2, List.append_assoc, List.take_append_drop]
      · have hlt : min pageSize s.length < pageSize := by omega
        rw [if_pos hlt]
        have hd : s.drop pageSize = [] := List.drop_eq_nil_of_le (by omega)
        have ht : s.take pageSize = s := List.take_of_length_le (by omega)
        refine ⟨_, by rw [hd], ?_, hg1⟩
        rw [h2, ht]

end upload

namespace api

open upload

theorem firstFailure_append (a b : List Event) :
    firstFailure (a ++ b) = (firstFailure a).orElse (fun _ => firstFailure b) := by
  induction a with
  | nil => simp [firstFailure]
  | cons e es ih =>
    simp only [List.cons_append, firstFailure]
    cases e.failure <;> simp [ih]

theorem written_append (a b : List Event) : written (a ++ b) = written a ++ written b := by
  induction a with
  | nil => simp [written]
  | cons e es ih => cases e <;> simp [written, ih]

theorem countSends_append (a b : List Event) :
    countSends (a ++ b) = countSends a + countSends b := by
  simp [countSends]

/-- What one run of `FileByChunks` on a chunk adds to the trace: Write events only, none of
them failed when the run succeeds, the last one failed when it does not. -/
theorem FileByChunks_fileWriter_trace {σ : Type} (F : File σ) (fuel : Nat) :
    ∀ (s : List Byte) (f : σ) (tr : List Event) (r : Option Error × List Byte × σ × List Event),
      FileByChunks bytesBuffer (fileWriter F) fuel s (f, tr) = some r →
      ∃ ws, r.2.2.2 = tr ++ ws ∧ countSends ws = 0 ∧
        firstFailure ws = (if r.1.isSome then some Failure.write else none) := by
  induction fuel with
  | zero => intro s f tr r h; simp [FileByChunks] at h
  | succ fuel ih =>
    intro s f tr r h
    by_cases hs : s = []
    · subst hs
      rw [FileByChunks_buffer_nil] at h
      cases h
      exact ⟨[], by simp, rfl, rfl⟩
    · rw [FileByChunks_buffer_step _ fuel s (f, tr) hs] at h
      rcases hw : F.Write f (s.take pageSize) with ⟨⟨n, werr⟩, f1⟩
      have hfw : (fileWriter F).Write (f, tr) (s.take pageSize) =
          ((n, werr), (f1, tr ++ [Event.write (s.take pageSize) n werr])) := by
        simp [fileWriter, hw]
      rw [hfw] at h
      cases werr with
      | some e =>
        simp only [Option.some.injEq] at h
        subst h
        exact ⟨[Event.write (s.take pageSize) n (some e)], rfl, rfl, rfl⟩
      | none =>
        simp only at h
        split at h
        · simp only [Option.some.injEq] at h
          subst h
          exact ⟨[Event.write (s.take pageSize) n none], rfl, rfl, rfl⟩
        · obtain ⟨ws, h1, h2, h3⟩ := ih _ _ _ _ h
          refine ⟨Event.write (s.take pageSize) n none :: ws, ?_, ?_, ?_⟩
          · rw [h1]; simp
          · simpa [countSends, Event.isSend] using h2
          · simpa [firstFailure, Event.failure] using h3

end api

namespace api

open upload

theorem sendAndClose_terminated {σ : Type} (F : File σ) (resp : FileChunkResponse) (f : σ)
    (stream : Stream) (tr mid : List Event) (hmid : countSends mid = 0)
    (hresp : resp = responseFor (firstFailure (tr ++ mid))) :
    Terminated stream.sendErr tr (sendAndClose F resp f stream (tr ++ mid)) :=
  ⟨mid, by simp [sendAndClose, hresp], hmid, rfl, rfl⟩

/-- What the call of the mutator and the code behind it do. -/
theorem mutate_terminated {σ : Type} (F : File σ) (g : GRPCServer σ) (f : σ) (stream : Stream)
    (tr mid : List Event) (hmid : countSends mid = 0) (hff : firstFailure (tr ++ mid) = none) :
    (match g.uploadedFileMutator f with
      | .error (p, f2) =>
        Panicked g tr (panicAndClose F p f2 stream (tr ++ mid))
      | .ok (some e, f2) =>
        Terminated stream.sendErr tr
          (sendAndClose F ⟨"could not mutate json content", .error⟩ f2 stream
            ((tr ++ mid) ++ [Event.mutate (some e)]))
      | .ok (none, f2) =>
        Terminated stream.sendErr tr
          (sendAndClose F ⟨"upload completed", .ok⟩ f2 stream
            ((tr ++ mid) ++ [Event.mutate none]))) := by
  cases hm : g.uploadedFileMutator f with
  | error pf =>
    rcases pf with ⟨p, f2⟩
    exact ⟨mid, p, f, f2, hm, rfl, hmid, hff, rfl, rfl⟩
  | ok r =>
    rcases r with ⟨merr, f2⟩
    cases merr with
    | none =>
      simp only
      rw [List.append_assoc]
      apply sendAndClose_terminated
      · simp only [countSends_append, hmid]; rfl
      · rw [← List.append_assoc, firstFailure_append, hff]
        simp [firstFailure, Event.failure, responseFor]
    | some e =>
      simp only
      rw [List.append_assoc]
      apply sendAndClose_terminated
      · simp only [countSends_append, hmid]; rfl
      · rw [← List.append_assoc, firstFailure_append, hff]
        simp [firstFailure, Event.failure, responseFor]

theorem afterLoop_terminated {σ : Type} (F : File σ) (g : GRPCServer σ) (f : σ) (stream : Stream)
    (tr mid : List Event) (hmid : countSends mid = 0) (hff : firstFailure (tr ++ mid) = none) :
    Terminated stream.sendErr tr (afterLoop F g f stream (tr ++ mid)) ∨
      Panicked g tr (afterLoop F g f stream (tr ++ mid)) := by
  unfold afterLoop
  cases hseek : F.Seek with
  | none =>
    simp only
    have h := mutate_terminated F g f stream tr mid hmid hff
    cases hm : g.uploadedFileMutator f with
    | error pf =>
      rcases pf with ⟨p, f2⟩
      rw [hm] at h
      exact Or.inr h
    | ok r =>
      rcases r with ⟨merr, f2⟩
      rw [hm] at h
      cases merr with
      | none => exact Or.inl h
      | some e => exact Or.inl h
  | some seek =>
    simp only
    rcases hs : seek f with ⟨serr, f1⟩
    cases serr with
    | some e =>
      left
      simp only
      rw [List.append_assoc]
      apply sendAndClose_terminated
      · simp only [countSends_append, hmid]; rfl
      · rw [← List.append_assoc, firstFailure_append, hff]
        simp [firstFailure, Event.failure, responseFor]
    | none =>
      simp only
      have hmid1 : countSends (mid ++ [Event.seek none]) = 0 := by
        simp only [countSends_append, hmid]; rfl
      have hff1 : firstFailure (tr ++ (mid ++ [Event.seek none])) = none := by
        rw [← List.append_assoc, firstFailure_append, hff]
        simp [firstFailure, Event.failure]
      have h := mutate_terminated F g f1 stream tr (mid ++ [Event.seek none]) hmid1 hff1
      rw [← List.append_assoc] at h
      cases hm : g.uploadedFileMutator f1 with
      | error pf =>
        rcases pf with ⟨p, f2⟩
        rw [hm] at h
        exact Or.inr h
      | ok r =>
        rcases r with ⟨merr, f2⟩
        rw [hm] at h
        cases merr with
        | none => exact Or.inl h
        | some e => exact Or.inl h

/-- The receive loop always ends: with one response chosen by the first failure, or with a
panic of the mutator and no response. -/
theorem uploadLoop_terminated {σ : Type} (F : File σ) (g : GRPCServer σ) (sendErr : Option Error) :
    ∀ (incoming : List Received) (f : σ) (tr mid : List Event), countSends mid = 0 →
      firstFailure (tr ++ mid) = none →
      ∃ out, uploadLoop F g sendErr incoming f (tr ++ mid) = some out ∧
        (Terminated sendErr tr out ∨ Panicked g tr out) := by
  intro incoming
  induction incoming with
  | nil =>
    intro f tr mid hmid hff
    refine ⟨_, rfl, ?_⟩
    rw [List.append_assoc]
    apply afterLoop_terminated F g f ⟨[], sendErr⟩
    · simp only [countSends_append, hmid]; rfl
    · rw [← List.append_assoc, firstFailure_append, hff]
      simp [firstFailure, Event.failure]
  | cons r rest ih =>
    intro f tr mid hmid hff
    cases r with
    | err e =>
      by_cases he : e = Error.EOF
      · refine ⟨_, by simp only [uploadLoop, he, if_true]; rfl, ?_⟩
        rw [List.append_assoc]
        apply afterLoop_terminated F g f ⟨rest, sendErr⟩
        · simp only [countSends_append, hmid]; rfl
        · rw [← List.append_assoc, firstFailure_append, hff]
          simp [firstFailure, Event.failure]
      · refine ⟨_, by simp only [uploadLoop, he, if_false]; rfl, Or.inl ?_⟩
        rw [List.append_assoc]
        apply sendAndClose_terminated F _ f ⟨rest, sendErr⟩
        · simp only [countSends_append, hmid]; rfl
        · rw [← List.append_assoc, firstFailure_append, hff]
          simp [firstFailure, Event.failure, responseFor, he]
    | chunk c =>
      obtain ⟨r, hr⟩ := FileByChunks_buffer_total (fileWriter F) (bufferFuel c.Data.length)
        c.Data (f, (tr ++ mid) ++ [Event.recv (.chunk c)]) (le_refl _)
      obtain ⟨ws, h1, h2, h3⟩ := FileByChunks_fileWriter_trace F _ _ _ _ _ hr
      rcases r with ⟨res, s1, f1, tr1⟩
      simp only at h1 h3
      subst h1
      have hc : countSends (mid ++ [Event.recv (.chunk c)] ++ ws) = 0 := by
        simp only [countSends_append, hmid, h2]; rfl
      have hassoc : tr ++ mid ++ [Event.recv (.chunk c)] ++ ws =
          tr ++ (mid ++ [Event.recv (.chunk c)] ++ ws) := by simp
      cases res with
      | some e =>
        refine ⟨_, by simp only [uploadLoop, hr]; rfl, Or.inl ?_⟩
        rw [hassoc]
        apply sendAndClose_terminated F _ f1 ⟨rest, sendErr⟩ _ _ hc
        rw [← hassoc, firstFailure_append, firstFailure_append, hff, h3]
        simp [firstFailure, Event.failure, responseFor]
      | none =>
        have hff1 : firstFailure (tr ++ (mid ++ [Event.recv (.chunk c)] ++ ws)) = none := by
          rw [← hassoc, firstFailure_append, firstFailure_append, hff, h3]
          simp [firstFailure, Event.failure]
        obtain ⟨out, ho, ht⟩ := ih f1 tr _ hc hff1
        refine ⟨out, ?_, ht⟩
        simp only [uploadLoop, hr]
        rw [hassoc]
        exact ho

end api

namespace api

open upload

theorem fileWriter_neverFails_content {σ : Type} (F : File σ) (content : σ → List Byte)
    (good : σ → Prop) (hF : NeverFails F.toWriter content good) :
    NeverFails (fileWriter F) (fun w => content w.1) (fun w => good w.1) := by
  intro w p hg
  obtain ⟨h1, h2, h3⟩ := hF w.1 p hg
  simp only [File.toWriter] at h1 h2 h3
  rcases hw : F.Write w.1 p with ⟨⟨n, err⟩, f1⟩
  rw [hw] at h1 h2 h3
  simp only [fileWriter, hw]
  exact ⟨h1, h2, h3⟩

theorem fileWriter_neverFails_written {σ : Type} (F : File σ) (content : σ → List Byte)
    (good : σ → Prop) (hF : NeverFails F.toWriter content good) :
    NeverFails (fileWriter F) (fun w => written w.2) (fun w => good w.1) := by
  intro w p hg
  obtain ⟨h1, _, h3⟩ := hF w.1 p hg
  simp only [File.toWriter] at h1 h3
  rcases hw : F.Write w.1 p with ⟨⟨n, err⟩, f1⟩
  rw [hw] at h1 h3
  simp only [fileWriter, hw]
  exact ⟨h1, by simp [written_append, written], h3⟩

/-- With a file that never fails, the receive loop hands every chunk to the file in order and
then reaches the code after the loop. -/
theorem uploadLoop_neverFails {σ : Type} (F : File σ) (g : GRPCServer σ) (sendErr : Option Error)
    (content : σ → List Byte) (good : σ → Prop) (hF : NeverFails F.toWriter content good)
    (tail : List Received)
    (hend : tail = [] ∨ ∃ rest, tail = Received.err Error.EOF :: rest) :
    ∀ (chunks : List FileChunk) (f : σ) (tr : List Event), good f →
      ∃ f1 tr1 stream1, uploadLoop F g sendErr (chunks.map Received.chunk ++ tail) f tr =
          some (afterLoop F g f1 stream1 tr1) ∧
        content f1 = content f ++ (chunks.map FileChunk.Data).flatten ∧
        written tr1 = written tr ++ (chunks.map FileChunk.Data).flatten := by
  intro chunks
  induction chunks with
  | nil =>
    intro f tr _
    rcases hend with h | ⟨rest, h⟩
    · subst h
      exact ⟨f, _, _, rfl, by simp, by simp [written_append, written]⟩
    · subst h
      refine ⟨f, _, _, by simp only [List.map_nil, List.nil_append, uploadLoop, if_true]; rfl,
        by simp, by simp [written_append, written]⟩
  | cons c cs ih =>
    intro f tr hg
    obtain ⟨d1, hr, hc, hg1⟩ := FileByChunks_buffer_neverFails (fileWriter F)
      (fun w => content w.1) (fun w => good w.1)
      (fileWriter_neverFails_content F content good hF) (bufferFuel c.Data.length) c.Data
      (f, tr ++ [Event.recv (.chunk c)]) hg (by unfold bufferFuel; omega)
    obtain ⟨d2, hr2, hw, _⟩ := FileByChunks_buffer_neverFails (fileWriter F)
      (fun w => written w.2) (fun w => good w.1)
      (fileWriter_neverFails_written F content good hF) (bufferFuel c.Data.length) c.Data
      (f, tr ++ [Event.recv (.chunk c)]) hg (by unfold bufferFuel; omega)
    have hd : d2 = d1 := by
      rw [hr] at hr2
      simp only [Option.some.injEq, Prod.mk.injEq, true_and] at hr2
      exact hr2.symm
    subst hd
    rcases d2 with ⟨f1, tr1⟩
    simp only at hc hw hg1
    obtain ⟨f2, tr2, stream2, h1, h2, h3⟩ := ih f1 tr1 hg1
    refine ⟨f2, tr2, stream2, ?_, ?_, ?_⟩
    · simp only [List.map_cons, List.cons_append, uploadLoop, hr]
      exact h1
    · rw [h2, hc]; simp
    · rw [h3, hw]; simp [written_append, written]

end api

namespace upload

/-- C4: for every byte sequence `s` held in a byte buffer and every destination whose writes
never fail, `FileByChunks` (given fuel for one iteration per page plus one) returns success and
the destination then holds its previous content followed by exactly the bytes of `s`, in order;
the source is left empty. -/
theorem C4_FileByChunks_copies_buffer {ω : Type} (W : Writer ω) (content : ω → List Byte)
    (good : ω → Prop) (hW : NeverFails W content good) (s : List Byte) (dest : ω) (fuel : Nat)
    (hdest : good dest) (hfuel : s.length / pageSize + 1 ≤ fuel) :
    ∃ dest1, FileByChunks bytesBuffer W fuel s dest = some (none, [], dest1) ∧
      content dest1 = content dest ++ s :=
  (FileByChunks_buffer_neverFails W content good hW fuel s dest hdest hfuel).imp
    (fun _ h => ⟨h.1, h.2.1⟩)

/-- Witness of C4: a buffer of 5000 bytes (two pages) copied behind one byte already in the
destination buffer. -/
theorem C4_FileByChunks_copies_buffer_witness :
    NeverFails bufferWriter id (fun _ => True) ∧
    (List.replicate 5000 (97 : Byte)).length / pageSize + 1 ≤ 2 ∧
    ∃ dest1, FileByChunks bytesBuffer bufferWriter 2 (List.replicate 5000 (97 : Byte)) [10] =
        some (none, [], dest1) ∧
      id dest1 = id [10] ++ List.replicate 5000 (97 : Byte) :=
  ⟨bufferWriter_neverFails, by rw [List.length_replicate]; decide,
    C4_FileByChunks_copies_buffer bufferWriter id (fun _ => True) bufferWriter_neverFails
      (List.replicate 5000 (97 : Byte)) [10] 2 trivial (by rw [List.length_replicate]; decide)⟩

end upload

namespace api

open upload

theorem fakeFile_neverFails :
    NeverFails fakeFile.toWriter (fun f => f.buff) (fun f => f.writeErr = none) := by
  intro w p hg
  simp [File.toWriter, fakeFile, fakeWriteCloser.Write, hg]

/-- C5: when the stream delivers the chunks `chunks` and then end-of-stream, and the writes of
the file never fail, `UploadFile` reaches the code that rewinds the file and invokes the mutator
(`afterLoop`) in a state where the file holds its initial content followed by the concatenation
of the chunk payloads in delivery order, the Write calls made so far carry exactly those bytes,
and their total size is the sum of the payload sizes. -/
theorem C5_sink_receives_payloads_in_order {σ : Type} (F : File σ) (g : GRPCServer σ)
    (stream : Stream) (content : σ → List Byte) (good : σ → Prop) (f0 : σ)
    (chunks : List FileChunk) (tail : List Received)
    (hF : NeverFails F.toWriter content good)
    (hf0 : good f0)
    (hback : g.fileBackend = .ok f0)
    (hin : stream.incoming = chunks.map Received.chunk ++ tail)
    (hend : tail = [] ∨ ∃ rest, tail = Received.err Error.EOF :: rest) :
    ∃ f1 tr1 stream1, UploadFile F g stream = some (afterLoop F g f1 stream1 tr1) ∧
      content f1 = content f0 ++ (chunks.map FileChunk.Data).flatten ∧
      written tr1 = (chunks.map FileChunk.Data).flatten ∧
      (written tr1).length = (chunks.map (fun c => c.Data.length)).sum := by
  obtain ⟨f1, tr1, stream1, h1, h2, h3⟩ :=
    uploadLoop_neverFails F g stream.sendErr content good hF tail hend chunks f0 [] hf0
  refine ⟨f1, tr1, stream1, ?_, h2, ?_, ?_⟩
  · simp only [UploadFile, hback, hin]
    exact h1
  · simpa [written] using h3
  · rw [h3]
    simp [written, List.length_flatten, List.map_map, Function.comp_def]

/-- Witness of C5: the test double with no injected error receives two chunks and then the
end of the stream. -/
theorem C5_sink_receives_payloads_in_order_witness :
    ∃ f1 tr1 stream1,
      UploadFile fakeFile ⟨.ok ⟨0, [], none, none, none⟩, fun f => .ok (none, f)⟩
          ⟨[.chunk ⟨[1, 2]⟩, .chunk ⟨[3]⟩, .err Error.EOF], none⟩ =
        some (afterLoop fakeFile ⟨.ok ⟨0, [], none, none, none⟩, fun f => .ok (none, f)⟩
          f1 stream1 tr1) ∧
      f1.buff = [] ++ ([FileChunk.mk [1, 2], FileChunk.mk [3]].map FileChunk.Data).flatten ∧
      written tr1 = ([FileChunk.mk [1, 2], FileChunk.mk [3]].map FileChunk.Data).flatten ∧
      (written tr1).length =
        ([FileChunk.mk [1, 2], FileChunk.mk [3]].map (fun c => c.Data.length)).sum :=
  C5_sink_receives_payloads_in_order fakeFile ⟨.ok ⟨0, [], none, none, none⟩, fun f => .ok (none, f)⟩
    ⟨[.chunk ⟨[1, 2]⟩, .chunk ⟨[3]⟩, .err Error.EOF], none⟩ (fun f => f.buff)
    (fun f => f.writeErr = none) ⟨0, [], none, none, none⟩ [⟨[1, 2]⟩, ⟨[3]⟩] [.err Error.EOF]
    fakeFile_neverFails rfl rfl rfl (Or.inr ⟨[], rfl⟩)

/-- Every run of `UploadFile` in which the file backend succeeds ends in one of two ways. It
returns, after one response fixed by the first failing step ("error while reading stream" for
a receive error other than `io.EOF`, "could not write to file" for a failed Write of
`FileByChunks`, "internal server error" for a failed rewind, "could not mutate json content"
for a mutator that returned an error, "upload completed" when no step failed) and the Close.
Or the mutator panics: the panic leaves the handler through the Close and no response is
sent. -/
theorem UploadFile_returns_or_panics {σ : Type} (F : File σ) (g : GRPCServer σ)
    (stream : Stream) (f0 : σ) (hback : g.fileBackend = .ok f0) :
    ∃ out, UploadFile F g stream = some out ∧
      (Terminated stream.sendErr [] out ∨ Panicked g [] out) := by
  obtain ⟨out, ho, ht⟩ :=
    uploadLoop_terminated F g stream.sendErr stream.incoming f0 [] [] rfl rfl
  refine ⟨out, ?_, ht⟩
  simp only [UploadFile, hback]
  exact ho

/-- A run of `UploadFile` that returns has sent exactly one response, and one that a panic
ends has sent none. -/
theorem UploadFile_sends {σ : Type} (F : File σ) (g : GRPCServer σ) (stream : Stream) :
    ∃ out, UploadFile F g stream = some out ∧
      ((∃ err, out.ret = .ok err) → countSends out.trace = 1) ∧
      ((∃ p, out.ret = .error p) → countSends out.trace = 0) := by
  cases hb : g.fileBackend with
  | error e =>
    have h : UploadFile F g stream = some
        { ret := .ok stream.sendErr, file := none, stream := stream,
          trace := [Event.send ⟨"could not create upload destinaton", .error⟩] } := by
      simp only [UploadFile, hb]
    refine ⟨_, h, fun _ => rfl, ?_⟩
    rintro ⟨p, hp⟩
    cases hp
  | ok f =>
    obtain ⟨out, ho, ht⟩ := UploadFile_returns_or_panics F g stream f hb
    refine ⟨out, ho, ?_, ?_⟩
    · rintro ⟨err, herr⟩
      rcases ht with ⟨mid, ht, hmid, _, _⟩ | ⟨mid, p, _, _, _, _, _, _, hret, _⟩
      · rw [ht]
        simp only [List.nil_append, countSends_append, hmid]
        rfl
      · rw [hret] at herr
        cases herr
    · rintro ⟨p, hp⟩
      rcases ht with ⟨mid, _, _, hret, _⟩ | ⟨mid, p1, _, _, _, ht, hmid, _, _, _⟩
      · rw [hret] at hp
        cases hp
      · rw [ht]
        simp only [List.nil_append, countSends_append, hmid]
        rfl

set_option maxRecDepth 1000000 in
/-- C6, the failing input: the service as `NewFileUploaderService` wires it, started in an
empty directory, receives the one chunk `{"":1}` and then the end of the stream. The chunk is
written, the file is rewound, the mutator panics on the empty key: the handler ends with that
panic, the only thing it still does is the deferred Close, and `SendAndClose` is called not
once. -/
theorem C6_no_response_on_empty_key :
    ∃ out,
      UploadFile (uploadedFile OS.sound ("uploaded-file-" ++ "11111062109303045"))
          (NewFileUploaderService Runtime.amd64 OS.sound "11111062109303045"
            "11111062109303045" Disk.empty)
          ⟨[.chunk ⟨stringBytes "\x7b\"\":1\x7d"⟩, .err Error.EOF], none⟩ = some out ∧
      out.ret = .error (Panic.indexOutOfRange 0 0) ∧
      out.trace =
        [Event.recv (.chunk ⟨stringBytes "\x7b\"\":1\x7d"⟩),
          Event.write (stringBytes "\x7b\"\":1\x7d") 6 none,
          Event.recv (.err Error.EOF), Event.seek none,
          Event.mutatePanic (Panic.indexOutOfRange 0 0), Event.close] ∧
      countSends out.trace = 0 :=
  ⟨_, rfl, rfl, rfl, rfl⟩

set_option maxRecDepth 1000000 in
/-- C7, the failing input: the service as `NewFileUploaderService` wires it, started in an
empty directory, receives the object `{"b":2,"":"x"}` in two chunks. No step returns an
error, and the mutator fails by a panic on the empty key: neither "could not mutate json
content" nor "upload completed" is sent, nor any other response. -/
theorem C7_no_response_for_panicking_mutator :
    ∃ out,
      UploadFile (uploadedFile OS.sound ("uploaded-file-" ++ "11111062109303045"))
          (NewFileUploaderService Runtime.amd64 OS.sound "11111062109303045"
            "11111062109303045" Disk.empty)
          ⟨[.chunk ⟨stringBytes "\x7b\"b\":2,"⟩, .chunk ⟨stringBytes "\"\":\"x\"\x7d"⟩], none⟩ =
        some out ∧
      out.ret = .error (Panic.indexOutOfRange 0 0) ∧
      firstFailure out.trace = none ∧
      (∃ pre, out.trace = pre ++ [Event.mutatePanic (Panic.indexOutOfRange 0 0), Event.close]) ∧
      ∀ resp, Event.send resp ∉ out.trace := by
  have key : ∃ out,
      UploadFile (uploadedFile OS.sound ("uploaded-file-" ++ "11111062109303045"))
          (NewFileUploaderService Runtime.amd64 OS.sound "11111062109303045"
            "11111062109303045" Disk.empty)
          ⟨[.chunk ⟨stringBytes "\x7b\"b\":2,"⟩, .chunk ⟨stringBytes "\"\":\"x\"\x7d"⟩], none⟩ =
        some out ∧
      out.ret = .error (Panic.indexOutOfRange 0 0) ∧
      out.trace =
        [Event.recv (.chunk ⟨stringBytes "\x7b\"b\":2,"⟩),
          Event.write (stringBytes "\x7b\"b\":2,") 7 none,
          Event.recv (.chunk ⟨stringBytes "\"\":\"x\"\x7d"⟩),
          Event.write (stringBytes "\"\":\"x\"\x7d") 7 none,
          Event.recv (.err Error.EOF), Event.seek none,
          Event.mutatePanic (Panic.indexOutOfRange 0 0), Event.close] :=
    ⟨_, rfl, rfl, rfl⟩
  obtain ⟨out, h1, h2, h3⟩ := key
  refine ⟨out, h1, h2, ?_, ⟨out.trace.take 6, by rw [h3]; rfl⟩, ?_⟩
  · rw [h3]
    rfl
  · intro resp h
    rw [h3] at h
    simp at h

end api

namespace api

open upload

/-- C8, as the code has it: when the file backend fails, `UploadFile` returns what
`SendAndClose` returns after a single action, sending the response with status error and the
message "could not create upload destinaton"; the stream is left as it was (no `Recv`), no file
exists, nothing is written and the mutator is not invoked. -/
theorem C8_backend_failure {σ : Type} (F : File σ) (g : GRPCServer σ) (stream : Stream)
    (e : Error) (hback : g.fileBackend = .error e) :
    ∃ out, UploadFile F g stream = some out ∧ out.ret = .ok stream.sendErr ∧ out.file = none ∧
      out.stream = stream ∧
      out.trace = [Event.send ⟨"could not create upload destinaton", FileChunkResponseStatus.error⟩] := by
  have h : UploadFile F g stream = some
      { ret := .ok stream.sendErr, file := none, stream := stream,
        trace := [Event.send ⟨"could not create upload destinaton", .error⟩] } := by
    simp only [UploadFile, hback]
  exact ⟨_, h, rfl, rfl, rfl, rfl⟩

/-- Witness of C8: the test "create file error". -/
theorem C8_backend_failure_witness :
    ∃ out, UploadFile fakeFile
        ⟨.error (.New "assert.AnError general error for testing"), fun f => .ok (none, f)⟩
        ⟨[.chunk ⟨[97, 97]⟩], none⟩ = some out ∧
      out.ret = .ok (Stream.mk [.chunk ⟨[97, 97]⟩] none).sendErr ∧ out.file = none ∧
      out.stream = ⟨[.chunk ⟨[97, 97]⟩], none⟩ ∧
      out.trace = [Event.send ⟨"could not create upload destinaton", FileChunkResponseStatus.error⟩] :=
  C8_backend_failure fakeFile
    ⟨.error (.New "assert.AnError general error for testing"), fun f => .ok (none, f)⟩
    ⟨[.chunk ⟨[97, 97]⟩], none⟩ (.New "assert.AnError general error for testing") rfl

/-- C8 as stated fails: in the test "create file error" the response sent is not the one with
the message "could not create upload destination". -/
theorem C8_message_counterexample :
    ∃ out, UploadFile fakeFile
        ⟨.error (.New "assert.AnError general error for testing"), fun f => .ok (none, f)⟩
        ⟨[.chunk ⟨[97, 97]⟩], none⟩ = some out ∧
      Event.send ⟨"could not create upload destination", FileChunkResponseStatus.error⟩ ∉ out.trace :=
  ⟨_, rfl, by decide⟩

end api

namespace upload

theorem GoMap.mem_keys_set (m : GoMap) (key : String) (val : Value) (x : String) :
    x ∈ (m.set key val).keys ↔ x = key ∨ x ∈ m.keys := by
  induction m with
  | nil => simp [GoMap.set, GoMap.keys]
  | cons kv rest ih =>
    rcases kv with ⟨k, v⟩
    simp only [GoMap.set]
    split
    · rename_i h
      subst h
      simp [GoMap.keys]
    · simp only [GoMap.keys, List.map_cons, List.mem_cons] at ih ⊢
      rw [ih]
      tauto

theorem GoMap.get_set_self (m : GoMap) (key : String) (val : Value) :
    (m.set key val).get key = some val := by
  induction m with
  | nil => simp [GoMap.set, GoMap.get]
  | cons kv rest ih =>
    rcases kv with ⟨k, v⟩
    simp only [GoMap.set]
    split
    · rename_i h
      simp [GoMap.get, h]
    · rename_i h
      simp [GoMap.get, h, ih]

theorem GoMap.get_set_other (m : GoMap) (key : String) (val : Value) (x : String)
    (hx : x ≠ key) : (m.set key val).get x = m.get x := by
  induction m with
  | nil => simp [GoMap.set, GoMap.get, Ne.symm hx]
  | cons kv rest ih =>
    rcases kv with ⟨k, v⟩
    simp only [GoMap.set]
    split
    · rename_i h
      subst h
      simp [GoMap.get, Ne.symm hx]
    · simp only [GoMap.get, ih]

theorem GoMap.get_eq_none (m : GoMap) (x : String) : m.get x = none ↔ x ∉ m.keys := by
  induction m with
  | nil => simp [GoMap.get, GoMap.keys]
  | cons kv rest ih =>
    rcases kv with ⟨k, v⟩
    simp only [GoMap.get, GoMap.keys, List.map_cons, List.mem_cons, not_or]
    split
    · rename_i h
      subst h
      simp
    · rename_i h
      simp only [GoMap.keys] at ih
      rw [ih]
      constructor
      · intro h1
        exact ⟨fun h2 => h h2.symm, h1⟩
      · intro h1
        exact h1.2

theorem GoMap.set_nodup (m : GoMap) (key : String) (val : Value) (h : m.keys.Nodup) :
    (m.set key val).keys.Nodup := by
  induction m with
  | nil => simp [GoMap.set, GoMap.keys]
  | cons kv rest ih =>
    rcases kv with ⟨k, v⟩
    simp only [GoMap.keys, List.map_cons, List.nodup_cons] at h
    simp only [GoMap.set]
    split
    · simp only [GoMap.keys, List.map_cons, List.nodup_cons]
      exact h
    · rename_i hk
      have hmem := GoMap.mem_keys_set rest key val k
      simp only [GoMap.keys] at hmem ih ⊢
      simp only [List.map_cons, List.nodup_cons]
      refine ⟨?_, ih h.2⟩
      rw [hmem]
      intro h1
      rcases h1 with h1 | h1
      · exact hk h1
      · exact h.1 h1

theorem GoMap.setAll_nodup (members : List (String × Value)) :
    ∀ m : GoMap, m.keys.Nodup → (m.setAll members).keys.Nodup := by
  induction members with
  | nil => intro m h; exact h
  | cons kv rest ih =>
    intro m h
    rcases kv with ⟨k, v⟩
    exact ih _ (GoMap.set_nodup m k v h)

/-- In a map without repeated keys, the entries are what `get` returns. -/
theorem GoMap.mem_iff_get (m : GoMap) (h : m.keys.Nodup) (key : String) (val : Value) :
    (key, val) ∈ m ↔ m.get key = some val := by
  induction m with
  | nil => simp [GoMap.get]
  | cons kv rest ih =>
    rcases kv with ⟨k, v⟩
    simp only [GoMap.keys, List.map_cons, List.nodup_cons] at h
    simp only [List.mem_cons, Prod.mk.injEq, GoMap.get]
    split
    · rename_i hk
      subst hk
      constructor
      · intro h1
        rcases h1 with h1 | h1
        · rw [h1.2]
        · exact absurd (List.mem_map_of_mem Prod.fst h1) h.1
      · intro h1
        left
        exact ⟨rfl, (Option.some.inj h1).symm⟩
    · rename_i hk
      rw [← ih h.2]
      constructor
      · intro h1
        rcases h1 with h1 | h1
        · exact absurd h1.1.symm hk
        · exact h1
      · intro h1
        exact Or.inr h1

/-- The map `Unmarshal` returns has no key twice. -/
theorem Unmarshal_nodup (data : List Byte) (inData : GoMap) (h : Unmarshal data [] = .ok inData) :
    inData.keys.Nodup := by
  unfold Unmarshal at h
  split at h
  · cases h
  · split at h
    · split at h
      · cases h
      · cases h
        exact GoMap.setAll_nodup _ [] (by simp [GoMap.keys])
    · split at h
      · cases h
      · cases h
        simp [GoMap.keys]
    all_goals cases h

end upload

namespace upload

theorem Char.toNat_lt (c : Char) : c.toNat < 0x110000 := by
  have h := c.valid
  unfold UInt32.isValidChar Nat.isValidChar at h
  unfold Char.toNat
  omega

theorem Char.eq_of_toNat (c : Char) (n : Nat) (h : c.toNat = n) : c = Char.ofNat n := by
  rw [← h, Char.ofNat_toNat]

theorem mem_lowerVowels (c : Char) :
    c ∈ lowerVowels ↔ c.toNat = 97 ∨ c.toNat = 101 ∨ c.toNat = 105 ∨ c.toNat = 111 ∨ c.toNat = 117 := by
  simp only [lowerVowels, List.mem_cons, List.mem_singleton, List.not_mem_nil, or_false]
  constructor
  · intro h
    rcases h with h | h | h | h | h <;> subst h <;> decide
  · intro h
    rcases h with h | h | h | h | h
    · left; exact Char.eq_of_toNat c 97 h
    · right; left; exact Char.eq_of_toNat c 101 h
    · right; right; left; exact Char.eq_of_toNat c 105 h
    · right; right; right; left; exact Char.eq_of_toNat c 111 h
    · right; right; right; right; exact Char.eq_of_toNat c 117 h

theorem isVowelByte_iff (b : Byte) :
    vowels.any (fun v => decide (b = v)) = true ↔
      b.val = 97 ∨ b.val = 101 ∨ b.val = 105 ∨ b.val = 111 ∨ b.val = 117 := by
  simp only [vowels, List.any_cons, List.any_nil, Bool.or_false, Bool.or_eq_true,
    decide_eq_true_eq, Fin.ext_iff]
  have h1 : ((97 : Byte) : Nat) = 97 := rfl
  have h2 : ((111 : Byte) : Nat) = 111 := rfl
  have h3 : ((101 : Byte) : Nat) = 101 := rfl
  have h4 : ((105 : Byte) : Nat) = 105 := rfl
  have h5 : ((117 : Byte) : Nat) = 117 := rfl
  rw [h1, h2, h3, h4, h5]
  tauto

/-- The first byte of the UTF-8 encoding of a rune is one of the vowel bytes exactly when the
rune is one of `a`, `e`, `i`, `o`, `u`. -/
theorem encodeRune_head (c : Char) :
    ∃ b bs, encodeRune c = b :: bs ∧
      (vowels.any (fun v => decide (b = v)) = true ↔ c ∈ lowerVowels) := by
  have hlt := Char.toNat_lt c
  unfold encodeRune
  simp only
  split
  · refine ⟨_, _, rfl, ?_⟩
    rw [isVowelByte_iff, mem_lowerVowels]
    have : (Fin.ofNat c.toNat : Byte).val = c.toNat := by
      simp only [Fin.ofNat, Fin.val_mk]
      omega
    rw [this]
  · split
    · refine ⟨_, _, rfl, ?_⟩
      rw [isVowelByte_iff, mem_lowerVowels]
      have : (Fin.ofNat (0xC0 + c.toNat / 64) : Byte).val = 0xC0 + c.toNat / 64 := by
        simp only [Fin.ofNat, Fin.val_mk]
        omega
      rw [this]
      omega
    · split
      · refine ⟨_, _, rfl, ?_⟩
        rw [isVowelByte_iff, mem_lowerVowels]
        have : (Fin.ofNat (0xE0 + c.toNat / 4096) : Byte).val = 0xE0 + c.toNat / 4096 := by
          simp only [Fin.ofNat, Fin.val_mk]
          omega
        rw [this]
        omega
      · refine ⟨_, _, rfl, ?_⟩
        rw [isVowelByte_iff, mem_lowerVowels]
        have : (Fin.ofNat (0xF0 + c.toNat / 262144) : Byte).val = 0xF0 + c.toNat / 262144 := by
          simp only [Fin.ofNat, Fin.val_mk]
          omega
        rw [this]
        omega

/-- On a non-empty key `startsWithVowel` returns whether the first rune, lowered, is a vowel. -/
theorem startsWithVowel_cons (key : String) (c : Char) (rest : List Char)
    (h : key.data = c :: rest) :
    startsWithVowel key = .ok (decide (unicodeToLower c ∈ lowerVowels)) := by
  obtain ⟨b, bs, hb, hv⟩ := encodeRune_head (unicodeToLower c)
  unfold startsWithVowel
  have : stringBytes (ToLower key) = b :: (bs ++ (rest.map unicodeToLower).flatMap encodeRune) := by
    simp [stringBytes, ToLower, h, hb]
  rw [this]
  simp only
  congr 1
  by_cases hc : unicodeToLower c ∈ lowerVowels
  · simp only [hc, decide_True]
    exact hv.mpr hc
  · simp only [hc, decide_False]
    cases hany : vowels.any (fun v => decide (b = v))
    · rfl
    · exact absurd (hv.mp hany) hc

/-- On the empty key `startsWithVowel` panics. -/
theorem startsWithVowel_nil (key : String) (h : key.data = []) :
    startsWithVowel key = .error (Panic.indexOutOfRange 0 0) := by
  unfold startsWithVowel
  simp [stringBytes, ToLower, h]

end upload

namespace upload

theorem key_data_of_ne_empty (key : String) (h : key ≠ "") : ∃ c rest, key.data = c :: rest := by
  rcases key with ⟨data⟩
  cases data with
  | nil => exact absurd rfl h
  | cons c rest => exact ⟨c, rest, rfl⟩

theorem startsWithVowel_of_ne_empty (key : String) (h : key ≠ "") :
    startsWithVowel key = .ok (VowelInitial key) := by
  obtain ⟨c, rest, hd⟩ := key_data_of_ne_empty key h
  rw [startsWithVowel_cons key c rest hd]
  simp [VowelInitial, hd]

theorem GoMap.set_set (m : GoMap) (key : String) (a b : Value) :
    (m.set key a).set key b = m.set key b := by
  induction m with
  | nil => simp [GoMap.set]
  | cons kv rest ih =>
    rcases kv with ⟨k, v⟩
    by_cases hk : k = key
    · simp [GoMap.set, hk]
    · simp [GoMap.set, hk, ih]

/-- One turn of the loop on a non-empty key: a vowel-initial key leaves `outData` as it is, any
other key is set to the mutated value. -/
theorem mutateEntry_eq (rt : Runtime) (outData : GoMap) (key : String) (val : Value)
    (h : key ≠ "") :
    mutateEntry rt outData key val =
      .ok (if VowelInitial key then outData else outData.set key (mutatedValue rt val)) := by
  unfold mutateEntry
  rw [startsWithVowel_of_ne_empty key h]
  cases hv : VowelInitial key
  · simp only [Bool.false_eq_true, if_false]
    cases val with
    | number f =>
      simp only [mutatedValue, bumpTest]
      by_cases hb : (toInt64 rt (Modf f).1).tmod 2 = 0 ∧ ¬ (Modf f).2.isPositive = true
      · rw [if_pos hb]
        simp [hb.1, hb.2, GoMap.set_set]
      · rw [if_neg hb]
        have : (decide ((toInt64 rt (Modf f).1).tmod 2 = 0) && !(Modf f).2.isPositive) = false := by
          by_cases h1 : (toInt64 rt (Modf f).1).tmod 2 = 0
          · have h2 : (Modf f).2.isPositive = true := by
              by_contra h2
              exact hb ⟨h1, h2⟩
            simp [h1, h2]
          · simp [h1]
        simp [this]
    | null => rfl
    | bool b => rfl
    | string s => rfl
    | array es => rfl
    | object ms => rfl
  · simp

/-- The loop over entries with non-empty keys returns; the keys of the result are those of the
initial map and the keys visited that are not vowel-initial. -/
theorem mutateAll_keys (rt : Runtime) (l : List (String × Value)) :
    ∀ acc : GoMap, (∀ kv ∈ l, kv.1 ≠ "") →
      ∃ outData, mutateAll rt l acc = .ok outData ∧
        ∀ x, x ∈ outData.keys ↔ x ∈ acc.keys ∨ (x ∈ GoMap.keys l ∧ VowelInitial x = false) := by
  induction l with
  | nil =>
    intro acc _
    exact ⟨acc, rfl, by simp [GoMap.keys]⟩
  | cons kv rest ih =>
    intro acc hne
    rcases kv with ⟨k, v⟩
    have hk : k ≠ "" := hne (k, v) (List.mem_cons_self _ _)
    obtain ⟨outData, ho, hkeys⟩ := ih (if VowelInitial k then acc else acc.set k (mutatedValue rt v))
      (fun kv hkv => hne kv (List.mem_cons_of_mem _ hkv))
    refine ⟨outData, ?_, ?_⟩
    · simp only [mutateAll, mutateEntry_eq rt acc k v hk]
      exact ho
    · intro x
      rw [hkeys x]
      simp only [GoMap.keys, List.map_cons, List.mem_cons]
      cases hv : VowelInitial k
      · simp only [Bool.false_eq_true, if_false]
        have := GoMap.mem_keys_set acc k (mutatedValue rt v) x
        simp only [GoMap.keys] at this
        rw [this]
        constructor
        · intro h
          rcases h with (h | h) | h
          · subst h
            exact Or.inr ⟨Or.inl rfl, hv⟩
          · exact Or.inl h
          · exact Or.inr ⟨Or.inr h.1, h.2⟩
        · intro h
          rcases h with h | ⟨h | h, h2⟩
          · exact Or.inl (Or.inr h)
          · exact Or.inl (Or.inl h)
          · exact Or.inr ⟨h, h2⟩
      · simp only [if_true]
        constructor
        · intro h
          rcases h with h | h
          · exact Or.inl h
          · exact Or.inr ⟨Or.inr h.1, h.2⟩
        · intro h
          rcases h with h | ⟨h | h, h2⟩
          · exact Or.inl h
          · subst h
            rw [hv] at h2
            cases h2
          · exact Or.inr ⟨h, h2⟩

/-- The loop leaves alone the keys it does not visit. -/
theorem mutateAll_get_other (rt : Runtime) (l : List (String × Value)) :
    ∀ (acc outData : GoMap) (x : String), mutateAll rt l acc = .ok outData → x ∉ GoMap.keys l →
      outData.get x = acc.get x := by
  induction l with
  | nil =>
    intro acc outData x h _
    simp only [mutateAll, Except.ok.injEq] at h
    rw [h]
  | cons kv rest ih =>
    intro acc outData x h hx
    rcases kv with ⟨k, v⟩
    simp only [GoMap.keys, List.map_cons, List.mem_cons, not_or] at hx
    simp only [mutateAll] at h
    cases he : mutateEntry rt acc k v with
    | error p => rw [he] at h; cases h
    | ok acc1 =>
      rw [he] at h
      simp only at h
      rw [ih acc1 outData x h hx.2]
      by_cases hk : k = ""
      · subst hk
        unfold mutateEntry at he
        rw [startsWithVowel_nil "" rfl] at he
        cases he
      · rw [mutateEntry_eq rt acc k v hk] at he
        cases he
        split
        · rfl
        · exact GoMap.get_set_other _ _ _ _ hx.1

/-- The loop over entries with distinct non-empty keys stores, for every key visited that is
not vowel-initial, the mutated value. -/
theorem mutateAll_get (rt : Runtime) (l : List (String × Value)) :
    ∀ (acc outData : GoMap) (key : String) (val : Value), (∀ kv ∈ l, kv.1 ≠ "") →
      (GoMap.keys l).Nodup → mutateAll rt l acc = .ok outData → (key, val) ∈ l →
      VowelInitial key = false → outData.get key = some (mutatedValue rt val) := by
  induction l with
  | nil => intro acc outData key val _ _ _ hmem; cases hmem
  | cons kv rest ih =>
    intro acc outData key val hne hnd h hmem hv
    rcases kv with ⟨k, v⟩
    have hk : k ≠ "" := hne (k, v) (List.mem_cons_self _ _)
    simp only [GoMap.keys, List.map_cons, List.nodup_cons] at hnd
    simp only [mutateAll, mutateEntry_eq rt acc k v hk] at h
    rcases List.mem_cons.mp hmem with heq | hrest
    · cases heq
      rw [hv] at h
      simp only [Bool.false_eq_true, if_false] at h
      rw [mutateAll_get_other rt rest _ outData key h hnd.1, GoMap.get_set_self]
    · exact ih _ outData key val (fun kv hkv => hne kv (List.mem_cons_of_mem _ hkv)) hnd.2 h
        hrest hv

end upload

namespace upload

theorem Float64.excessBits_spec (fuel : Nat) :
    ∀ a, a < 2 ^ (53 + fuel) →
      a < 2 ^ (53 + Float64.excessBits fuel a) ∧
      (2 ^ 53 ≤ a → 2 ^ (52 + Float64.excessBits fuel a) ≤ a) ∧
      (a < 2 ^ 53 → Float64.excessBits fuel a = 0) := by
  induction fuel with
  | zero =>
    intro a h
    have he : Float64.excessBits 0 a = 0 := rfl
    rw [he]
    exact ⟨h, fun h1 => absurd h (by omega), fun _ => rfl⟩
  | succ fuel ih =>
    intro a h
    by_cases ha : a < 2 ^ 53
    · have he : Float64.excessBits (fuel + 1) a = 0 := by
        simp only [Float64.excessBits, ha, if_true]
      rw [he]
      exact ⟨ha, fun h1 => absurd ha (by omega), fun _ => rfl⟩
    · have he : Float64.excessBits (fuel + 1) a = Float64.excessBits fuel (a / 2) + 1 := by
        simp only [Float64.excessBits, ha, if_false]
      rw [he]
      have h2 : a / 2 < 2 ^ (53 + fuel) := by
        have : 2 ^ (53 + (fuel + 1)) = 2 * 2 ^ (53 + fuel) := by
          rw [← Nat.add_assoc, Nat.pow_succ]; omega
        omega
      obtain ⟨i1, i2, i3⟩ := ih (a / 2) h2
      have e1 : 2 ^ (53 + (Float64.excessBits fuel (a / 2) + 1)) =
          2 * 2 ^ (53 + Float64.excessBits fuel (a / 2)) := by
        rw [← Nat.add_assoc, Nat.pow_succ]; omega
      have e2 : 2 ^ (52 + (Float64.excessBits fuel (a / 2) + 1)) =
          2 * 2 ^ (52 + Float64.excessBits fuel (a / 2)) := by
        rw [← Nat.add_assoc, Nat.pow_succ]; omega
      refine ⟨by rw [e1]; omega, fun _ => ?_, fun h1 => absurd h1 ha⟩
      rw [e2]
      by_cases hh : 2 ^ 53 ≤ a / 2
      · have := i2 hh
        omega
      · have h0 := i3 (by omega)
        rw [h0]
        simp only [Nat.add_zero]
        omega

theorem Float64.lt_two_pow_self (a : Nat) : a < 2 ^ (53 + a) := by
  have h1 : a < 2 ^ a := Nat.lt_two_pow a
  have h2 : 2 ^ a ≤ 2 ^ (53 + a) := Nat.pow_le_pow_right (by decide) (by omega)
  omega

/-- The excess of a magnitude is fixed by the binade it lies in. -/
theorem Float64.excessBits_unique (a s : Nat) (h1 : 2 ^ (52 + s) ≤ a) (h2 : a < 2 ^ (53 + s)) :
    Float64.excessBits a a = s := by
  obtain ⟨i1, i2, i3⟩ := Float64.excessBits_spec a a (Float64.lt_two_pow_self a)
  by_cases ha : a < 2 ^ 53
  · rw [i3 ha]
    by_contra hne
    have hs1 : 1 ≤ s := by omega
    have : 2 ^ 53 ≤ 2 ^ (52 + s) := Nat.pow_le_pow_right (by decide) (by omega)
    omega
  · have j2 := i2 (by omega)
    by_contra hne
    rcases Nat.lt_or_gt_of_ne hne with hlt | hgt
    · have : 2 ^ (53 + Float64.excessBits a a) ≤ 2 ^ (52 + s) :=
        Nat.pow_le_pow_right (by decide) (by omega)
      omega
    · have : 2 ^ (53 + s) ≤ 2 ^ (52 + Float64.excessBits a a) :=
        Nat.pow_le_pow_right (by decide) (by omega)
      omega

theorem Float64.pow_split (a b : Nat) : 2 ^ (a + b) = 2 ^ a * 2 ^ b := Nat.pow_add 2 a b

/-- Adding less than half a unit in the last place to a magnitude leaves it as it is. -/
theorem Float64.round_add_small (m s c : Nat) (hm1 : 2 ^ 52 ≤ m) (hm2 : m < 2 ^ 53)
    (hc : 2 * c < 2 ^ s) : Float64.round (m * 2 ^ s + c) 1 = m * 2 ^ s := by
  have hP : 0 < 2 ^ s := Nat.two_pow_pos _
  have hlo : 2 ^ (52 + s) ≤ m * 2 ^ s + c := by
    rw [Float64.pow_split]
    have := Nat.mul_le_mul_right (2 ^ s) hm1
    omega
  have hhi : m * 2 ^ s + c < 2 ^ (53 + s) := by
    rw [Float64.pow_split]
    have := Nat.mul_le_mul_right (2 ^ s) (Nat.succ_le_of_lt hm2)
    rw [Nat.succ_mul] at this
    omega
  have hE : Float64.excessBits (m * 2 ^ s + c) (m * 2 ^ s + c) = s := by
    exact Float64.excessBits_unique _ _ hlo hhi
  have hq : (m * 2 ^ s + c) / 2 ^ s = m := by
    rw [Nat.add_comm, Nat.add_mul_div_right _ _ hP, Nat.div_eq_of_lt (by omega)]
    omega
  have hr : (m * 2 ^ s + c) % 2 ^ s = c := by
    rw [Nat.add_comm, Nat.add_mul_mod_self_right, Nat.mod_eq_of_lt (by omega)]
  unfold Float64.round
  simp only [Nat.div_one, hE, Nat.one_mul, hq, hr]
  rw [if_pos hc]

/-- Subtracting less than half a unit in the last place from a magnitude that is not the
lowest of its binade leaves it as it is. -/
theorem Float64.round_sub_small (m s c : Nat) (hm1 : 2 ^ 52 < m) (hm2 : m < 2 ^ 53)
    (hc : 2 * c < 2 ^ s) : Float64.round (m * 2 ^ s - c) 1 = m * 2 ^ s := by
  by_cases hc0 : c = 0
  · subst hc0
    simpa using Float64.round_add_small m s 0 (by omega) hm2 hc
  have hP : 0 < 2 ^ s := Nat.two_pow_pos _
  obtain ⟨m1, rfl⟩ : ∃ m1, m = m1 + 1 := ⟨m - 1, by omega⟩
  have hn : (m1 + 1) * 2 ^ s - c = m1 * 2 ^ s + (2 ^ s - c) := by
    rw [Nat.succ_mul]; omega
  rw [hn]
  have hlo : 2 ^ (52 + s) ≤ m1 * 2 ^ s + (2 ^ s - c) := by
    rw [Float64.pow_split]
    have := Nat.mul_le_mul_right (2 ^ s) (Nat.le_of_lt_succ hm1)
    omega
  have hhi : m1 * 2 ^ s + (2 ^ s - c) < 2 ^ (53 + s) := by
    rw [Float64.pow_split]
    have := Nat.mul_le_mul_right (2 ^ s) (Nat.le_of_lt hm2)
    rw [Nat.succ_mul] at this
    omega
  have hE : Float64.excessBits (m1 * 2 ^ s + (2 ^ s - c)) (m1 * 2 ^ s + (2 ^ s - c)) = s := by
    exact Float64.excessBits_unique _ _ hlo hhi
  have hq : (m1 * 2 ^ s + (2 ^ s - c)) / 2 ^ s = m1 := by
    rw [Nat.add_comm, Nat.add_mul_div_right _ _ hP, Nat.div_eq_of_lt (by omega)]
    omega
  have hr : (m1 * 2 ^ s + (2 ^ s - c)) % 2 ^ s = 2 ^ s - c := by
    rw [Nat.add_comm, Nat.add_mul_mod_self_right, Nat.mod_eq_of_lt (by omega)]
  unfold Float64.round
  simp only [Nat.div_one, hE, Nat.one_mul, hq, hr]
  rw [if_neg (by omega), if_neg (by omega), Nat.succ_mul]

/-- Subtracting less than a quarter of a unit in the last place from the lowest magnitude of
a binade leaves it as it is. -/
theorem Float64.round_sub_small_low (s c : Nat) (hs : 1 ≤ s) (hc : 4 * c < 2 ^ s) :
    Float64.round (2 ^ 52 * 2 ^ s - c) 1 = 2 ^ 52 * 2 ^ s := by
  by_cases hc0 : c = 0
  · subst hc0
    simpa using Float64.round_add_small (2 ^ 52) s 0 (le_refl _) (by decide) (by omega)
  obtain ⟨t, rfl⟩ : ∃ t, s = t + 1 := ⟨s - 1, by omega⟩
  have hP : 0 < 2 ^ t := Nat.two_pow_pos _
  have hpow : 2 ^ (t + 1) = 2 * 2 ^ t := by rw [Nat.pow_succ]; omega
  have hn : 2 ^ 52 * 2 ^ (t + 1) - c = (2 ^ 53 - 1) * 2 ^ t + (2 ^ t - c) := by
    rw [hpow, Nat.sub_mul]
    have : 2 ^ 52 * (2 * 2 ^ t) = 2 ^ 53 * 2 ^ t := by
      rw [← Nat.mul_assoc]
      have h2 : (2 : Nat) ^ 52 * 2 = 2 ^ 53 := by decide
      rw [h2]
    have h1 : 1 * 2 ^ t ≤ 2 ^ 53 * 2 ^ t := Nat.mul_le_mul_right _ (by decide)
    omega
  rw [hn]
  have hlo : 2 ^ (52 + t) ≤ (2 ^ 53 - 1) * 2 ^ t + (2 ^ t - c) := by
    rw [Float64.pow_split]
    have := Nat.mul_le_mul_right (2 ^ t) (show 2 ^ 52 ≤ 2 ^ 53 - 1 by decide)
    omega
  have hhi : (2 ^ 53 - 1) * 2 ^ t + (2 ^ t - c) < 2 ^ (53 + t) := by
    rw [Float64.pow_split, Nat.sub_mul]
    have h1 : 1 * 2 ^ t ≤ 2 ^ 53 * 2 ^ t := Nat.mul_le_mul_right _ (by decide)
    omega
  have hE : Float64.excessBits ((2 ^ 53 - 1) * 2 ^ t + (2 ^ t - c))
      ((2 ^ 53 - 1) * 2 ^ t + (2 ^ t - c)) = t := by
    exact Float64.excessBits_unique _ _ hlo hhi
  have hq : ((2 ^ 53 - 1) * 2 ^ t + (2 ^ t - c)) / 2 ^ t = 2 ^ 53 - 1 := by
    rw [Nat.add_comm, Nat.add_mul_div_right _ _ hP, Nat.div_eq_of_lt (by omega)]
    omega
  have hr : ((2 ^ 53 - 1) * 2 ^ t + (2 ^ t - c)) % 2 ^ t = 2 ^ t - c := by
    rw [Nat.add_comm, Nat.add_mul_mod_self_right, Nat.mod_eq_of_lt (by omega)]
  unfold Float64.round
  simp only [Nat.div_one, hE, Nat.one_mul, hq, hr]
  rw [if_neg (by omega), if_neg (by omega)]
  have h1 : 2 ^ 53 - 1 + 1 = 2 ^ 53 := by decide
  have h2 : (2 : Nat) ^ 52 * 2 = 2 ^ 53 := by decide
  rw [h1, hpow, ← Nat.mul_assoc, h2]

end upload

namespace upload

/-- A valid magnitude of at least `2^53` is a 53-bit significand times a power of two. -/
theorem Float64.valid_decompose (k : Nat) (hv : k % 2 ^ Float64.excessBits k k = 0)
    (hk : 2 ^ 53 ≤ k) :
    ∃ m, k = m * 2 ^ Float64.excessBits k k ∧ 2 ^ 52 ≤ m ∧ m < 2 ^ 53 ∧
      k < 2 ^ (53 + Float64.excessBits k k) ∧ 2 ^ (52 + Float64.excessBits k k) ≤ k := by
  obtain ⟨i1, i2, _⟩ := Float64.excessBits_spec k k (Float64.lt_two_pow_self k)
  have j2 := i2 hk
  generalize Float64.excessBits k k = s at *
  have hP : 0 < 2 ^ s := Nat.two_pow_pos _
  have hk' : k = k / 2 ^ s * 2 ^ s := by
    have := Nat.div_add_mod k (2 ^ s)
    rw [hv, Nat.add_zero, Nat.mul_comm] at this
    exact this.symm
  refine ⟨k / 2 ^ s, hk', ?_, ?_, i1, j2⟩
  · rw [Float64.pow_split] at j2
    rw [Nat.le_div_iff_mul_le hP]
    exact j2
  · rw [Float64.pow_split] at i1
    rw [Nat.div_lt_iff_lt_mul hP]
    exact i1

/-- Beyond the `int64` range, adding 1000 to a `float64` gives the same `float64`. -/
theorem Float64.add_thousand_far (v : Float64) (hv : v.Valid)
    (hpos : v.neg = false → 2 ^ 63 * Float64.unit ≤ v.mag)
    (hneg : v.neg = true → 2 ^ 63 * Float64.unit < v.mag) :
    v.add (Float64.ofNat 1000) = v := by
  rcases v with ⟨neg, k⟩
  simp only at hpos hneg
  obtain ⟨e, hU⟩ : ∃ e : Nat, Float64.unit = 2 ^ e := ⟨1074, by unfold Float64.unit; rfl⟩
  have h1137 : (2 : Nat) ^ (63 + e) = 2 ^ 63 * 2 ^ e := Nat.pow_add 2 63 e
  have h1085 : (2 : Nat) ^ (11 + e) = 2048 * 2 ^ e := by
    rw [Nat.pow_add 2 11 e]
  have h1086 : (2 : Nat) ^ (12 + e) = 4096 * 2 ^ e := by
    rw [Nat.pow_add 2 12 e]
  have h53 : (2 : Nat) ^ 53 ≤ 2 ^ 63 * 2 ^ e := by
    have h1 : (2 : Nat) ^ 53 ≤ 2 ^ (63 + e) := Nat.pow_le_pow_right (by decide) (by omega)
    omega
  have hge : 2 ^ 63 * Float64.unit ≤ k := by
    cases neg
    · exact hpos rfl
    · exact Nat.le_of_lt (hneg rfl)
  rw [hU] at hge hpos hneg
  obtain ⟨m, hm, hm1, hm2, hlt, hle⟩ := Float64.valid_decompose k hv.1 (by omega)
  generalize Float64.excessBits k k = s at hm hlt hle
  have hs : 11 + e ≤ s := by
    by_contra hcon
    have : 2 ^ (53 + s) ≤ 2 ^ (63 + e) := Nat.pow_le_pow_right (by decide) (by omega)
    omega
  have hs2 : (2 : Nat) ^ (11 + e) ≤ 2 ^ s := Nat.pow_le_pow_right (by decide) hs
  have hUpos : 0 < (2 : Nat) ^ e := Nat.two_pow_pos _
  unfold Float64.add Float64.toInt Float64.ofNat
  simp only [hU, Bool.false_eq_true, if_false]
  cases neg
  · simp only [Bool.false_eq_true, if_false]
    have hsum : ((k : Int) + ((1000 * 2 ^ e : Nat) : Int)) = ((k + 1000 * 2 ^ e : Nat) : Int) := by
      push_cast; rfl
    rw [hsum]
    have hne : ¬ (((k + 1000 * 2 ^ e : Nat) : Int) = 0) := by omega
    have hnl : ¬ (((k + 1000 * 2 ^ e : Nat) : Int) < 0) := by omega
    rw [if_neg hne]
    simp only [hnl, decide_False, Int.natAbs_ofNat]
    rw [hm, Float64.round_add_small m s (1000 * 2 ^ e) hm1 hm2 (by omega)]
  · simp only [if_true]
    have hlt2 := hneg rfl
    have hsum : (-(k : Int) + ((1000 * 2 ^ e : Nat) : Int)) = -((k - 1000 * 2 ^ e : Nat) : Int) := by
      omega
    rw [hsum]
    have hne : ¬ (-((k - 1000 * 2 ^ e : Nat) : Int) = 0) := by omega
    have hnl : (-((k - 1000 * 2 ^ e : Nat) : Int) < 0) := by omega
    rw [if_neg hne]
    simp only [hnl, decide_True, Int.natAbs_neg, Int.natAbs_ofNat]
    by_cases hb : m = 2 ^ 52
    · subst hb
      have hs' : 12 + e ≤ s := by
        by_contra hcon
        have hs1 : s = 11 + e := by omega
        subst hs1
        rw [hm, h1085] at hlt2
        have : (2 : Nat) ^ 52 * (2048 * 2 ^ e) = 2 ^ 63 * 2 ^ e := by
          rw [← Nat.mul_assoc]
          have h2 : (2 : Nat) ^ 52 * 2048 = 2 ^ 63 := by decide
          rw [h2]
        omega
      have hs3 : (2 : Nat) ^ (12 + e) ≤ 2 ^ s := Nat.pow_le_pow_right (by decide) hs'
      rw [hm, Float64.round_sub_small_low s (1000 * 2 ^ e) (by omega) (by omega)]
    · rw [hm, Float64.round_sub_small m s (1000 * 2 ^ e) (by omega) hm2 (by omega)]

end upload

namespace upload

/-- Rounding at most doubles a magnitude. -/
theorem Float64.round_le (n : Nat) : Float64.round n 1 ≤ 2 * n := by
  obtain ⟨_, i2, i3⟩ := Float64.excessBits_spec n n (Float64.lt_two_pow_self n)
  unfold Float64.round
  simp only [Nat.div_one, Nat.one_mul]
  generalize Float64.excessBits n n = s at i2 i3
  have hP : 0 < 2 ^ s := Nat.two_pow_pos _
  have hq : n / 2 ^ s * 2 ^ s ≤ n := Nat.div_mul_le_self _ _
  by_cases hn : n < 2 ^ 53
  · have hs : s = 0 := i3 hn
    subst hs
    simp only [Nat.pow_zero, Nat.mod_one, Nat.mul_zero, Nat.div_one, Nat.mul_one]
    rw [if_pos (by decide)]
    omega
  · have hle : 2 ^ s ≤ n := by
      have h1 := i2 (by omega)
      have h2 : 2 ^ s ≤ 2 ^ (52 + s) := Nat.pow_le_pow_right (by decide) (by omega)
      omega
    split
    · omega
    · split
      · omega
      · rw [Nat.succ_mul]
        omega

/-- Adding 1000 to a `float64` does not overflow: the sum is finite again. -/
theorem Float64.add_thousand_finite (v : Float64) (hv : v.Valid) :
    (v.add (Float64.ofNat 1000)).mag ≤ Float64.maxMag := by
  by_cases hfar : (v.neg = false → 2 ^ 63 * Float64.unit ≤ v.mag) ∧
      (v.neg = true → 2 ^ 63 * Float64.unit < v.mag)
  · rw [Float64.add_thousand_far v hv hfar.1 hfar.2]
    exact hv.2
  · have hsmall : v.mag ≤ 2 ^ 63 * Float64.unit := by
      by_contra hc
      apply hfar
      constructor
      · intro _; omega
      · intro _; omega
    obtain ⟨e, hU⟩ : ∃ e : Nat, Float64.unit = 2 ^ e ∧ e + 65 ≤ 2045 :=
      ⟨1074, by unfold Float64.unit; exact ⟨rfl, by decide⟩⟩
    obtain ⟨x, hx, hx2⟩ : ∃ x : Nat, Float64.maxMag = (2 ^ 53 - 1) * 2 ^ x ∧ x = 2045 :=
      ⟨2045, by unfold Float64.maxMag; exact ⟨rfl, rfl⟩⟩
    have hpow : 2 ^ 65 * 2 ^ e ≤ 2 ^ x := by
      rw [← Nat.pow_add]
      exact Nat.pow_le_pow_right (by decide) (by omega)
    have hmax : 2 ^ x ≤ Float64.maxMag := by
      rw [hx]
      exact Nat.le_mul_of_pos_left _ (by decide)
    have hbound : 2 * (2 ^ 63 * 2 ^ e + 1000 * 2 ^ e) ≤ 2 ^ 65 * 2 ^ e := by
      have h1 : 2 * (2 ^ 63 + 1000) ≤ 2 ^ 65 := by decide
      have h2 := Nat.mul_le_mul_right (2 ^ e) h1
      rw [Nat.mul_assoc, Nat.add_mul] at h2
      exact h2
    rw [hU.1] at hsmall
    have habs : (v.toInt + (Float64.ofNat 1000).toInt).natAbs ≤
        2 ^ 63 * 2 ^ e + 1000 * 2 ^ e := by
      unfold Float64.toInt Float64.ofNat
      dsimp only
      rw [hU.1, if_neg (show ¬ (false = true) by decide)]
      split <;> omega
    unfold Float64.add
    dsimp only
    generalize v.toInt + (Float64.ofNat 1000).toInt = S at habs
    split
    · exact Nat.zero_le _
    · have := Float64.round_le S.natAbs
      dsimp only
      omega

end upload

namespace upload

theorem Float64.unit_pos : 0 < Float64.unit := Nat.two_pow_pos 1074

/-- C2 on one value: a `float64` with zero fractional part and even integral part is stored
with 1000 added, whatever the runtime does outside the `int64` range. -/
theorem mutatedValue_even_integer (rt : Runtime) (v : Float64) (hv : v.Valid)
    (hfrac : v.mag % Float64.unit = 0) (heven : v.mag / Float64.unit % 2 = 0) :
    mutatedValue rt (.number v) = .number (v.add (Float64.ofNat 1000)) := by
  have hU := Float64.unit_pos
  simp only [mutatedValue]
  split
  · rfl
  · rename_i hb
    -- the test failed: this can only be the conversion outside the int64 range
    have hpos : (Modf v).2.isPositive = false := by
      show (!v.neg && decide (0 < v.mag % Float64.unit)) = false
      rw [hfrac]
      cases v.neg <;> rfl
    have hmul : v.mag / Float64.unit * Float64.unit ≤ v.mag := Nat.div_mul_le_self _ _
    have htr : (Modf v).1.trunc =
        if v.neg then -((v.mag / Float64.unit : Nat) : Int) else ((v.mag / Float64.unit : Nat) : Int) := by
      unfold Float64.trunc Modf
      dsimp only
      rw [Nat.mul_div_cancel _ hU]
    generalize v.mag / Float64.unit = K at heven hmul htr
    have hdvd : (2 : Int) ∣ (Modf v).1.trunc := by
      rw [htr]
      split <;> omega
    by_cases hr : -2 ^ 63 ≤ (Modf v).1.trunc ∧ (Modf v).1.trunc < 2 ^ 63
    · exfalso
      apply hb
      simp only [bumpTest, toInt64, hr, and_self, if_true, hpos, Bool.not_false, Bool.and_true,
        decide_eq_true_eq]
      exact Int.tmod_eq_zero_of_dvd hdvd
    · rw [Float64.add_thousand_far v hv]
      · intro hn
        rw [htr, hn] at hr
        simp only [Bool.false_eq_true, if_false] at hr
        have h1 : 2 ^ 63 ≤ K := by omega
        calc 2 ^ 63 * Float64.unit ≤ K * Float64.unit := Nat.mul_le_mul_right _ h1
          _ ≤ v.mag := hmul
      · intro hn
        rw [htr, hn] at hr
        simp only [if_true] at hr
        have h1 : 2 ^ 63 + 1 ≤ K := by omega
        have h2 : (2 ^ 63 + 1) * Float64.unit ≤ K * Float64.unit :=
          Nat.mul_le_mul_right _ h1
        rw [Nat.add_mul, Nat.one_mul] at h2
        omega

theorem rangeOrder_keys_nodup (rt : Runtime) (m : GoMap) (h : m.keys.Nodup) :
    (GoMap.keys (rt.rangeOrder m)).Nodup :=
  ((rt.rangeOrder_perm m).map Prod.fst).nodup_iff.mpr h

theorem rangeOrder_mem_keys (rt : Runtime) (m : GoMap) (x : String) :
    x ∈ GoMap.keys (rt.rangeOrder m) ↔ x ∈ m.keys :=
  ((rt.rangeOrder_perm m).map Prod.fst).mem_iff

/-- What `PerformJsonMutation` does once the input is read and decoded into a map with
non-empty keys: it runs the loop, which returns, and writes the serialised result. -/
theorem PerformJsonMutation_decoded {ω : Type} (rt : Runtime) (W : Writer ω) (src : Source)
    (out : ω) (contents : List Byte) (inData : GoMap)
    (hread : ReadAll src = (contents, none)) (hparse : Unmarshal contents [] = .ok inData)
    (hkeys : ∀ key ∈ inData.keys, key ≠ "") :
    ∃ outData, mutateAll rt (rt.rangeOrder inData) [] = .ok outData ∧
      PerformJsonMutation rt W src out = .ok (writeModified W out (Marshal outData)) ∧
      (∀ key, key ∈ outData.keys ↔ key ∈ inData.keys ∧ VowelInitial key = false) ∧
      (∀ key val, inData.get key = some val → VowelInitial key = false →
        outData.get key = some (mutatedValue rt val)) := by
  have hne : ∀ kv ∈ rt.rangeOrder inData, kv.1 ≠ "" := by
    intro kv hkv
    apply hkeys
    rw [← rangeOrder_mem_keys rt inData]
    exact List.mem_map_of_mem Prod.fst hkv
  have hnd := Unmarshal_nodup contents inData hparse
  obtain ⟨outData, ho, hk⟩ := mutateAll_keys rt (rt.rangeOrder inData) [] hne
  refine ⟨outData, ho, ?_, ?_, ?_⟩
  · simp only [PerformJsonMutation, hread, hparse, ho]
  · intro key
    rw [hk key, rangeOrder_mem_keys]
    simp [GoMap.keys]
  · intro key val hget hv
    have hmem : (key, val) ∈ rt.rangeOrder inData :=
      (rt.rangeOrder_perm inData).mem_iff.mpr ((GoMap.mem_iff_get inData hnd key val).mpr hget)
    exact mutateAll_get rt _ [] outData key val hne (rangeOrder_keys_nodup rt inData hnd) ho
      hmem hv

end upload

namespace upload

/-- A valid magnitude rounds to itself. -/
theorem Float64.round_of_valid (k : Nat) (hv : k % 2 ^ Float64.excessBits k k = 0) :
    Float64.round k 1 = k := by
  unfold Float64.round
  simp only [Nat.div_one, Nat.one_mul, hv]
  have hP : 0 < 2 ^ Float64.excessBits k k := Nat.two_pow_pos _
  rw [if_pos (by omega)]
  have := Nat.div_add_mod k (2 ^ Float64.excessBits k k)
  rw [hv, Nat.add_zero, Nat.mul_comm] at this
  exact this

/-- When the exact sum of two `float64` values is a `float64`, `add` returns it. -/
theorem Float64.add_exact (a b : Float64)
    (hv : (a.toInt + b.toInt).natAbs % 2 ^ Float64.excessBits (a.toInt + b.toInt).natAbs
      (a.toInt + b.toInt).natAbs = 0) :
    (a.add b).toInt = a.toInt + b.toInt := by
  unfold Float64.add
  dsimp only
  generalize a.toInt + b.toInt = S at hv
  split
  · rename_i h
    rw [h]
    unfold Float64.toInt
    split <;> rfl
  · rw [Float64.round_of_valid _ hv]
    unfold Float64.toInt
    dsimp only
    by_cases hlt : S < 0
    · rw [if_pos (decide_eq_true hlt)]
      omega
    · rw [if_neg (by rw [decide_eq_true_eq]; exact hlt)]
      omega

/-- C1: for every input that is read and decoded into a map `inData` with non-empty keys,
`PerformJsonMutation` runs its loop to the end and writes the serialisation of a map `outData`
whose keys are exactly the keys of `inData` whose first character, lowercased, is not one of
a, e, i, o, u: a vowel-initial key is absent whatever its value, every other key is present. -/
theorem C1_output_keys {ω : Type} (rt : Runtime) (W : Writer ω) (src : Source) (out : ω)
    (contents : List Byte) (inData : GoMap)
    (hread : ReadAll src = (contents, none)) (hparse : Unmarshal contents [] = .ok inData)
    (hkeys : ∀ key ∈ inData.keys, key ≠ "") :
    ∃ outData, mutateAll rt (rt.rangeOrder inData) [] = .ok outData ∧
      PerformJsonMutation rt W src out = .ok (writeModified W out (Marshal outData)) ∧
      ∀ key, key ∈ outData.keys ↔ key ∈ inData.keys ∧ VowelInitial key = false := by
  obtain ⟨outData, h1, h2, h3, _⟩ :=
    PerformJsonMutation_decoded rt W src out contents inData hread hparse hkeys
  exact ⟨outData, h1, h2, h3⟩

/-- C2: for every input that is read and decoded into a map `inData` with non-empty keys, and
every key that is not vowel-initial whose value is a `float64` with zero fractional part and
even integral part, the map `PerformJsonMutation` serialises and writes holds under that key
the Go sum `value + 1000`; that sum is the exact sum whenever the exact sum is a `float64`. -/
theorem C2_even_integer_bumped {ω : Type} (rt : Runtime) (W : Writer ω) (src : Source) (out : ω)
    (contents : List Byte) (inData : GoMap) (key : String) (v : Float64)
    (hread : ReadAll src = (contents, none)) (hparse : Unmarshal contents [] = .ok inData)
    (hkeys : ∀ key ∈ inData.keys, key ≠ "")
    (hget : inData.get key = some (.number v)) (hkey : VowelInitial key = false)
    (hv : v.Valid) (hfrac : v.mag % Float64.unit = 0) (heven : v.mag / Float64.unit % 2 = 0) :
    ∃ outData, mutateAll rt (rt.rangeOrder inData) [] = .ok outData ∧
      PerformJsonMutation rt W src out = .ok (writeModified W out (Marshal outData)) ∧
      outData.get key = some (.number (v.add (Float64.ofNat 1000))) ∧
      ((v.toInt + 1000 * Float64.unit).natAbs %
          2 ^ Float64.excessBits (v.toInt + 1000 * Float64.unit).natAbs
            (v.toInt + 1000 * Float64.unit).natAbs = 0 →
        (v.add (Float64.ofNat 1000)).toInt = v.toInt + 1000 * Float64.unit) := by
  obtain ⟨outData, h1, h2, _, h4⟩ :=
    PerformJsonMutation_decoded rt W src out contents inData hread hparse hkeys
  refine ⟨outData, h1, h2, ?_, ?_⟩
  · rw [h4 key _ hget hkey, mutatedValue_even_integer rt v hv hfrac heven]
  · intro hex
    have ht : (Float64.ofNat 1000).toInt = 1000 * Float64.unit := by
      unfold Float64.toInt Float64.ofNat
      dsimp only
      rw [if_neg (by decide)]
      push_cast
      rfl
    rw [← ht] at hex ⊢
    exact Float64.add_exact v (Float64.ofNat 1000) hex

/-- The kind of value the scanner makes of a text, by the first character of the text behind
its leading white space. -/
theorem scanDocument_first (cs : List Char) (v : Value) (saved : Option Error) (c : Char)
    (rest : List Char) (hscan : scanDocument cs = .ok (v, saved))
    (hfirst : skipSpace cs = c :: rest) :
    (c = '[' → ∃ es, v = .array es) ∧ (c = '"' → ∃ s, v = .string s) ∧
    (c = 't' ∨ c = 'f' → ∃ b, v = .bool b) ∧
    (c = '-' ∨ (digitVal c).isSome = true →
      (∃ f, v = .number f) ∨ (v = .null ∧ saved.isSome = true)) := by
  unfold scanDocument at hscan
  cases hv : scanValue (2 * cs.length + 1) 0 none cs with
  | error e => rw [hv] at hscan; cases hscan
  | ok r =>
    rcases r with ⟨v1, saved1, r1⟩
    rw [hv] at hscan
    simp only at hscan
    have hvs : v1 = v ∧ saved1 = saved := by
      split at hscan
      · simp only [Except.ok.injEq, Prod.mk.injEq] at hscan
        exact hscan
      · cases hscan
    obtain ⟨h1, h2⟩ := hvs
    subst h1 h2
    rw [scanValue] at hv
    simp only [hfirst] at hv
    refine ⟨?_, ?_, ?_, ?_⟩
    · intro hc
      subst hc
      simp only [show ¬ ('[' = '\x7b') by decide, if_false, if_true] at hv
      split at hv
      · cases hv
      · split at hv
        · cases hv
        · simp only [Except.ok.injEq, Prod.mk.injEq] at hv
          exact ⟨_, hv.1.symm⟩
        · split at hv
          · cases hv
          · simp only [Except.ok.injEq, Prod.mk.injEq] at hv
            exact ⟨_, hv.1.symm⟩
    · intro hc
      subst hc
      simp only [show ¬ ('"' = '\x7b') by decide, show ¬ ('"' = '[') by decide, if_false,
        if_true] at hv
      split at hv
      · cases hv
      · simp only [Except.ok.injEq, Prod.mk.injEq] at hv
        exact ⟨_, hv.1.symm⟩
    · intro hc
      rcases hc with hc | hc
      · subst hc
        simp only [show ¬ ('t' = '\x7b') by decide, show ¬ ('t' = '[') by decide,
          show ¬ ('t' = '"') by decide, if_false, if_true] at hv
        split at hv
        · cases hv
        · simp only [Except.ok.injEq, Prod.mk.injEq] at hv
          exact ⟨_, hv.1.symm⟩
      · subst hc
        simp only [show ¬ ('f' = '\x7b') by decide, show ¬ ('f' = '[') by decide,
          show ¬ ('f' = '"') by decide, show ¬ ('f' = 't') by decide, if_false, if_true] at hv
        split at hv
        · cases hv
        · simp only [Except.ok.injEq, Prod.mk.injEq] at hv
          exact ⟨_, hv.1.symm⟩
    · intro hc
      have hne : c ≠ '\x7b' ∧ c ≠ '[' ∧ c ≠ '"' ∧ c ≠ 't' ∧ c ≠ 'f' ∧ c ≠ 'n' := by
        rcases hc with hc | hc
        · subst hc
          decide
        · refine ⟨?_, ?_, ?_, ?_, ?_, ?_⟩ <;>
          · intro h
            subst h
            revert hc
            decide
      simp only [hne.1, hne.2.1, hne.2.2.1, hne.2.2.2.1, hne.2.2.2.2.1, hne.2.2.2.2.2, if_false,
        hc, if_true] at hv
      split at hv
      · cases hv
      · split at hv
        · simp only [Except.ok.injEq, Prod.mk.injEq] at hv
          exact Or.inl ⟨_, hv.1.symm⟩
        · simp only [Except.ok.injEq, Prod.mk.injEq] at hv
          exact Or.inr ⟨hv.1.symm, by rw [← hv.2.1]; rfl⟩

/-- C9, as the code has it: when the content is a JSON text whose top-level value is an array,
a string, a boolean or a number (its first character is `[`, a double quote, `t` or `f`, a
minus sign or a digit), `PerformJsonMutation` returns the `UnmarshalTypeError` of
`json.Unmarshal` for that kind of value, wrapped, and leaves `out` as it was. The number may
be one that `float64` cannot hold. -/
theorem C9_non_object_rejected {ω : Type} (rt : Runtime) (W : Writer ω) (src : Source) (out : ω)
    (contents : List Byte) (v : Value) (saved : Option Error) (c : Char) (rest : List Char)
    (hread : ReadAll src = (contents, none))
    (hvalid : scanDocument (contents.map byteChar) = .ok (v, saved))
    (hfirst : skipSpace (contents.map byteChar) = c :: rest)
    (hkind : c = '[' ∨ c = '"' ∨ c = 't' ∨ c = 'f' ∨ c = '-' ∨ (digitVal c).isSome = true) :
    PerformJsonMutation rt W src out =
      .ok (some (Error.Wrap "unmarshalling file contents"
        (unmarshalTypeError (kindName c) "map[string]interface \x7b\x7d")), out) := by
  obtain ⟨h1, h2, h3, h4⟩ := scanDocument_first _ v saved c rest hvalid hfirst
  rcases hkind with hc | hc | hc | hc | hc
  · obtain ⟨es, hv⟩ := h1 hc
    subst hv hc
    simp only [PerformJsonMutation, hread, Unmarshal, hvalid]
    rfl
  · obtain ⟨s, hv⟩ := h2 hc
    subst hv hc
    simp only [PerformJsonMutation, hread, Unmarshal, hvalid]
    rfl
  · obtain ⟨b, hv⟩ := h3 (Or.inl hc)
    subst hv hc
    simp only [PerformJsonMutation, hread, Unmarshal, hvalid]
    rfl
  · obtain ⟨b, hv⟩ := h3 (Or.inr hc)
    subst hv hc
    simp only [PerformJsonMutation, hread, Unmarshal, hvalid]
    rfl
  · have hname : kindName c = "number" := by
      unfold kindName
      have hne : c ≠ '[' ∧ c ≠ '"' ∧ c ≠ 't' ∧ c ≠ 'f' := by
        rcases hc with hc | hc
        · subst hc
          decide
        · refine ⟨?_, ?_, ?_, ?_⟩ <;>
          · intro h
            subst h
            revert hc
            decide
      simp [hne.1, hne.2.1, hne.2.2.1, hne.2.2.2]
    rw [hname]
    rcases h4 hc with ⟨f, hv⟩ | ⟨hv, hs⟩
    · subst hv
      simp only [PerformJsonMutation, hread, Unmarshal, hvalid]
    · subst hv
      obtain ⟨e, he⟩ := Option.isSome_iff_exists.mp hs
      subst he
      simp only [PerformJsonMutation, hread, Unmarshal, hvalid]

/-- C10: when reading the input fails with `e`, or the input is read and `json.Unmarshal`
fails with `e`, `PerformJsonMutation` returns `e` wrapped ("reading contents of file: ..." or
"unmarshalling file contents: ...") and `out` is in the state it was in: nothing is written. -/
theorem C10_read_or_parse_failure {ω : Type} (rt : Runtime) (W : Writer ω) (src : Source)
    (out : ω) (e : Error)
    (h : (ReadAll src).2 = some e ∨
      ((ReadAll src).2 = none ∧ Unmarshal (ReadAll src).1 [] = .error e)) :
    PerformJsonMutation rt W src out =
      .ok (some (Error.Wrap (if (ReadAll src).2 = none then "unmarshalling file contents"
        else "reading contents of file") e), out) := by
  rcases hr : ReadAll src with ⟨contents, rerr⟩
  rw [hr] at h
  rcases h with h | ⟨h1, h2⟩
  · simp only at h
    subst h
    simp [PerformJsonMutation, hr]
  · simp only at h1 h2
    subst h1
    simp [PerformJsonMutation, hr, h2]

end upload

namespace upload

set_option maxRecDepth 1000000 in
theorem scenario_decodes : Unmarshal scenarioInput [] = .ok scenarioData := by rfl

set_option maxRecDepth 1000000 in
/-- Witness of C1: the first scenario of the specification. -/
theorem C1_output_keys_witness :
    ReadAll ⟨scenarioInput, Error.EOF⟩ = (scenarioInput, none) ∧
    Unmarshal scenarioInput [] = .ok scenarioData ∧
    (∀ key ∈ scenarioData.keys, key ≠ "") ∧
    ∃ outData, mutateAll Runtime.amd64 (Runtime.amd64.rangeOrder scenarioData) [] = .ok outData ∧
      PerformJsonMutation Runtime.amd64 bufferWriter ⟨scenarioInput, Error.EOF⟩ [] =
        .ok (writeModified bufferWriter [] (Marshal outData)) ∧
      ∀ key, key ∈ outData.keys ↔ key ∈ scenarioData.keys ∧ VowelInitial key = false :=
  ⟨rfl, scenario_decodes, by decide,
    C1_output_keys Runtime.amd64 bufferWriter ⟨scenarioInput, Error.EOF⟩ [] scenarioInput
      scenarioData rfl scenario_decodes (by decide)⟩

set_option maxRecDepth 1000000 in
/-- Witness of C2: the key `b_property_even` of the first scenario, with the value 2000. -/
theorem C2_even_integer_bumped_witness :
    ReadAll ⟨scenarioInput, Error.EOF⟩ = (scenarioInput, none) ∧
    Unmarshal scenarioInput [] = .ok scenarioData ∧
    (∀ key ∈ scenarioData.keys, key ≠ "") ∧
    scenarioData.get "b_property_even" = some (.number (Float64.ofNat 2000)) ∧
    VowelInitial "b_property_even" = false ∧
    (Float64.ofNat 2000).Valid ∧ (Float64.ofNat 2000).mag % Float64.unit = 0 ∧
    (Float64.ofNat 2000).mag / Float64.unit % 2 = 0 ∧
    ∃ outData, mutateAll Runtime.amd64 (Runtime.amd64.rangeOrder scenarioData) [] = .ok outData ∧
      PerformJsonMutation Runtime.amd64 bufferWriter ⟨scenarioInput, Error.EOF⟩ [] =
        .ok (writeModified bufferWriter [] (Marshal outData)) ∧
      outData.get "b_property_even" =
        some (.number ((Float64.ofNat 2000).add (Float64.ofNat 1000))) ∧
      (((Float64.ofNat 2000).toInt + 1000 * Float64.unit).natAbs %
          2 ^ Float64.excessBits ((Float64.ofNat 2000).toInt + 1000 * Float64.unit).natAbs
            ((Float64.ofNat 2000).toInt + 1000 * Float64.unit).natAbs = 0 →
        ((Float64.ofNat 2000).add (Float64.ofNat 1000)).toInt =
          (Float64.ofNat 2000).toInt + 1000 * Float64.unit) :=
  ⟨rfl, scenario_decodes, by decide, rfl, by decide, by decide, by decide, by decide,
    C2_even_integer_bumped Runtime.amd64 bufferWriter ⟨scenarioInput, Error.EOF⟩ []
      scenarioInput scenarioData "b_property_even" (Float64.ofNat 2000) rfl scenario_decodes
      (by decide) rfl (by decide) (by decide) (by decide) (by decide)⟩

set_option maxRecDepth 1000000 in
/-- C3, the code at the failing input: for the object with the one member `"b": -2.5`, a key
that survives and a value with a nonzero fractional part, the output holds 997.5. -/
theorem C3_negative_fraction_is_bumped :
    PerformJsonMutation Runtime.amd64 bufferWriter
        ⟨stringBytes "\x7b\"b\": -2.5\x7d", Error.EOF⟩ [] =
      .ok (none, stringBytes "\x7b\"b\":997.5\x7d") := by rfl

set_option maxRecDepth 1000000 in
/-- C9 as stated fails: on the content `null`, valid JSON whose top-level value is not an
object, `PerformJsonMutation` returns no error and writes the empty object. -/
theorem C9_null_counterexample :
    PerformJsonMutation Runtime.amd64 bufferWriter ⟨stringBytes "null", Error.EOF⟩ [] =
      .ok (none, stringBytes "\x7b\x7d") := by rfl

set_option maxRecDepth 1000000 in
/-- Witness of C9: the content `12`, a number. -/
theorem C9_non_object_rejected_witness :
    ReadAll ⟨stringBytes "12", Error.EOF⟩ = (stringBytes "12", none) ∧
    scanDocument ((stringBytes "12").map byteChar) = .ok (.number (Float64.ofNat 12), none) ∧
    skipSpace ((stringBytes "12").map byteChar) = '1' :: ['2'] ∧
    ('1' = '[' ∨ '1' = '"' ∨ '1' = 't' ∨ '1' = 'f' ∨ '1' = '-' ∨ (digitVal '1').isSome = true) ∧
    PerformJsonMutation Runtime.amd64 bufferWriter ⟨stringBytes "12", Error.EOF⟩ [1, 2] =
      .ok (some (Error.Wrap "unmarshalling file contents"
        (unmarshalTypeError (kindName '1') "map[string]interface \x7b\x7d")), [1, 2]) :=
  ⟨rfl, rfl, rfl, by decide,
    C9_non_object_rejected Runtime.amd64 bufferWriter ⟨stringBytes "12", Error.EOF⟩ [1, 2]
      (stringBytes "12") (.number (Float64.ofNat 12)) none '1' ['2'] rfl rfl rfl (by decide)⟩

set_option maxRecDepth 1000000 in
/-- Witness of C10: the content `gibberish invalid json` of the test "invalid json". -/
theorem C10_read_or_parse_failure_witness :
    ((ReadAll ⟨stringBytes "gibberish invalid json", Error.EOF⟩).2 =
        some (Error.New "invalid character 'g' looking for beginning of value") ∨
      ((ReadAll ⟨stringBytes "gibberish invalid json", Error.EOF⟩).2 = none ∧
        Unmarshal (ReadAll ⟨stringBytes "gibberish invalid json", Error.EOF⟩).1 [] =
          .error (Error.New "invalid character 'g' looking for beginning of value"))) ∧
    PerformJsonMutation Runtime.amd64 bufferWriter
        ⟨stringBytes "gibberish invalid json", Error.EOF⟩ [1, 2] =
      .ok (some (Error.Wrap
        (if (ReadAll ⟨stringBytes "gibberish invalid json", Error.EOF⟩).2 = none then
          "unmarshalling file contents" else "reading contents of file")
        (Error.New "invalid character 'g' looking for beginning of value")), [1, 2]) :=
  ⟨Or.inr ⟨rfl, rfl⟩,
    C10_read_or_parse_failure Runtime.amd64 bufferWriter
      ⟨stringBytes "gibberish invalid json", Error.EOF⟩ [1, 2]
      (Error.New "invalid character 'g' looking for beginning of value") (Or.inr ⟨rfl, rfl⟩)⟩

end upload

namespace upload

/-- The loop stores every value that is not a number as it is. -/
theorem mutatedValue_non_number (rt : Runtime) (val : Value) (h : ∀ f, val ≠ .number f) :
    mutatedValue rt val = val := by
  cases val with
  | number f => exact absurd rfl (h f)
  | null => rfl
  | bool b => rfl
  | string s => rfl
  | array es => rfl
  | object ms => rfl

/-- The loop panics as soon as one of the keys it visits is empty. -/
theorem mutateAll_empty_key (rt : Runtime) (l : List (String × Value)) :
    ∀ acc : GoMap, (∃ kv ∈ l, kv.1 = "") →
      mutateAll rt l acc = .error (Panic.indexOutOfRange 0 0) := by
  induction l with
  | nil => intro acc h; obtain ⟨kv, hkv, _⟩ := h; cases hkv
  | cons kv rest ih =>
    intro acc h
    rcases kv with ⟨k, v⟩
    by_cases hk : k = ""
    · subst hk
      simp only [mutateAll, mutateEntry, startsWithVowel_nil "" rfl]
    · simp only [mutateAll, mutateEntry_eq rt acc k v hk]
      apply ih
      obtain ⟨kv, hkv, he⟩ := h
      rcases List.mem_cons.mp hkv with h1 | h1
      · subst h1
        exact absurd he hk
      · exact ⟨kv, h1, he⟩

/-- C11: for every input that is read and decoded into a map `inData` with non-empty keys, and
every key that is not vowel-initial whose value is not a number (a string, a boolean, null, an
array or an object, whatever it holds inside), the map `PerformJsonMutation` serialises and
writes holds the identical value under that key. -/
theorem C11_non_numbers_copied {ω : Type} (rt : Runtime) (W : Writer ω) (src : Source) (out : ω)
    (contents : List Byte) (inData : GoMap) (key : String) (val : Value)
    (hread : ReadAll src = (contents, none)) (hparse : Unmarshal contents [] = .ok inData)
    (hkeys : ∀ key ∈ inData.keys, key ≠ "")
    (hget : inData.get key = some val) (hkey : VowelInitial key = false)
    (hval : ∀ f, val ≠ .number f) :
    ∃ outData, mutateAll rt (rt.rangeOrder inData) [] = .ok outData ∧
      PerformJsonMutation rt W src out = .ok (writeModified W out (Marshal outData)) ∧
      outData.get key = some val := by
  obtain ⟨outData, h1, h2, _, h4⟩ :=
    PerformJsonMutation_decoded rt W src out contents inData hread hparse hkeys
  refine ⟨outData, h1, h2, ?_⟩
  rw [h4 key val hget hkey, mutatedValue_non_number rt val hval]

set_option maxRecDepth 1000000 in
theorem nested_decodes : Unmarshal nestedInput [] = .ok nestedData := by rfl

set_option maxRecDepth 1000000 in
/-- Witness of C11: the key `b`, whose value is an object holding the vowel-initial key `a`
with the even integer 2 and an array with the even integer 4. -/
theorem C11_non_numbers_copied_witness :
    ReadAll ⟨nestedInput, Error.EOF⟩ = (nestedInput, none) ∧
    Unmarshal nestedInput [] = .ok nestedData ∧
    (∀ key ∈ nestedData.keys, key ≠ "") ∧
    nestedData.get "b" = some (.object [("a", .number (Float64.ofNat 2)),
      ("c", .array [.number (Float64.ofNat 4), .string "x"])]) ∧
    VowelInitial "b" = false ∧
    (∀ f, Value.object [("a", .number (Float64.ofNat 2)),
      ("c", .array [.number (Float64.ofNat 4), .string "x"])] ≠ .number f) ∧
    ∃ outData, mutateAll Runtime.amd64 (Runtime.amd64.rangeOrder nestedData) [] = .ok outData ∧
      PerformJsonMutation Runtime.amd64 bufferWriter ⟨nestedInput, Error.EOF⟩ [] =
        .ok (writeModified bufferWriter [] (Marshal outData)) ∧
      outData.get "b" = some (.object [("a", .number (Float64.ofNat 2)),
        ("c", .array [.number (Float64.ofNat 4), .string "x"])]) :=
  ⟨rfl, nested_decodes, by decide, rfl, by decide, fun _ h => Value.noConfusion h,
    C11_non_numbers_copied Runtime.amd64 bufferWriter ⟨nestedInput, Error.EOF⟩ [] nestedInput
      nestedData "b" _ rfl nested_decodes (by decide) rfl (by decide)
      (fun _ h => Value.noConfusion h)⟩

/-- C15: `startsWithVowel` returns a boolean for every non-empty key and panics on the empty
key, indexing an empty string at 0. So, for an input that is read and decoded into a map
`inData`: when `inData` holds the key `""`, `PerformJsonMutation` panics instead of returning;
when all keys are non-empty, it returns. -/
theorem C15_empty_key_panics {ω : Type} (rt : Runtime) (W : Writer ω) (src : Source) (out : ω)
    (contents : List Byte) (inData : GoMap)
    (hread : ReadAll src = (contents, none)) (hparse : Unmarshal contents [] = .ok inData) :
    (∀ key, key ≠ "" → ∃ b, startsWithVowel key = .ok b) ∧
    startsWithVowel "" = .error (Panic.indexOutOfRange 0 0) ∧
    ("" ∈ inData.keys →
      PerformJsonMutation rt W src out = .error (Panic.indexOutOfRange 0 0)) ∧
    ((∀ key ∈ inData.keys, key ≠ "") → ∃ r, PerformJsonMutation rt W src out = .ok r) := by
  refine ⟨fun key h => ⟨_, startsWithVowel_of_ne_empty key h⟩, startsWithVowel_nil "" rfl, ?_, ?_⟩
  · intro hmem
    have hex : ∃ kv ∈ rt.rangeOrder inData, kv.1 = "" := by
      rw [← rangeOrder_mem_keys rt inData] at hmem
      obtain ⟨kv, hkv, he⟩ := List.mem_map.mp hmem
      exact ⟨kv, hkv, he⟩
    simp only [PerformJsonMutation, hread, hparse, mutateAll_empty_key rt _ [] hex]
  · intro hkeys
    obtain ⟨outData, _, h2, _⟩ :=
      PerformJsonMutation_decoded rt W src out contents inData hread hparse hkeys
    exact ⟨_, h2⟩

set_option maxRecDepth 1000000 in
/-- Witness of C15: the object with the one member `"": 1`. -/
theorem C15_empty_key_panics_witness :
    ReadAll ⟨stringBytes "\x7b\"\":1\x7d", Error.EOF⟩ = (stringBytes "\x7b\"\":1\x7d", none) ∧
    Unmarshal (stringBytes "\x7b\"\":1\x7d") [] = .ok [("", .number (Float64.ofNat 1))] ∧
    "" ∈ GoMap.keys [("", .number (Float64.ofNat 1))] ∧
    PerformJsonMutation Runtime.amd64 bufferWriter ⟨stringBytes "\x7b\"\":1\x7d", Error.EOF⟩ [] =
      .error (Panic.indexOutOfRange 0 0) :=
  ⟨rfl, rfl, by decide,
    (C15_empty_key_panics Runtime.amd64 bufferWriter ⟨stringBytes "\x7b\"\":1\x7d", Error.EOF⟩ []
      (stringBytes "\x7b\"\":1\x7d") [("", .number (Float64.ofNat 1))] rfl rfl).2.2.1
      (by decide)⟩

end upload

namespace api

open upload

/-- What one run of `FileByChunks` on a chunk adds to the trace are Write events. -/
theorem FileByChunks_fileWriter_writes {σ : Type} (F : File σ) (fuel : Nat) :
    ∀ (s : List Byte) (f : σ) (tr : List Event) (r : Option Error × List Byte × σ × List Event),
      FileByChunks bytesBuffer (fileWriter F) fuel s (f, tr) = some r →
      ∃ ws, r.2.2.2 = tr ++ ws ∧ ∀ e ∈ ws, e.isWrite = true := by
  induction fuel with
  | zero => intro s f tr r h; simp [FileByChunks] at h
  | succ fuel ih =>
    intro s f tr r h
    by_cases hs : s = []
    · subst hs
      rw [FileByChunks_buffer_nil] at h
      cases h
      exact ⟨[], by simp, by simp⟩
    · rw [FileByChunks_buffer_step _ fuel s (f, tr) hs] at h
      rcases hw : F.Write f (s.take pageSize) with ⟨⟨n, werr⟩, f1⟩
      have hfw : (fileWriter F).Write (f, tr) (s.take pageSize) =
          ((n, werr), (f1, tr ++ [Event.write (s.take pageSize) n werr])) := by
        simp [fileWriter, hw]
      rw [hfw] at h
      cases werr with
      | some e =>
        simp only [Option.some.injEq] at h
        subst h
        exact ⟨[Event.write (s.take pageSize) n (some e)], rfl, by simp [Event.isWrite]⟩
      | none =>
        simp only at h
        split at h
        · simp only [Option.some.injEq] at h
          subst h
          exact ⟨[Event.write (s.take pageSize) n none], rfl, by simp [Event.isWrite]⟩
        · obtain ⟨ws, h1, h2⟩ := ih _ _ _ _ h
          refine ⟨Event.write (s.take pageSize) n none :: ws, ?_, ?_⟩
          · rw [h1]; simp
          · intro e he
            rcases List.mem_cons.mp he with h3 | h3
            · subst h3; rfl
            · exact h2 e h3

theorem isClose_of_isWrite (e : Event) (h : e.isWrite = true) : e.isClose = false := by
  cases e <;> simp_all [Event.isWrite, Event.isClose]

theorem noClose_snoc (mid : List Event) (e : Event) (hmid : ∀ x ∈ mid, x.isClose = false)
    (he : e.isClose = false) : ∀ x ∈ mid ++ [e], x.isClose = false := by
  intro x hx
  rcases List.mem_append.mp hx with h | h
  · exact hmid x h
  · rw [List.mem_singleton.mp h]; exact he

/-- The statement `return stream.SendAndClose(resp)` ends the trace with the Close of the
file, which is the file of the outcome. -/
theorem sendAndClose_closes {σ : Type} (F : File σ) (resp : FileChunkResponse) (f : σ)
    (stream : Stream) (mid : List Event) (hmid : ∀ e ∈ mid, e.isClose = false) :
    ∃ pre f1, (sendAndClose F resp f stream mid).trace = pre ++ [Event.close] ∧
      (∀ e ∈ pre, e.isClose = false) ∧ (sendAndClose F resp f stream mid).file = some (F.Close f1) :=
  ⟨mid ++ [Event.send resp], f, by simp [sendAndClose], noClose_snoc mid _ hmid rfl, rfl⟩

theorem afterLoop_closes {σ : Type} (F : File σ) (g : GRPCServer σ) (f : σ) (stream : Stream)
    (mid : List Event) (hmid : ∀ e ∈ mid, e.isClose = false) :
    ∃ pre f1, (afterLoop F g f stream mid).trace = pre ++ [Event.close] ∧
      (∀ e ∈ pre, e.isClose = false) ∧ (afterLoop F g f stream mid).file = some (F.Close f1) := by
  have hmut : ∀ (f1 : σ) (mid1 : List Event), (∀ e ∈ mid1, e.isClose = false) →
      ∃ pre f2,
        (match g.uploadedFileMutator f1 with
          | .error (p, f2) => panicAndClose F p f2 stream mid1
          | .ok (some e, f2) =>
            sendAndClose F ⟨"could not mutate json content", .error⟩ f2 stream
              (mid1 ++ [Event.mutate (some e)])
          | .ok (none, f2) =>
            sendAndClose F ⟨"upload completed", .ok⟩ f2 stream
              (mid1 ++ [Event.mutate none])).trace = pre ++ [Event.close] ∧
        (∀ e ∈ pre, e.isClose = false) ∧
        (match g.uploadedFileMutator f1 with
          | .error (p, f2) => panicAndClose F p f2 stream mid1
          | .ok (some e, f2) =>
            sendAndClose F ⟨"could not mutate json content", .error⟩ f2 stream
              (mid1 ++ [Event.mutate (some e)])
          | .ok (none, f2) =>
            sendAndClose F ⟨"upload completed", .ok⟩ f2 stream
              (mid1 ++ [Event.mutate none])).file = some (F.Close f2) := by
    intro f1 mid1 hmid1
    cases hm : g.uploadedFileMutator f1 with
    | error pf =>
      rcases pf with ⟨p, f2⟩
      exact ⟨mid1 ++ [Event.mutatePanic p], f2, by simp [panicAndClose],
        noClose_snoc mid1 _ hmid1 rfl, rfl⟩
    | ok r =>
      rcases r with ⟨merr, f2⟩
      cases merr with
      | none => exact sendAndClose_closes F _ f2 stream _ (noClose_snoc mid1 _ hmid1 rfl)
      | some e => exact sendAndClose_closes F _ f2 stream _ (noClose_snoc mid1 _ hmid1 rfl)
  unfold afterLoop
  cases hseek : F.Seek with
  | none =>
    simp only
    exact hmut f mid hmid
  | some seek =>
    simp only
    rcases hs : seek f with ⟨serr, f1⟩
    cases serr with
    | some e =>
      exact sendAndClose_closes F _ f1 stream _ (noClose_snoc mid (Event.seek (some e)) hmid rfl)
    | none =>
      simp only
      exact hmut f1 _ (noClose_snoc mid (Event.seek none) hmid rfl)

theorem uploadLoop_closes {σ : Type} (F : File σ) (g : GRPCServer σ) (sendErr : Option Error) :
    ∀ (incoming : List Received) (f : σ) (mid : List Event), (∀ e ∈ mid, e.isClose = false) →
      ∃ out pre f1, uploadLoop F g sendErr incoming f mid = some out ∧
        out.trace = pre ++ [Event.close] ∧
        (∀ e ∈ pre, e.isClose = false) ∧ out.file = some (F.Close f1) := by
  intro incoming
  induction incoming with
  | nil =>
    intro f mid hmid
    obtain ⟨m, f1, h1, h2, h3⟩ := afterLoop_closes F g f ⟨[], sendErr⟩ _
      (noClose_snoc mid (Event.recv (.err Error.EOF)) hmid rfl)
    exact ⟨_, m, f1, rfl, h1, h2, h3⟩
  | cons r rest ih =>
    intro f mid hmid
    cases r with
    | err e =>
      by_cases he : e = Error.EOF
      · obtain ⟨m, f1, h1, h2, h3⟩ := afterLoop_closes F g f ⟨rest, sendErr⟩ _
          (noClose_snoc mid (Event.recv (.err e)) hmid rfl)
        exact ⟨_, m, f1, by simp only [uploadLoop, he, if_true]; rfl, by rw [← he]; exact h1,
          h2, by rw [← he]; exact h3⟩
      · obtain ⟨m, f1, h1, h2, h3⟩ := sendAndClose_closes F
          ⟨"error while reading stream", .error⟩ f ⟨rest, sendErr⟩ _
          (noClose_snoc mid (Event.recv (.err e)) hmid rfl)
        exact ⟨_, m, f1, by simp only [uploadLoop, he, if_false], h1, h2, h3⟩
    | chunk c =>
      obtain ⟨r, hr⟩ := FileByChunks_buffer_total (fileWriter F) (bufferFuel c.Data.length)
        c.Data (f, mid ++ [Event.recv (.chunk c)]) (le_refl _)
      obtain ⟨ws, h1, h2⟩ := FileByChunks_fileWriter_writes F _ _ _ _ _ hr
      rcases r with ⟨res, s1, f1, tr1⟩
      simp only at h1
      subst h1
      have hsteps : ∀ e ∈ mid ++ [Event.recv (.chunk c)] ++ ws, e.isClose = false := by
        intro e he
        rcases List.mem_append.mp he with h | h
        · exact noClose_snoc mid (Event.recv (.chunk c)) hmid rfl e h
        · exact isClose_of_isWrite e (h2 e h)
      cases res with
      | some e =>
        obtain ⟨m, f2, h3, h4, h5⟩ := sendAndClose_closes F
          ⟨"could not write to file", .error⟩ f1 ⟨rest, sendErr⟩ _ hsteps
        exact ⟨_, m, f2, by simp only [uploadLoop, hr], h3, h4, h5⟩
      | none =>
        obtain ⟨out, m, f2, h3, h4, h5, h6⟩ := ih f1 _ hsteps
        exact ⟨out, m, f2, by simp only [uploadLoop, hr]; exact h3, h4, h5, h6⟩

/-- When the file backend succeeds, every run of `UploadFile`, also one that a panic of the
mutator ends, closes the file exactly once, as the last thing it does: every Write and every
response of the trace come before the Close. -/
theorem UploadFile_closes_once {σ : Type} (F : File σ) (g : GRPCServer σ)
    (stream : Stream) (f0 : σ) (hback : g.fileBackend = .ok f0) :
    ∃ out pre f1, UploadFile F g stream = some out ∧
      out.trace = pre ++ [Event.close] ∧ (∀ e ∈ pre, e.isClose = false) ∧
      countCloses out.trace = 1 ∧ out.file = some (F.Close f1) := by
  obtain ⟨out, pre, f1, h1, h2, h3, h4⟩ :=
    uploadLoop_closes F g stream.sendErr stream.incoming f0 [] (by simp)
  refine ⟨out, pre, f1, ?_, h2, h3, ?_, h4⟩
  · simp only [UploadFile, hback]
    exact h1
  · rw [h2]
    unfold countCloses
    rw [List.countP_append]
    have h0 : List.countP Event.isClose pre = 0 := by
      rw [List.countP_eq_zero]
      intro e he
      simp [h3 e he]
    rw [h0]
    rfl

set_option maxRecDepth 1000000 in
/-- C12, the failing input: the service as `NewFileUploaderService` wires it, started in an
empty directory, receives the one chunk `{"":null}`. The upload file is closed once, after
the Write, but when it is closed no terminal response has been issued, and none is issued
later: the mutator has panicked on the empty key. -/
theorem C12_close_without_response :
    ∃ out,
      UploadFile (uploadedFile OS.sound ("uploaded-file-" ++ "11111062109303045"))
          (NewFileUploaderService Runtime.amd64 OS.sound "11111062109303045"
            "11111062109303045" Disk.empty)
          ⟨[.chunk ⟨stringBytes "\x7b\"\":null\x7d"⟩], none⟩ = some out ∧
      out.trace =
        [Event.recv (.chunk ⟨stringBytes "\x7b\"\":null\x7d"⟩),
          Event.write (stringBytes "\x7b\"\":null\x7d") 9 none,
          Event.recv (.err Error.EOF), Event.seek none,
          Event.mutatePanic (Panic.indexOutOfRange 0 0), Event.close] ∧
      countCloses out.trace = 1 ∧ countSends out.trace = 0 :=
  ⟨_, rfl, rfl, rfl, rfl⟩

end api

namespace upload

theorem FileByChunks_recording {ρ ω : Type} (R : Reader ρ) (W : Writer ω) (fuel : Nat) :
    ∀ (file : ρ) (dest : ω) (log : List WriteCall),
      (FileByChunks R (recording W) fuel file (dest, log)).map (fun r => (r.1, r.2.1, r.2.2.1)) =
        FileByChunks R W fuel file dest := by
  induction fuel with
  | zero => intro file dest log; rfl
  | succ fuel ih =>
    intro file dest log
    rw [FileByChunks, FileByChunks]
    rcases hr : R.Read file pageSize with ⟨⟨page, rerr⟩, file1⟩
    simp only
    split
    · rfl
    · rcases hw : W.Write dest page with ⟨⟨n, werr⟩, dest1⟩
      have hrw : (recording W).Write (dest, log) page =
          ((n, werr), (dest1, log ++ [⟨page, n, werr⟩])) := by
        simp [recording, hw]
      simp only [show (recording W).1 (dest, log) page = _ from hrw,
        show W.1 dest page = _ from hw]
      cases werr with
      | some e => rfl
      | none =>
        simp only
        split
        · rfl
        · exact ih file1 dest1 _

theorem Replays_append {ω : Type} (W : Writer ω) (a : List WriteCall) :
    ∀ (b : List WriteCall) (d0 d1 d2 : ω), Replays W d0 a d1 → Replays W d1 b d2 →
      Replays W d0 (a ++ b) d2 := by
  induction a with
  | nil =>
    intro b d0 d1 d2 h1 h2
    simp only [Replays] at h1
    subst h1
    exact h2
  | cons c cs ih =>
    intro b d0 d1 d2 h1 h2
    exact ⟨h1.1, ih b _ d1 d2 h1.2 h2⟩

/-- What a run of `FileByChunks` on a byte buffer does to a logged destination: the log grows by
the calls made, which carry the successive pages of the buffer read so far; they are the calls
the destination went through; all of them succeeded when the result is nil; otherwise the last
one failed, the result wraps its error, and the ones before it succeeded. -/
theorem FileByChunks_buffer_log {ω : Type} (W : Writer ω) (fuel : Nat) :
    ∀ (s : List Byte) (dest : ω) (log : List WriteCall), bufferFuel s.length ≤ fuel →
      ∃ err rest dest1 calls,
        FileByChunks bytesBuffer (recording W) fuel s (dest, log) =
          some (err, rest, (dest1, log ++ calls)) ∧
        (calls.map WriteCall.p).flatten ++ rest = s ∧
        Replays W dest calls dest1 ∧
        (err = none → ∀ c ∈ calls, c.err = none) ∧
        (∀ e, err = some e → ∃ pre c cause, calls = pre ++ [c] ∧
          (∀ x ∈ pre, x.err = none) ∧ c.err = some cause ∧
          e = Error.Wrap "writing to file" cause) := by
  induction fuel with
  | zero => intro s dest log h; simp [bufferFuel] at h
  | succ fuel ih =>
    intro s dest log h
    by_cases hs : s = []
    · subst hs
      rw [FileByChunks_buffer_nil]
      exact ⟨none, [], dest, [], by simp, by simp, rfl, by simp, by simp⟩
    · rw [FileByChunks_buffer_step _ fuel s (dest, log) hs]
      rcases hw : W.Write dest (s.take pageSize) with ⟨⟨n, werr⟩, dest1⟩
      have hrw : (recording W).Write (dest, log) (s.take pageSize) =
          ((n, werr), (dest1, log ++ [⟨s.take pageSize, n, werr⟩])) := by
        simp [recording, hw]
      have hrep : Replays W dest [⟨s.take pageSize, n, werr⟩] dest1 := by
        simp [Replays, hw]
      rw [hrw]
      cases werr with
      | some e =>
        refine ⟨_, _, _, [⟨s.take pageSize, n, some e⟩], rfl, by simp, hrep, by simp, ?_⟩
        intro e1 he1
        simp only [Option.some.injEq] at he1
        exact ⟨[], _, e, rfl, by simp, rfl, he1.symm⟩
      | none =>
        simp only
        split
        · refine ⟨_, _, _, [⟨s.take pageSize, n, none⟩], rfl, by simp, hrep, by simp, by simp⟩
        · rcases le_or_lt pageSize s.length with hl | hl
          · obtain ⟨err, rest, dest2, calls, h1, h2, h3, h4, h5⟩ :=
              ih (s.drop pageSize) dest1 (log ++ [⟨s.take pageSize, n, none⟩])
                (bufferFuel_drop s fuel hl h)
            refine ⟨err, rest, dest2, ⟨s.take pageSize, n, none⟩ :: calls, ?_, ?_, ?_, ?_, ?_⟩
            · rw [h1]; simp
            · simp only [List.map_cons, List.flatten_cons, List.append_assoc, h2]
              exact List.take_append_drop _ _
            · exact Replays_append W [_] calls dest dest1 dest2 hrep h3
            · intro he c hc
              rcases List.mem_cons.mp hc with hc1 | hc1
              · subst hc1; rfl
              · exact h4 he c hc1
            · intro e he
              obtain ⟨pre, c, cause, h6, h7, h8, h9⟩ := h5 e he
              refine ⟨⟨s.take pageSize, n, none⟩ :: pre, c, cause, by rw [h6]; rfl, ?_, h8, h9⟩
              intro x hx
              rcases List.mem_cons.mp hx with hx1 | hx1
              · subst hx1; rfl
              · exact h7 x hx1
          · have hd : s.drop pageSize = [] := List.drop_eq_nil_of_le (le_of_lt hl)
            have hf : ∃ k, fuel = k + 1 := by
              refine ⟨fuel - 1, ?_⟩
              simp only [bufferFuel] at h
              generalize s.length / pageSize = q at h
              omega
            obtain ⟨k, hk⟩ := hf
            rw [hd, hk, FileByChunks_buffer_nil]
            refine ⟨none, [], dest1, [⟨s.take pageSize, n, none⟩], rfl, ?_, hrep, by simp,
              by simp⟩
            simp only [List.map_cons, List.map_nil, List.flatten_cons, List.flatten_nil,
              List.append_nil]
            exact List.take_of_length_le (le_of_lt hl)

end upload

namespace upload

theorem dropLast_cons_forall {α : Type} (P : α → Prop) (c : α) (cs : List α) (hc : P c)
    (hcs : ∀ x ∈ cs.dropLast, P x) : ∀ x ∈ (c :: cs).dropLast, P x := by
  cases cs with
  | nil => intro x hx; simp at hx
  | cons d ds =>
    intro x hx
    rw [List.dropLast_cons₂] at hx
    rcases List.mem_cons.mp hx with h | h
    · subst h; exact hc
    · exact hcs x h

/-- The Write calls of `FileByChunks` on a byte buffer when the destination never fails. -/
theorem FileByChunks_buffer_pages {ω : Type} (W : Writer ω) (content : ω → List Byte)
    (good : ω → Prop) (hW : NeverFails W content good) (fuel : Nat) :
    ∀ (s : List Byte) (dest : ω) (log : List WriteCall), good dest →
      s.length / pageSize + 1 ≤ fuel →
      ∃ dest1 calls,
        FileByChunks bytesBuffer (recording W) fuel s (dest, log) =
          some (none, [], (dest1, log ++ calls)) ∧
        good dest1 ∧
        calls.length = (s.length + 4095) / 4096 ∧
        (calls.map WriteCall.p).flatten = s ∧
        (∀ c ∈ calls.dropLast, c.p.length = 4096) ∧
        (∀ c ∈ calls, 1 ≤ c.p.length ∧ c.p.length ≤ 4096 ∧ c.n = c.p.length ∧ c.err = none) := by
  induction fuel with
  | zero => intro s dest _ _ h; simp at h
  | succ fuel ih =>
    intro s dest log hg h
    by_cases hs : s = []
    · subst hs
      rw [FileByChunks_buffer_nil]
      exact ⟨dest, [], by simp, hg, by simp, by simp, by simp, by simp⟩
    · rw [FileByChunks_buffer_step _ fuel s (dest, log) hs]
      obtain ⟨h1, _, hg1⟩ := hW dest (s.take pageSize) hg
      rcases hw : W.Write dest (s.take pageSize) with ⟨⟨n, werr⟩, dest1⟩
      rw [hw] at h1 hg1
      simp only [Prod.mk.injEq] at h1
      obtain ⟨hn, he⟩ := h1
      subst hn he
      have hrw : (recording W).Write (dest, log) (s.take pageSize) =
          (((s.take pageSize).length, none),
            (dest1, log ++ [⟨s.take pageSize, (s.take pageSize).length, none⟩])) := by
        simp [recording, hw]
      rw [hrw]
      simp only
      have hpos : 0 < s.length := List.length_pos.mpr hs
      have htl : (s.take pageSize).length = min pageSize s.length := List.length_take _ _
      by_cases hlen : pageSize ≤ s.length
      · have hnot : ¬ ((s.take pageSize).length < pageSize) := by omega
        rw [if_neg hnot]
        have hf : (s.drop pageSize).length / pageSize + 1 ≤ fuel := by
          simp only [List.length_drop]
          unfold pageSize at *
          omega
        obtain ⟨dest2, calls, hr, hg2, hc1, hc2, hc3, hc4⟩ :=
          ih (s.drop pageSize) dest1
            (log ++ [⟨s.take pageSize, (s.take pageSize).length, none⟩]) hg1 hf
        have hfull : (s.take pageSize).length = 4096 := by
          unfold pageSize at *
          omega
        refine ⟨dest2, ⟨s.take pageSize, (s.take pageSize).length, none⟩ :: calls, ?_, hg2,
          ?_, ?_, ?_, ?_⟩
        · rw [hr]; simp
        · simp only [List.length_cons, hc1, List.length_drop]
          unfold pageSize at *
          omega
        · simp only [List.map_cons, List.flatten_cons, hc2]
          exact List.take_append_drop _ _
        · exact dropLast_cons_forall (fun c => c.p.length = 4096)
            ⟨s.take pageSize, (s.take pageSize).length, none⟩ calls hfull hc3
        · intro c hc
          rcases List.mem_cons.mp hc with h5 | h5
          · subst h5
            exact ⟨by simp only [hfull]; decide, by simp only [hfull]; decide, rfl, rfl⟩
          · exact hc4 c h5
      · have hlt : (s.take pageSize).length < pageSize := by omega
        rw [if_pos hlt]
        have hd : s.drop pageSize = [] := List.drop_eq_nil_of_le (by omega)
        have ht : s.take pageSize = s := List.take_of_length_le (by omega)
        rw [hd, ht]
        refine ⟨dest1, [⟨s, s.length, none⟩], rfl, hg1, ?_, by simp, by simp, ?_⟩
        · simp only [List.length_singleton]
          unfold pageSize at *
          omega
        · intro c hc
          rw [List.mem_singleton.mp hc]
          refine ⟨hpos, ?_, rfl, rfl⟩
          show s.length ≤ 4096
          unfold pageSize at *
          omega

/-- Any error `FileByChunks` returns is the error of a Write on a page that a Read returned,
wrapped. -/
theorem FileByChunks_error_is_write_error {ρ ω : Type} (R : Reader ρ) (W : Writer ω) (fuel : Nat) :
    ∀ (file : ρ) (dest : ω) (err : Error) (rest : ρ × ω),
      FileByChunks R W fuel file dest = some (some err, rest) →
      ∃ cause d f, err = Error.Wrap "writing to file" cause ∧
        (W.Write d (R.Read f pageSize).1.1).1.2 = some cause := by
  induction fuel with
  | zero => intro file dest err rest h; simp [FileByChunks] at h
  | succ fuel ih =>
    intro file dest err rest h
    rw [FileByChunks] at h
    rcases hr : R.Read file pageSize with ⟨⟨page, rerr⟩, file1⟩
    simp only [show R.1 file pageSize = _ from hr] at h
    split at h
    · simp at h
    · rcases hw : W.Write dest page with ⟨⟨n, werr⟩, dest1⟩
      simp only [show W.1 dest page = _ from hw] at h
      cases werr with
      | some e =>
        simp only [Option.some.injEq, Prod.mk.injEq] at h
        refine ⟨e, dest, file, h.1.symm, ?_⟩
        rw [hr, hw]
      | none =>
        simp only at h
        split at h
        · simp at h
        · exact ih file1 dest1 err rest h

end upload

namespace upload

/-- C13: for a byte buffer `s` and any destination, `FileByChunks` returns (with or without the
log of Write calls), and it returns an error exactly when a Write call failed. The error is
`fmt.Errorf("writing to file: %w", cause)` for the error `cause` of the last call made, its
message is "writing to file: " followed by the message of the cause, and every call before it
succeeded, so none follows the first failure. The destination ends in the state that the
calls made leave it in, one after the other: nothing undoes the pages written before the
failure, and these pages are the buffer up to the unread rest. -/
theorem C13_error_iff_write_fails {ω : Type} (W : Writer ω) (s : List Byte) (dest : ω)
    (fuel : Nat) (hfuel : bufferFuel s.length ≤ fuel) :
    ∃ err rest dest1 calls,
      FileByChunks bytesBuffer (recording W) fuel s (dest, []) =
        some (err, rest, (dest1, calls)) ∧
      FileByChunks bytesBuffer W fuel s dest = some (err, rest, dest1) ∧
      (err.isSome = true ↔ ∃ c ∈ calls, c.err.isSome = true) ∧
      (∀ e, err = some e → ∃ pre c cause, calls = pre ++ [c] ∧
        (∀ x ∈ pre, x.err = none) ∧ c.err = some cause ∧
        e = Error.Wrap "writing to file" cause ∧
        e.Message = "writing to file: " ++ cause.Message) ∧
      Replays W dest calls dest1 ∧
      (calls.map WriteCall.p).flatten ++ rest = s := by
  obtain ⟨err, rest, dest1, calls, h1, h2, h3, h4, h5⟩ :=
    FileByChunks_buffer_log W fuel s dest [] hfuel
  rw [List.nil_append] at h1
  refine ⟨err, rest, dest1, calls, h1, ?_, ?_, ?_, h3, h2⟩
  · rw [← FileByChunks_recording bytesBuffer W fuel s dest [], h1]
    rfl
  · constructor
    · intro he
      obtain ⟨e, he1⟩ := Option.isSome_iff_exists.mp he
      obtain ⟨pre, c, cause, h6, _, h8, _⟩ := h5 e he1
      exact ⟨c, by rw [h6]; simp, by rw [h8]; rfl⟩
    · intro hc
      obtain ⟨c, hc1, hc2⟩ := hc
      cases err with
      | some e => rfl
      | none =>
        rw [h4 rfl c hc1] at hc2
        exact absurd hc2 (by simp)
  · intro e he
    obtain ⟨pre, c, cause, h6, h7, h8, h9⟩ := h5 e he
    exact ⟨pre, c, cause, h6, h7, h8, h9, by rw [h9]; rfl⟩

/-- Witness of C13: two bytes written to the test double whose Write fails. -/
theorem C13_error_iff_write_fails_witness :
    bufferFuel ([1, 2] : List Byte).length ≤ 2 ∧
    ∃ err rest dest1 calls,
      FileByChunks bytesBuffer (recording api.fakeFile.toWriter) 2 [1, 2]
          (⟨0, [], some (.New "assert.AnError general error for testing"), none, none⟩, []) =
        some (err, rest, (dest1, calls)) ∧
      FileByChunks bytesBuffer api.fakeFile.toWriter 2 [1, 2]
          ⟨0, [], some (.New "assert.AnError general error for testing"), none, none⟩ =
        some (err, rest, dest1) ∧
      (err.isSome = true ↔ ∃ c ∈ calls, c.err.isSome = true) ∧
      (∀ e, err = some e → ∃ pre c cause, calls = pre ++ [c] ∧
        (∀ x ∈ pre, x.err = none) ∧ c.err = some cause ∧
        e = Error.Wrap "writing to file" cause ∧
        e.Message = "writing to file: " ++ cause.Message) ∧
      Replays api.fakeFile.toWriter
        ⟨0, [], some (.New "assert.AnError general error for testing"), none, none⟩ calls dest1 ∧
      (calls.map WriteCall.p).flatten ++ rest = [1, 2] :=
  ⟨by decide, C13_error_iff_write_fails api.fakeFile.toWriter [1, 2]
    ⟨0, [], some (.New "assert.AnError general error for testing"), none, none⟩ 2 (by decide)⟩

/-- C17: for a byte buffer `s` of length L and a destination whose writes never fail,
`FileByChunks` returns nil after having read the whole buffer, and the Write calls it made are
(L + 4095) / 4096 many, the ceiling of L / 4096; their pages, one after the other, are `s`;
every call but the last carries 4096 bytes; every call, the last one among them, carries
between 1 and 4096 bytes and is answered with that count and no error; no call is made when
L = 0. -/
theorem C17_writes_per_buffer {ω : Type} (W : Writer ω) (content : ω → List Byte)
    (good : ω → Prop) (hW : NeverFails W content good) (s : List Byte) (dest : ω) (fuel : Nat)
    (hdest : good dest) (hfuel : s.length / pageSize + 1 ≤ fuel) :
    ∃ dest1 calls,
      FileByChunks bytesBuffer (recording W) fuel s (dest, []) =
        some (none, [], (dest1, calls)) ∧
      FileByChunks bytesBuffer W fuel s dest = some (none, [], dest1) ∧
      calls.length = (s.length + 4095) / 4096 ∧
      (calls.map WriteCall.p).flatten = s ∧
      (∀ c ∈ calls.dropLast, c.p.length = 4096) ∧
      (∀ c ∈ calls, 1 ≤ c.p.length ∧ c.p.length ≤ 4096 ∧ c.n = c.p.length ∧ c.err = none) ∧
      (s.length = 0 → calls = []) := by
  obtain ⟨dest1, calls, h1, _, h3, h4, h5, h6⟩ :=
    FileByChunks_buffer_pages W content good hW fuel s dest [] hdest hfuel
  rw [List.nil_append] at h1
  refine ⟨dest1, calls, h1, ?_, h3, h4, h5, h6, ?_⟩
  · rw [← FileByChunks_recording bytesBuffer W fuel s dest [], h1]
    rfl
  · intro h0
    apply List.eq_nil_of_length_eq_zero
    rw [h3, h0]

/-- Witness of C17: a buffer of 5000 bytes goes to a `bytes.Buffer` in two writes. -/
theorem C17_writes_per_buffer_witness :
    NeverFails bufferWriter id (fun _ => True) ∧
    (List.replicate 5000 (97 : Byte)).length / pageSize + 1 ≤ 2 ∧
    ∃ dest1 calls,
      FileByChunks bytesBuffer (recording bufferWriter) 2 (List.replicate 5000 (97 : Byte))
          ([], []) = some (none, [], (dest1, calls)) ∧
      FileByChunks bytesBuffer bufferWriter 2 (List.replicate 5000 (97 : Byte)) [] =
        some (none, [], dest1) ∧
      calls.length = ((List.replicate 5000 (97 : Byte)).length + 4095) / 4096 ∧
      (calls.map WriteCall.p).flatten = List.replicate 5000 (97 : Byte) ∧
      (∀ c ∈ calls.dropLast, c.p.length = 4096) ∧
      (∀ c ∈ calls, 1 ≤ c.p.length ∧ c.p.length ≤ 4096 ∧ c.n = c.p.length ∧ c.err = none) ∧
      ((List.replicate 5000 (97 : Byte)).length = 0 → calls = []) :=
  ⟨bufferWriter_neverFails, by rw [List.length_replicate]; decide,
    C17_writes_per_buffer bufferWriter id (fun _ => True) bufferWriter_neverFails
      (List.replicate 5000 (97 : Byte)) [] 2 trivial (by rw [List.length_replicate]; decide)⟩

set_option maxRecDepth 100000 in
/-- C18, the failing input: `iotest.OneByteReader` over the three bytes "abc" and a
`bytes.Buffer` as destination. `FileByChunks` returns nil after the first Read: the destination
holds "a" only and "bc" is still unread. -/
theorem C18_short_read_ends_the_copy :
    FileByChunks oneByteReader bufferWriter 5 [97, 98, 99] [] = some (none, [98, 99], [97]) ∧
    (oneByteReader.Read [98, 99] pageSize).1 = ([98], none) := by
  constructor
  · rfl
  · rfl

/-- C19: when a Read returns the page `page` with an error `e` that is not `io.EOF`, the loop
goes on as if there were no error: it writes `page`; if that Write fails, the result wraps the
error of the Write; if it succeeds with a count under 4096 the result is nil; otherwise the
loop continues. And whatever the reader and the destination, an error that `FileByChunks`
returns is the error of a Write of a page that a Read returned, wrapped. -/
theorem C19_read_error_not_reported {ρ ω : Type} (R : Reader ρ) (W : Writer ω) (fuel : Nat)
    (file file1 : ρ) (dest : ω) (page : List Byte) (e : Error)
    (hread : R.Read file pageSize = ((page, some e), file1))
    (hne : e.Is Error.EOF = false) :
    (∀ n dest1, W.Write dest page = ((n, none), dest1) → n < 4096 →
      FileByChunks R W (fuel + 1) file dest = some (none, file1, dest1)) ∧
    (∀ n dest1, W.Write dest page = ((n, none), dest1) → 4096 ≤ n →
      FileByChunks R W (fuel + 1) file dest = FileByChunks R W fuel file1 dest1) ∧
    (∀ n werr dest1, W.Write dest page = ((n, some werr), dest1) →
      FileByChunks R W (fuel + 1) file dest =
        some (some (Error.Wrap "writing to file" werr), file1, dest1)) ∧
    (∀ fuel1 file2 dest2 err rest, FileByChunks R W fuel1 file2 dest2 = some (some err, rest) →
      ∃ cause d f, err = Error.Wrap "writing to file" cause ∧
        (W.Write d (R.Read f pageSize).1.1).1.2 = some cause) := by
  have hstep : FileByChunks R W (fuel + 1) file dest =
      match W.Write dest page with
      | ((n, werr), dest1) =>
        match werr with
        | some e1 => some (some (Error.Wrap "writing to file" e1), file1, dest1)
        | none =>
          if n < pageSize then some (none, file1, dest1)
          else FileByChunks R W fuel file1 dest1 := by
    rw [FileByChunks]
    simp only [show R.1 file pageSize = _ from hread, hne]
    rfl
  refine ⟨?_, ?_, ?_, ?_⟩
  · intro n dest1 hw hn
    rw [hstep, hw]
    simp only
    rw [if_pos (by unfold pageSize; exact hn)]
  · intro n dest1 hw hn
    rw [hstep, hw]
    simp only
    rw [if_neg (by unfold pageSize; omega)]
  · intro n werr dest1 hw
    rw [hstep, hw]
  · intro fuel1 file2 dest2 err rest h
    exact FileByChunks_error_is_write_error R W fuel1 file2 dest2 err rest h

/-- Witness of C19: the test double of `grpc_test.go` as source, whose Read returns no byte
and the error it was given, and a `bytes.Buffer` as destination. -/
theorem C19_read_error_not_reported_witness :
    api.fakeReader.Read ⟨0, [], none, some (.New "assert.AnError general error for testing"), none⟩
        pageSize =
      (([], some (.New "assert.AnError general error for testing")),
        ⟨0, [], none, some (.New "assert.AnError general error for testing"), none⟩) ∧
    (Error.New "assert.AnError general error for testing").Is Error.EOF = false ∧
    FileByChunks api.fakeReader bufferWriter 1
        ⟨0, [], none, some (.New "assert.AnError general error for testing"), none⟩ [7] =
      some (none, ⟨0, [], none, some (.New "assert.AnError general error for testing"), none⟩,
        [7]) :=
  ⟨rfl, by decide,
    (C19_read_error_not_reported api.fakeReader bufferWriter 0
      ⟨0, [], none, some (.New "assert.AnError general error for testing"), none⟩
      ⟨0, [], none, some (.New "assert.AnError general error for testing"), none⟩ [7] []
      (.New "assert.AnError general error for testing") rfl (by decide)).1 0 [7] rfl
      (by decide)⟩

end upload

namespace upload

theorem keyLess_irrefl (a : List Char) : keyLess a a = false := by
  induction a with
  | nil => rfl
  | cons c cs ih => simp [keyLess, ih]

theorem keyLess_trans (a : List Char) :
    ∀ b c : List Char, keyLess a b = true → keyLess b c = true → keyLess a c = true := by
  induction a with
  | nil =>
    intro b c h1 h2
    cases b with
    | nil => simp [keyLess] at h1
    | cons y ys =>
      cases c with
      | nil => simp [keyLess] at h2
      | cons z zs => rfl
  | cons x xs ih =>
    intro b c h1 h2
    cases b with
    | nil => simp [keyLess] at h1
    | cons y ys =>
      cases c with
      | nil => simp [keyLess] at h2
      | cons z zs =>
        simp only [keyLess] at h1 h2 ⊢
        by_cases hxy : x.toNat < y.toNat
        · by_cases hyz : y.toNat < z.toNat
          · rw [if_pos (by omega)]
          · rw [if_neg hyz] at h2
            by_cases hzy : z.toNat < y.toNat
            · rw [if_pos hzy] at h2
              exact absurd h2 (by simp)
            · rw [if_pos (by omega)]
        · rw [if_neg hxy] at h1
          by_cases hyx : y.toNat < x.toNat
          · rw [if_pos hyx] at h1
            exact absurd h1 (by simp)
          · rw [if_neg hyx] at h1
            by_cases hyz : y.toNat < z.toNat
            · rw [if_pos (by omega)]
            · rw [if_neg hyz] at h2
              by_cases hzy : z.toNat < y.toNat
              · rw [if_pos hzy] at h2
                exact absurd h2 (by simp)
              · rw [if_neg hzy] at h2
                rw [if_neg (by omega), if_neg (by omega)]
                exact ih ys zs h1 h2

theorem keyLess_total (a : List Char) :
    ∀ b : List Char, keyLess a b = false → keyLess b a = false → a = b := by
  induction a with
  | nil =>
    intro b h1 _
    cases b with
    | nil => rfl
    | cons y ys => simp [keyLess] at h1
  | cons x xs ih =>
    intro b h1 h2
    cases b with
    | nil => simp [keyLess] at h2
    | cons y ys =>
      simp only [keyLess] at h1 h2
      by_cases hxy : x.toNat < y.toNat
      · rw [if_pos hxy] at h1
        exact absurd h1 (by simp)
      · rw [if_neg hxy] at h1
        by_cases hyx : y.toNat < x.toNat
        · rw [if_pos hyx] at h2
          exact absurd h2 (by simp)
        · rw [if_neg hyx] at h1 h2
          rw [if_neg hxy] at h2
          have hc : x = y := by
            have h3 : x.toNat = y.toNat := by omega
            rw [← Char.ofNat_toNat x, ← Char.ofNat_toNat y, h3]
          rw [hc, ih ys h1 h2]

theorem insertSorted_perm (key : String) (text : List Char) (l : List (String × List Char)) :
    (insertSorted key text l).Perm ((key, text) :: l) := by
  induction l with
  | nil => exact List.Perm.refl _
  | cons kt rest ih =>
    rcases kt with ⟨k, t⟩
    simp only [insertSorted]
    split
    · exact List.Perm.refl _
    · exact (List.Perm.cons _ ih).trans (List.Perm.swap _ _ _)

theorem insertSorted_sorted (key : String) (text : List Char) (l : List (String × List Char))
    (hl : l.Pairwise memberLess) (hkey : ∀ x ∈ l, x.1 ≠ key) :
    (insertSorted key text l).Pairwise memberLess := by
  induction l with
  | nil => simp [insertSorted]
  | cons kt rest ih =>
    rcases kt with ⟨k, t⟩
    rw [List.pairwise_cons] at hl
    simp only [insertSorted]
    split
    · rename_i hlt
      rw [List.pairwise_cons]
      refine ⟨?_, List.pairwise_cons.mpr hl⟩
      intro x hx
      rcases List.mem_cons.mp hx with h | h
      · rw [h]; exact hlt
      · exact keyLess_trans _ _ _ hlt (hl.1 x h)
    · rename_i hlt
      have hne : k ≠ key := hkey (k, t) (List.mem_cons_self _ _)
      have hgt : keyLess k.data key.data = true := by
        by_contra hc
        have h1 : keyLess key.data k.data = false := by simpa using hlt
        have h2 : keyLess k.data key.data = false := by simpa using hc
        have h3 := keyLess_total _ _ h1 h2
        exact hne (String.ext h3).symm
      rw [List.pairwise_cons]
      refine ⟨?_, ih hl.2 (fun x hx => hkey x (List.mem_cons_of_mem _ hx))⟩
      intro x hx
      rcases List.mem_cons.mp ((insertSorted_perm key text rest).subset hx) with h | h
      · rw [h]; exact hgt
      · exact hl.1 x h

theorem encodeMembers_cons (k : String) (v : Value) (ms : List (String × Value)) :
    encodeMembers ((k, v) :: ms) = insertSorted k (encodeValue v) (encodeMembers ms) := by
  rw [encodeMembers]

theorem encodeMembers_perm (m : List (String × Value)) :
    (encodeMembers m).Perm (m.map (fun kv => (kv.1, encodeValue kv.2))) := by
  induction m with
  | nil => rw [encodeMembers]; exact List.Perm.refl _
  | cons kv ms ih =>
    rcases kv with ⟨k, v⟩
    rw [encodeMembers_cons]
    exact (insertSorted_perm _ _ _).trans (List.Perm.cons _ ih)

theorem encodeMembers_sorted (m : List (String × Value)) (h : (GoMap.keys m).Nodup) :
    (encodeMembers m).Pairwise memberLess := by
  induction m with
  | nil => rw [encodeMembers]; exact List.Pairwise.nil
  | cons kv ms ih =>
    rcases kv with ⟨k, v⟩
    rw [encodeMembers_cons]
    simp only [GoMap.keys, List.map_cons, List.nodup_cons] at h
    refine insertSorted_sorted _ _ _ (ih h.2) ?_
    intro x hx hxk
    have h1 := (encodeMembers_perm ms).subset hx
    rw [List.mem_map] at h1
    obtain ⟨kv, hkv, he⟩ := h1
    apply h.1
    rw [List.mem_map]
    exact ⟨kv, hkv, by rw [← hxk, ← he]⟩

/-- The sorted members do not depend on the order of the entries of the map. -/
theorem encodeMembers_of_perm (m1 m2 : List (String × Value)) (hp : m1.Perm m2)
    (h1 : (GoMap.keys m1).Nodup) : encodeMembers m1 = encodeMembers m2 := by
  have h2 : (GoMap.keys m2).Nodup := (hp.map Prod.fst).nodup_iff.mp h1
  have hperm : (encodeMembers m1).Perm (encodeMembers m2) :=
    ((encodeMembers_perm m1).trans (hp.map _)).trans (encodeMembers_perm m2).symm
  haveI : IsAntisymm (String × List Char) memberLess :=
    ⟨fun a b hab hba => by
      have h3 := keyLess_trans _ _ _ hab hba
      rw [keyLess_irrefl] at h3
      exact absurd h3 (by simp)⟩
  exact List.eq_of_perm_of_sorted hperm (encodeMembers_sorted m1 h1) (encodeMembers_sorted m2 h2)

theorem Marshal_of_perm (m1 m2 : GoMap) (hp : m1.Perm m2) (h1 : m1.keys.Nodup) :
    Marshal m1 = Marshal m2 := by
  unfold Marshal
  rw [encodeValue, encodeValue, encodeMembers_of_perm m1 m2 hp h1]

theorem mutatedValue_congr (rt1 rt2 : Runtime) (h : rt1.int64OutOfRange = rt2.int64OutOfRange)
    (val : Value) : mutatedValue rt1 val = mutatedValue rt2 val := by
  cases val with
  | number f => simp only [mutatedValue, bumpTest, toInt64, h]
  | _ => rfl

theorem mutateAll_nodup (rt : Runtime) (l : List (String × Value)) :
    ∀ acc outData : GoMap, (∀ kv ∈ l, kv.1 ≠ "") → acc.keys.Nodup →
      mutateAll rt l acc = .ok outData → outData.keys.Nodup := by
  induction l with
  | nil =>
    intro acc outData _ hacc h
    simp only [mutateAll, Except.ok.injEq] at h
    rw [← h]
    exact hacc
  | cons kv rest ih =>
    intro acc outData hne hacc h
    rcases kv with ⟨key, val⟩
    have hk : key ≠ "" := hne (key, val) (List.mem_cons_self _ _)
    simp only [mutateAll, mutateEntry_eq rt acc key val hk] at h
    refine ih _ outData (fun kv hkv => hne kv (List.mem_cons_of_mem _ hkv)) ?_ h
    split
    · exact hacc
    · exact GoMap.set_nodup acc key _ hacc

/-- Two maps that answer every read alike hold the same entries. -/
theorem GoMap.perm_of_get (m1 m2 : GoMap) (h1 : m1.keys.Nodup) (h2 : m2.keys.Nodup)
    (h : ∀ key, m1.get key = m2.get key) : m1.Perm m2 := by
  classical
  rw [List.perm_ext_iff_of_nodup (List.Nodup.of_map _ h1) (List.Nodup.of_map _ h2)]
  intro kv
  rcases kv with ⟨k, v⟩
  rw [GoMap.mem_iff_get m1 h1, GoMap.mem_iff_get m2 h2, h k]

/-- The loop of `PerformJsonMutation` under two orders of iteration over the same map: both
panic, or both end with maps that answer every read alike and encode to the same bytes. -/
theorem mutateAll_order (rt1 rt2 : Runtime) (hplat : rt1.int64OutOfRange = rt2.int64OutOfRange)
    (inData : GoMap) (hnd : inData.keys.Nodup) :
    (mutateAll rt1 (rt1.rangeOrder inData) [] = .error (Panic.indexOutOfRange 0 0) ∧
      mutateAll rt2 (rt2.rangeOrder inData) [] = .error (Panic.indexOutOfRange 0 0)) ∨
    ∃ o1 o2, mutateAll rt1 (rt1.rangeOrder inData) [] = .ok o1 ∧
      mutateAll rt2 (rt2.rangeOrder inData) [] = .ok o2 ∧
      (∀ key, o1.get key = o2.get key) ∧ o1.keys.Nodup ∧ o2.keys.Nodup ∧
      Marshal o1 = Marshal o2 := by
  by_cases hempty : ∃ kv ∈ inData, kv.1 = ""
  · left
    obtain ⟨kv, hkv, hk⟩ := hempty
    exact ⟨mutateAll_empty_key rt1 _ [] ⟨kv, (rt1.rangeOrder_perm inData).mem_iff.mpr hkv, hk⟩,
      mutateAll_empty_key rt2 _ [] ⟨kv, (rt2.rangeOrder_perm inData).mem_iff.mpr hkv, hk⟩⟩
  · right
    have hne : ∀ (rt : Runtime), ∀ kv ∈ rt.rangeOrder inData, kv.1 ≠ "" := by
      intro rt kv hkv hk
      exact hempty ⟨kv, (rt.rangeOrder_perm inData).mem_iff.mp hkv, hk⟩
    obtain ⟨o1, ho1, hk1⟩ := mutateAll_keys rt1 (rt1.rangeOrder inData) [] (hne rt1)
    obtain ⟨o2, ho2, hk2⟩ := mutateAll_keys rt2 (rt2.rangeOrder inData) [] (hne rt2)
    have hn1 : o1.keys.Nodup := mutateAll_nodup rt1 _ [] o1 (hne rt1) List.nodup_nil ho1
    have hn2 : o2.keys.Nodup := mutateAll_nodup rt2 _ [] o2 (hne rt2) List.nodup_nil ho2
    have hget : ∀ key, o1.get key = o2.get key := by
      intro key
      by_cases hin : key ∈ o1.keys
      · have h1 := (hk1 key).mp hin
        simp only [GoMap.keys, List.map_nil, List.not_mem_nil, false_or] at h1
        obtain ⟨hmem, hv⟩ := h1
        rw [List.mem_map] at hmem
        obtain ⟨kv, hkv, hfst⟩ := hmem
        rcases kv with ⟨k, val⟩
        simp only at hfst
        subst hfst
        have hkv2 : (k, val) ∈ rt2.rangeOrder inData :=
          (rt2.rangeOrder_perm inData).mem_iff.mpr ((rt1.rangeOrder_perm inData).mem_iff.mp hkv)
        rw [mutateAll_get rt1 _ [] o1 k val (hne rt1) (rangeOrder_keys_nodup rt1 inData hnd) ho1
            hkv hv,
          mutateAll_get rt2 _ [] o2 k val (hne rt2) (rangeOrder_keys_nodup rt2 inData hnd) ho2
            hkv2 hv,
          mutatedValue_congr rt1 rt2 hplat]
      · have hin2 : key ∉ o2.keys := by
          intro h2
          apply hin
          have h3 := (hk2 key).mp h2
          simp only [GoMap.keys, List.map_nil, List.not_mem_nil, false_or] at h3
          apply (hk1 key).mpr
          right
          exact ⟨(rangeOrder_mem_keys rt1 inData key).mpr
            ((rangeOrder_mem_keys rt2 inData key).mp h3.1), h3.2⟩
        rw [(GoMap.get_eq_none o1 key).mpr hin, (GoMap.get_eq_none o2 key).mpr hin2]
    exact ⟨o1, o2, ho1, ho2, hget, hn1, hn2,
      Marshal_of_perm o1 o2 (GoMap.perm_of_get o1 o2 hn1 hn2 hget) hn1⟩

/-- C14: on one platform, two runs of `PerformJsonMutation` that visit the keys of the parsed
map in different orders do the same: the same panic, the same returned error, the same bytes
written. When the loop ends, the two output maps answer every read alike, their keys are
encoded in increasing order, and their serializations are the same bytes. -/
theorem C14_output_independent_of_iteration_order {ω : Type} (rt1 rt2 : Runtime) (W : Writer ω)
    (src : Source) (out : ω) (hplat : rt1.int64OutOfRange = rt2.int64OutOfRange) :
    PerformJsonMutation rt1 W src out = PerformJsonMutation rt2 W src out ∧
    ∀ inData o1 o2, Unmarshal src.data [] = .ok inData →
      mutateAll rt1 (rt1.rangeOrder inData) [] = .ok o1 →
      mutateAll rt2 (rt2.rangeOrder inData) [] = .ok o2 →
      (∀ key, o1.get key = o2.get key) ∧ (encodeMembers o1).Pairwise memberLess ∧
        encodeMembers o1 = encodeMembers o2 ∧ Marshal o1 = Marshal o2 := by
  constructor
  · unfold PerformJsonMutation
    rcases hr : ReadAll src with ⟨contents, rerr⟩
    cases rerr with
    | some e => rfl
    | none =>
      simp only
      cases hu : Unmarshal contents [] with
      | error e => rfl
      | ok inData =>
        simp only
        rcases mutateAll_order rt1 rt2 hplat inData (Unmarshal_nodup contents inData hu) with
          ⟨h1, h2⟩ | ⟨o1, o2, h1, h2, _, _, _, hm⟩
        · rw [h1, h2]
        · rw [h1, h2]
          simp only [hm]
  · intro inData o1 o2 hu h1 h2
    rcases mutateAll_order rt1 rt2 hplat inData (Unmarshal_nodup src.data inData hu) with
      ⟨h3, _⟩ | ⟨p1, p2, h3, h4, hget, hn1, hn2, hm⟩
    · rw [h3] at h1
      cases h1
    · rw [h3] at h1
      rw [h4] at h2
      cases h1
      cases h2
      exact ⟨hget, encodeMembers_sorted _ hn1,
        encodeMembers_of_perm _ _ (GoMap.perm_of_get _ _ hn1 hn2 hget) hn1, hm⟩

set_option maxRecDepth 1000000 in
/-- The first scenario of the specification under the reversed order of iteration: the bytes
written are those the test expects. -/
theorem scenario_reversed :
    PerformJsonMutation Runtime.reversed bufferWriter ⟨scenarioInput, Error.EOF⟩ [] =
      .ok (none, stringBytes "\x7b\"b_property\":12309123,\"b_property_even\":3000\x7d") := by
  rfl

/-- Witness of C14: the first scenario of the specification, with the keys visited from the
first to the last and from the last to the first. -/
theorem C14_output_independent_of_iteration_order_witness :
    Runtime.amd64.int64OutOfRange = Runtime.reversed.int64OutOfRange ∧
    PerformJsonMutation Runtime.amd64 bufferWriter ⟨scenarioInput, Error.EOF⟩ [] =
      .ok (none, stringBytes "\x7b\"b_property\":12309123,\"b_property_even\":3000\x7d") :=
  ⟨rfl, ((C14_output_independent_of_iteration_order Runtime.amd64 Runtime.reversed bufferWriter
    ⟨scenarioInput, Error.EOF⟩ [] rfl).1).trans scenario_reversed⟩

end upload

namespace api

open upload

/-- A Write on the file `name` leaves the other files alone. -/
theorem osFile_other (os : OS) (name other : String) (d : Disk) (p : List Byte)
    (h : other ≠ name) : ((osFile os name).Write d p).2 other = d other := by
  simp only [osFile]
  split <;> simp [Disk.store, h]

/-- A Write on the file `name` that returns no error stores the whole page at its end. -/
theorem osFile_ok (os : OS) (name : String) (d : Disk) (p : List Byte) (n : Nat) (d1 : Disk)
    (h : (osFile os name).Write d p = ((n, none), d1)) :
    d1 name = some ((d name).getD [] ++ p) := by
  simp only [osFile] at h
  split at h
  · simp at h
  · simp only [Prod.mk.injEq] at h
    rw [← h.2]
    simp [Disk.store]

/-- What `PerformJsonMutation` does to `out`: nothing when it returns a read or parse error;
otherwise one Write of the serialized output, whose error it returns wrapped. -/
theorem PerformJsonMutation_out {ω : Type} (rt : Runtime) (W : Writer ω) (src : Source) (out : ω)
    (ret : Option Error) (out1 : ω) (h : PerformJsonMutation rt W src out = .ok (ret, out1)) :
    (ret.isSome = true ∧ out1 = out) ∨
    ∃ inData outData, Unmarshal src.data [] = .ok inData ∧
      mutateAll rt (rt.rangeOrder inData) [] = .ok outData ∧
      out1 = (W.Write out (Marshal outData)).2 ∧
      (ret = none ↔ (W.Write out (Marshal outData)).1.2 = none) := by
  unfold PerformJsonMutation at h
  by_cases he : src.err = Error.EOF
  · simp only [ReadAll, he, if_true] at h
    cases hu : Unmarshal src.data [] with
    | error e =>
      rw [hu] at h
      simp only [Except.ok.injEq, Prod.mk.injEq] at h
      left
      exact ⟨by rw [← h.1]; rfl, h.2.symm⟩
    | ok inData =>
      rw [hu] at h
      simp only at h
      cases hm : mutateAll rt (rt.rangeOrder inData) [] with
      | error p => rw [hm] at h; cases h
      | ok outData =>
        rw [hm] at h
        simp only [Except.ok.injEq] at h
        right
        refine ⟨inData, outData, rfl, hm, ?_, ?_⟩
        · unfold writeModified at h
          rcases hw : W.Write out (Marshal outData) with ⟨⟨n, werr⟩, o1⟩
          rw [show W.1 out (Marshal outData) = _ from hw] at h
          cases werr with
          | some e => simp only [Prod.mk.injEq] at h; exact h.2.symm
          | none => simp only [Prod.mk.injEq] at h; exact h.2.symm
        · unfold writeModified at h
          rcases hw : W.Write out (Marshal outData) with ⟨⟨n, werr⟩, o1⟩
          rw [show W.1 out (Marshal outData) = _ from hw] at h
          cases werr with
          | some e =>
            simp only [Prod.mk.injEq] at h
            rw [← h.1]
            simp
          | none =>
            simp only [Prod.mk.injEq] at h
            rw [← h.1]
  · simp only [ReadAll, he, if_false, Except.ok.injEq, Prod.mk.injEq] at h
    left
    exact ⟨by rw [← h.1]; rfl, h.2.symm⟩

/-- C16: once `os.OpenFile` has created the mutation-output file, `defaultUploadedFileMutator`
goes one of three ways. When `PerformJsonMutation` returns an error, the function returns that
error and the directory is the one `os.Remove` of that file leaves behind: unless the
operating system refuses the removal, the file is gone, and every other file, the primary
upload file among them, is as it was. When `PerformJsonMutation` returns nil, the function
returns nil, the file holds the serialization of the output map, and every other file is as it
was. When `PerformJsonMutation` panics, no error is returned and nothing is removed: the
panic goes through and leaves the empty file. -/
theorem C16_mutation_output_removed_on_error (rt : Runtime) (os : OS) (timeSuffix : String)
    (src : Source) (d d1 : Disk)
    (hopen : OpenFile os d ("uploaded-file-mutated" ++ timeSuffix) = .ok d1) :
    (∀ err d2,
      PerformJsonMutation rt (osFile os ("uploaded-file-mutated" ++ timeSuffix)) src d1 =
        .ok (some err, d2) →
      defaultUploadedFileMutator rt os timeSuffix src d =
        .ok (some err, (Remove os d2 ("uploaded-file-mutated" ++ timeSuffix)).2) ∧
      (os.removeFail d2 ("uploaded-file-mutated" ++ timeSuffix) = none →
        (Remove os d2 ("uploaded-file-mutated" ++ timeSuffix)).2
          ("uploaded-file-mutated" ++ timeSuffix) = none) ∧
      ∀ other, other ≠ "uploaded-file-mutated" ++ timeSuffix →
        (Remove os d2 ("uploaded-file-mutated" ++ timeSuffix)).2 other = d other) ∧
    (∀ d2,
      PerformJsonMutation rt (osFile os ("uploaded-file-mutated" ++ timeSuffix)) src d1 =
        .ok (none, d2) →
      defaultUploadedFileMutator rt os timeSuffix src d = .ok (none, d2) ∧
      (∃ inData outData, Unmarshal src.data [] = .ok inData ∧
        mutateAll rt (rt.rangeOrder inData) [] = .ok outData ∧
        d2 ("uploaded-file-mutated" ++ timeSuffix) = some (Marshal outData)) ∧
      ∀ other, other ≠ "uploaded-file-mutated" ++ timeSuffix → d2 other = d other) ∧
    (∀ p,
      PerformJsonMutation rt (osFile os ("uploaded-file-mutated" ++ timeSuffix)) src d1 =
        .error p →
      defaultUploadedFileMutator rt os timeSuffix src d = .error (p, d1) ∧
      d1 ("uploaded-file-mutated" ++ timeSuffix) = some []) := by
  generalize hname : "uploaded-file-mutated" ++ timeSuffix = name at hopen ⊢
  have hd1 : d1 = d.store name [] := by
    unfold OpenFile at hopen
    split at hopen
    · cases hopen
    · simp only [Except.ok.injEq] at hopen
      exact hopen.symm
  have hd1o : ∀ other, other ≠ name → d1 other = d other := by
    intro other ho
    rw [hd1]
    simp [Disk.store, ho]
  have hd1n : d1 name = some [] := by
    rw [hd1]
    simp [Disk.store]
  have hother : ∀ ret d2, PerformJsonMutation rt (osFile os name) src d1 = .ok (ret, d2) →
      ∀ other, other ≠ name → d2 other = d other := by
    intro ret d2 h other ho
    rcases PerformJsonMutation_out rt (osFile os name) src d1 ret d2 h with
      ⟨_, h2⟩ | ⟨_, outData, _, _, h2, _⟩
    · rw [h2]; exact hd1o other ho
    · rw [h2, osFile_other os name other d1 _ ho]; exact hd1o other ho
  refine ⟨?_, ?_, ?_⟩
  · intro err d2 h
    refine ⟨?_, ?_, ?_⟩
    · simp only [defaultUploadedFileMutator, hname, hopen, h]
    · intro hr
      simp only [Remove, hr]
      split
      · simp [Disk.delete]
      · rename_i hs
        simp only [Option.isSome_iff_ne_none, ne_eq, not_not] at hs
        exact hs
    · intro other ho
      have h3 : (Remove os d2 name).2 other = d2 other := by
        simp only [Remove]
        split
        · rfl
        · split
          · simp [Disk.delete, ho]
          · rfl
      rw [h3]
      exact hother _ d2 h other ho
  · intro d2 h
    refine ⟨?_, ?_, hother _ d2 h⟩
    · simp only [defaultUploadedFileMutator, hname, hopen, h]
    · rcases PerformJsonMutation_out rt (osFile os name) src d1 none d2 h with
        ⟨h1, _⟩ | ⟨inData, outData, h1, h2, h3, h4⟩
      · simp at h1
      · refine ⟨inData, outData, h1, h2, ?_⟩
        have h5 := h4.mp rfl
        rcases hw : (osFile os name).Write d1 (Marshal outData) with ⟨⟨n, werr⟩, o1⟩
        rw [hw] at h3 h5
        simp only at h3 h5
        subst h3 h5
        rw [osFile_ok os name d1 _ n d2 hw, hd1n]
        rfl
  · intro p h
    exact ⟨by simp only [defaultUploadedFileMutator, hname, hopen, h], hd1n⟩

set_option maxRecDepth 1000000 in
/-- The scenario of malformed input: the content is rejected before anything is written. -/
theorem gibberish_rejected :
    ∃ err, PerformJsonMutation Runtime.amd64
        (osFile OS.sound ("uploaded-file-mutated" ++ "11111062109303045"))
        ⟨gibberish, Error.EOF⟩
        (Disk.store Disk.empty ("uploaded-file-mutated" ++ "11111062109303045") []) =
      .ok (some err, Disk.store Disk.empty ("uploaded-file-mutated" ++ "11111062109303045") []) :=
  ⟨_, rfl⟩

/-- Witness of C16: the scenario of malformed input in an empty directory, with an operating
system that refuses nothing: the error is returned and the file is gone. -/
theorem C16_mutation_output_removed_on_error_witness :
    OpenFile OS.sound Disk.empty ("uploaded-file-mutated" ++ "11111062109303045") =
      .ok (Disk.store Disk.empty ("uploaded-file-mutated" ++ "11111062109303045") []) ∧
    ∃ err,
      defaultUploadedFileMutator Runtime.amd64 OS.sound "11111062109303045"
          ⟨gibberish, Error.EOF⟩ Disk.empty =
        .ok (some err,
          (Remove OS.sound
            (Disk.store Disk.empty ("uploaded-file-mutated" ++ "11111062109303045") [])
            ("uploaded-file-mutated" ++ "11111062109303045")).2) ∧
      (Remove OS.sound
        (Disk.store Disk.empty ("uploaded-file-mutated" ++ "11111062109303045") [])
        ("uploaded-file-mutated" ++ "11111062109303045")).2
          ("uploaded-file-mutated" ++ "11111062109303045") = none :=
  ⟨rfl, gibberish_rejected.elim (fun err h =>
    ⟨err,
      ((C16_mutation_output_removed_on_error Runtime.amd64 OS.sound "11111062109303045"
        ⟨gibberish, Error.EOF⟩ Disk.empty _ rfl).1 err _ h).1,
      ((C16_mutation_output_removed_on_error Runtime.amd64 OS.sound "11111062109303045"
        ⟨gibberish, Error.EOF⟩ Disk.empty _ rfl).1 err _ h).2.1 rfl⟩)⟩

end api
